import Mathlib

/-!
# PERT / critical-path scheduling engine (`pert.h`, `pert.c++`)

Shallow embedding of the scheduling engine and proofs about it.

Modelling conventions.
* `std::string` is `String`; `std::map<std::string, T>` is an association list
  kept in strictly ascending key order (the iteration order of `std::map`).
  `std::less<std::string>` compares bytes lexicographically and `<` on `String`
  compares code points lexicographically; on UTF-8 text the two orders agree.
* `float` is IEEE 754 binary32, modelled by `F32`: signed zeros, subnormals,
  infinities and NaN are values, every `+` and `-` is rounded to binary32 (to
  nearest, ties to even; no excess precision), and `<`, `==`, `std::max`,
  `std::min` treat NaN as the C++ operators do.
* A member function that mutates the object takes the state and returns the new
  state next to its return value.
* `Option` results: `none` means that the call does not return normally
  (`std::map::at` throws `std::out_of_range`, or a loop has not ended within the
  fuel given to it).
-/

/-! ## Binary32 arithmetic -/

/-- A binary32 (`float`) value. Every finite binary32 number is a whole multiple of
`2^-149`: `fin neg n` is the number `(-1)^neg * n * 2^-149`, so `fin false 0` is `0.0f` and
`fin true 0` is `-0.0f`. `inf neg` is the infinity of that sign. `nan` stands for every NaN;
the program never looks at the sign or payload of a NaN. The binary32 numbers are the
`fin neg n` in which `n` has at most 24 significant bits and is below `2^128 * 2^149`; the
type has further values, and what is proved for every value of the type holds for the
binary32 numbers. -/
inductive F32 where
  | nan : F32
  | inf (neg : Bool) : F32
  | fin (neg : Bool) (n : Nat) : F32
deriving DecidableEq

/-- The magnitude `2^128` in units of `2^-149`: the least magnitude that is out of the
range of finite binary32 numbers. -/
def F32.huge : Nat := 2 ^ 128 * 2 ^ 149

/-- How many binary digits `n` has beyond 24: the number of halvings that bring `n` below
`2^24`. The first argument bounds the number of halvings; `n` itself is always enough. -/
def F32.excess : Nat → Nat → Nat
  | 0, _ => 0
  | fuel + 1, n => if n < 2 ^ 24 then 0 else F32.excess fuel (n / 2) + 1

/-- The magnitude `n` (in units of `2^-149`) rounded to 24 significant bits, to nearest
with ties to even. Magnitudes below `2^24` units (subnormals and the lowest binade) are
exact. -/
def F32.roundMag (n : Nat) : Nat :=
  let shift := F32.excess n n
  let q := n / 2 ^ shift
  let r := n % 2 ^ shift
  (if 2 ^ shift < 2 * r ∨ (2 * r = 2 ^ shift ∧ q % 2 = 1) then q + 1 else q) * 2 ^ shift

/-- Rounding of the exact magnitude `n` with sign `neg`: a rounded magnitude of `2^128` or
more becomes infinity. -/
def F32.round (neg : Bool) (n : Nat) : F32 :=
  if F32.huge ≤ F32.roundMag n then F32.inf neg else F32.fin neg (F32.roundMag n)

/-- The integer `(-1)^neg * n`. -/
def F32.signed (neg : Bool) (n : Nat) : Int := if neg then -(n : Int) else (n : Int)

/-- Unary minus. -/
def F32.neg : F32 → F32
  | F32.nan => F32.nan
  | F32.inf s => F32.inf (!s)
  | F32.fin s n => F32.fin (!s) n

/-- The operator `+` on `float`: infinities of opposite sign give NaN; an exact sum of zero
is `+0` unless both operands are negative zeros; every other finite sum is rounded. -/
def F32.add : F32 → F32 → F32
  | F32.nan, _ => F32.nan
  | _, F32.nan => F32.nan
  | F32.inf a, F32.inf b => if a = b then F32.inf a else F32.nan
  | F32.inf a, F32.fin _ _ => F32.inf a
  | F32.fin _ _, F32.inf b => F32.inf b
  | F32.fin a n, F32.fin b m =>
    let s := F32.signed a n + F32.signed b m
    if s = 0 then F32.fin (a && b) 0 else F32.round (decide (s < 0)) s.natAbs

/-- The operator `-` on `float`: `x - y` is `x + (-y)`. -/
def F32.sub (x y : F32) : F32 := F32.add x (F32.neg y)

/-- Place on the extended number line, `none` for NaN. The two zeros share the place 0 and
the infinities lie beyond every finite value (all of which are below `2^128`). -/
def F32.key : F32 → Option Int
  | F32.nan => none
  | F32.inf false => some (F32.huge : Int)
  | F32.inf true => some (-(F32.huge : Int))
  | F32.fin s n => some (F32.signed s n)

/-- The operator `<` on `float`: false when either side is NaN. -/
def F32.lt (x y : F32) : Bool :=
  match F32.key x, F32.key y with
  | some a, some b => decide (a < b)
  | _, _ => false

/-- The operator `<=` on `float`: false when either side is NaN. -/
def F32.le (x y : F32) : Bool :=
  match F32.key x, F32.key y with
  | some a, some b => decide (a ≤ b)
  | _, _ => false

/-- The operator `==` on `float`: false when either side is NaN, true for `0.0f == -0.0f`. -/
def F32.eq (x y : F32) : Bool :=
  match F32.key x, F32.key y with
  | some a, some b => decide (a = b)
  | _, _ => false

/-- The call `std::max(a, b)`, which returns `(a < b) ? b : a`. -/
def F32.max (a b : F32) : F32 := if F32.lt a b = true then b else a

/-- The call `std::min(a, b)`, which returns `(b < a) ? b : a`. -/
def F32.min (a b : F32) : F32 := if F32.lt b a = true then b else a

/-- The value `std::numeric_limits<float>::infinity()`. -/
def F32.infinity : F32 := F32.inf false

/-- Conversion of a non-negative integer to `float`, as for the literal `2` passed where a
`float` is expected. -/
def F32.ofNat : Nat → F32
  | 0 => F32.fin false 0
  | n + 1 => F32.round false ((n + 1) * 2 ^ 149)

instance (n : Nat) : OfNat F32 n := ⟨F32.ofNat n⟩

/-- Whether the value is a finite number (neither an infinity nor NaN): every finite
binary32 magnitude is below `2^128`. -/
def F32.isFinite : F32 → Bool
  | F32.fin _ n => decide (n < F32.huge)
  | _ => false

/-- The exact rational value of a finite `float`; 0 for infinities and NaN. -/
def F32.toRat : F32 → ℚ
  | F32.fin s n => (F32.signed s n : ℚ) / 2 ^ 149
  | _ => 0

/-! ## Data model -/

/-- One activity of the project (`struct Activity`). -/
structure Activity where
  activity_id : String := ""
  duration : F32 := 0
  predecessors : List String := []
  successors : List String := []
  ES : F32 := 0
  EF : F32 := 0
  LS : F32 := 0
  LF : F32 := 0
  slack : F32 := 0
deriving DecidableEq

instance : Inhabited Activity := ⟨{}⟩

/-- The object state of `class PERT`. -/
structure PERT where
  activities : List (String × Activity) := []
  project_duration : F32 := 0
  topo_order : List String := []
  critical_path : List String := []
deriving DecidableEq

/-! ## `std::map` operations on key-ordered association lists -/

/-- Keys in iteration order. -/
def mapKeys {β : Type} (m : List (String × β)) : List String := m.map Prod.fst

/-- Lookup `m.find(k)`: the value stored under `k`, if any. -/
def mapFind {β : Type} : List (String × β) → String → Option β
  | [], _ => none
  | (k', v) :: rest, k => if k' = k then some v else mapFind rest k

/-- Number of entries with key `k`, as `m.count(k)` returns it. -/
def mapCount {β : Type} (m : List (String × β)) (k : String) : Nat :=
  match mapFind m k with
  | some _ => 1
  | none => 0

/-- Ordered insertion of `(k, v)`; an existing entry for `k` is overwritten. -/
def mapInsert {β : Type} : List (String × β) → String → β → List (String × β)
  | [], k, v => [(k, v)]
  | (k', v') :: rest, k, v =>
    if k < k' then (k, v) :: (k', v') :: rest
    else if k = k' then (k, v) :: rest
    else (k', v') :: mapInsert rest k v

/-- The map after evaluating `m[k]`: a value-initialised entry is inserted when
`k` is missing. -/
def mapIndex {β : Type} [Inhabited β] (m : List (String × β)) (k : String) : List (String × β) :=
  if mapCount m k = 0 then mapInsert m k default else m

/-- The value that `m[k]` refers to. -/
def mapGet {β : Type} [Inhabited β] (m : List (String × β)) (k : String) : β :=
  (mapFind m k).getD default

/-- Update in place of the value stored under `k`. -/
def mapModify {β : Type} (m : List (String × β)) (k : String) (f : β → β) : List (String × β) :=
  m.map fun kv => if kv.1 = k then (kv.1, f kv.2) else kv

namespace PERT

/-- Model of `PERT::addActivity`: the boolean result and the state afterwards. -/
def addActivity (s : PERT) (id : String) (duration : F32) (predecessors : List String) :
    Bool × PERT :=
  if id = "" ∨ F32.lt duration 0 = true then (false, s)
  else if mapCount s.activities id ≠ 0 then (false, s)
  else
    let a : Activity := { activity_id := id, duration := duration, predecessors := predecessors }
    (true, { activities := mapInsert s.activities id a
             project_duration := 0
             topo_order := []
             critical_path := [] })

/-- Model of `PERT::clear`. -/
def clear (_s : PERT) : PERT :=
  { activities := [], project_duration := 0, topo_order := [], critical_path := [] }

/-- Model of `PERT::find`; `none` is the null pointer. -/
def find (s : PERT) (id : String) : Option Activity := mapFind s.activities id

/-- Model of `PERT::getProjectDuration`. -/
def getProjectDuration (s : PERT) : F32 := s.project_duration

/-- Model of `PERT::getCriticalPath`; `none` is `std::nullopt`. -/
def getCriticalPath (s : PERT) : Option (List String) :=
  if s.critical_path = [] then none else some s.critical_path

/-! ### `buildGraph` -/

/-- First loop of `buildGraph`: every successor list is cleared. -/
def clearSuccessors (m : List (String × Activity)) : List (String × Activity) :=
  m.map fun kv => (kv.1, { kv.2 with successors := [] })

/-- Error text of `buildGraph` for the missing predecessor `p` of activity `k`. -/
def missingMsg (p k : String) : String :=
  "Processor not exist: " ++ p ++ " (Activity: " ++ k ++ ")"

/-- Inner loop of `buildGraph` for the activity with key `k`: walks its
predecessor list; `some e` is the error text of the early `return false`. -/
def linkPreds (k : String) :
    List String → List (String × Activity) → Option String × List (String × Activity)
  | [], m => (none, m)
  | p :: ps, m =>
    if mapCount m p = 0 then (some (missingMsg p k), m)
    else linkPreds k ps
      (mapModify (mapIndex m p) p fun a => { a with successors := a.successors ++ [k] })

/-- Outer loop of `buildGraph` over the entries still to visit, each given as
its key and its predecessor list (which the loop never changes). -/
def linkAll :
    List (String × List String) → List (String × Activity) →
      Option String × List (String × Activity)
  | [], m => (none, m)
  | (k, ps) :: rest, m =>
    match linkPreds k ps m with
    | (some e, m') => (some e, m')
    | (none, m') => linkAll rest m'

/-- Model of `PERT::buildGraph`: the boolean result, the value of `err`, and the state. -/
def buildGraph (s : PERT) (err : String) : Bool × String × PERT :=
  let m0 := clearSuccessors s.activities
  match linkAll (m0.map fun kv => (kv.1, kv.2.predecessors)) m0 with
  | (some e, m) => (false, e, { s with activities := m })
  | (none, m) => (true, err, { s with activities := m })

/-! ### `topoSort` -/

/-- The statement `indeg[s]++`. -/
def indegIncr (d : List (String × Int)) (s : String) : List (String × Int) :=
  mapModify (mapIndex d s) s fun n => n + 1

/-- The statement `indeg[s]--`. -/
def indegDecr (d : List (String × Int)) (s : String) : List (String × Int) :=
  mapModify (mapIndex d s) s fun n => n - 1

/-- Step 1 of `topoSort`: `indeg[k] = 0` for every activity. -/
def indegInit (m : List (String × Activity)) : List (String × Int) :=
  m.foldl (fun d kv => mapInsert d kv.1 0) []

/-- Step 2 of `topoSort`: one increment per entry of every successor list. -/
def indegCount (m : List (String × Activity)) (d : List (String × Int)) : List (String × Int) :=
  m.foldl (fun d kv => kv.2.successors.foldl indegIncr d) d

/-- Step 3 of `topoSort`: the keys of in-degree 0, in key order. -/
def zeroQueue (d : List (String × Int)) : List String :=
  d.filterMap fun kv => if kv.2 = 0 then some kv.1 else none

/-- Inner loop of step 4: decrement the in-degree of each successor and enqueue
the ones that reach 0. -/
def relax : List String → List (String × Int) × List String → List (String × Int) × List String
  | [], st => st
  | s :: ss, (d, q) =>
    let d1 := indegDecr d s
    if mapGet d1 s = 0 then relax ss (d1, q ++ [s]) else relax ss (d1, q)

/-- The `while (!q.empty())` loop of `topoSort`, on the activities, the in-degree
table, the queue and the order built so far. -/
def topoLoop : Nat → List (String × Activity) → List (String × Int) → List String → List String →
    Option (List (String × Activity) × List String)
  | _, acts, _, [], order => some (acts, order)
  | 0, _, _, _ :: _, _ => none
  | fuel + 1, acts, d, u :: q, order =>
    let acts1 := mapIndex acts u
    let st := relax (mapGet acts1 u).successors (d, q)
    topoLoop fuel acts1 st.1 st.2 (order ++ [u])

/-- Error text of `topoSort`. -/
def cycleMsg : String := "检测到环(循环依赖)"

/-- Model of `PERT::topoSort` with the given loop fuel: the boolean result, the
value of `err`, and the state. -/
def topoSort (fuel : Nat) (s : PERT) (err : String) : Option (Bool × String × PERT) :=
  let indeg := indegCount s.activities (indegInit s.activities)
  match topoLoop fuel s.activities indeg (zeroQueue indeg) [] with
  | none => none
  | some (acts, order) =>
    if order.length ≠ acts.length then
      some (false, cycleMsg, { s with activities := acts, topo_order := [] })
    else
      some (true, err, { s with activities := acts, topo_order := order })

/-! ### Forward and backward pass -/

/-- Inner loop of `forwardPass`: `es = std::max(es, activities[p].EF)`. -/
def maxEF : List String → List (String × Activity) → F32 → List (String × Activity) × F32
  | [], m, es => (m, es)
  | p :: ps, m, es =>
    let m1 := mapIndex m p
    maxEF ps m1 (F32.max es (mapGet m1 p).EF)

/-- Loop of `forwardPass` over the ids still to visit. -/
def forwardLoop : List String → List (String × Activity) → F32 → List (String × Activity) × F32
  | [], m, pd => (m, pd)
  | id :: ids, m, pd =>
    let m1 := mapIndex m id
    let r := maxEF (mapGet m1 id).predecessors m1 0
    let ef := F32.add r.2 (mapGet r.1 id).duration
    let m2 := mapModify r.1 id fun a => { a with ES := r.2, EF := F32.add r.2 a.duration }
    forwardLoop ids m2 (F32.max pd ef)

/-- Model of `PERT::forwardPass`. -/
def forwardPass (s : PERT) : Bool × PERT :=
  let r := forwardLoop s.topo_order s.activities 0
  (true, { s with activities := r.1, project_duration := r.2 })

/-- Inner loop of `backwardPass`: `lf = std::min(lf, activities[s].LS)`. -/
def minLS : List String → List (String × Activity) → F32 → List (String × Activity) × F32
  | [], m, lf => (m, lf)
  | s :: ss, m, lf =>
    let m1 := mapIndex m s
    minLS ss m1 (F32.min lf (mapGet m1 s).LS)

/-- Latest finish of one activity in `backwardPass`: the project duration when the
successor list is empty, otherwise the running minimum started at `+∞`. -/
def latestFinish (succs : List String) (m : List (String × Activity)) (pd : F32) :
    List (String × Activity) × F32 :=
  if succs = [] then (m, pd) else minLS succs m F32.infinity

/-- Loop of `backwardPass` over the ids still to visit (reverse topological order). -/
def backwardLoop : List String → List (String × Activity) → F32 → List (String × Activity)
  | [], m, _ => m
  | id :: ids, m, pd =>
    let m1 := mapIndex m id
    let r := latestFinish (mapGet m1 id).successors m1 pd
    let m2 := mapModify r.1 id fun a => { a with LF := r.2, LS := F32.sub r.2 a.duration }
    backwardLoop ids m2 pd

/-- Model of `PERT::backwardPass`. -/
def backwardPass (s : PERT) : Bool × PERT :=
  (true, { s with activities := backwardLoop s.topo_order.reverse s.activities s.project_duration })

/-- The two statements of the loop body of `calculateSlack` on one activity:
`slack = LS - ES`, then `if (slack == -0.0f) slack = 0.0f`. -/
def slackOf (a : Activity) : Activity :=
  let sl := F32.sub a.LS a.ES
  { a with slack := if F32.eq sl (F32.neg 0) = true then 0 else sl }

/-- Model of `PERT::calculateSlack`. -/
def calculateSlack (s : PERT) : PERT :=
  { s with activities := s.activities.map fun kv => (kv.1, slackOf kv.2) }

/-! ### Critical path -/

/-- Access `m.at(k)`; `none` when `std::out_of_range` is thrown. -/
def mapAt (m : List (String × Activity)) (k : String) : Option Activity := mapFind m k

/-- The `for (auto &s : curA.successors)` scan: the first successor with zero slack
whose `ES` equals `curA.EF`, or the empty string when there is none. -/
def nextCritical (m : List (String × Activity)) (curA : Activity) : List String → Option String
  | [] => some ""
  | s :: ss =>
    match mapAt m s with
    | none => none
    | some cand =>
      if F32.eq cand.slack 0 = true ∧ F32.eq curA.EF cand.ES = true then some s
      else nextCritical m curA ss

/-- The `while (true)` loop of `deriveCriticalPath`. -/
def walk : Nat → List (String × Activity) → String → List String → Option (List String)
  | 0, _, _, _ => none
  | fuel + 1, m, cur, path =>
    match mapAt m cur with
    | none => none
    | some curA =>
      match nextCritical m curA curA.successors with
      | none => none
      | some next => if next = "" then some path else walk fuel m next (path ++ [next])

/-- The outer loop of `deriveCriticalPath` over the topological order. -/
def scanStart (fuel : Nat) (m : List (String × Activity)) : List String → Option (List String)
  | [] => some []
  | id :: ids =>
    match mapAt m id with
    | none => none
    | some a =>
      if a.predecessors = [] ∧ F32.eq a.slack 0 = true then walk fuel m id [id]
      else scanStart fuel m ids

/-- Model of `PERT::deriveCriticalPath` with the given fuel for the `while (true)` loop. -/
def deriveCriticalPath (fuel : Nat) (s : PERT) : Option PERT :=
  (scanStart fuel s.activities s.topo_order).map fun p => { s with critical_path := p }

/-! ### `calculate` -/

/-- Model of `PERT::calculate`: the boolean result, the state afterwards, and the text
written to `std::cerr`. The queue loop and the chain walk get fuel
`activities.size() + 1`. -/
def calculate (s : PERT) : Option (Bool × PERT × String) :=
  if s.activities = [] then some (false, s, "没有活动\n")
  else
    match buildGraph s "" with
    | (false, err, s1) => some (false, s1, "构建失败: " ++ err ++ "\n")
    | (true, err, s1) =>
      match topoSort (s1.activities.length + 1) s1 err with
      | none => none
      | some (false, err2, s2) => some (false, s2, "拓扑失败: " ++ err2 ++ "\n")
      | some (true, _, s2) =>
        match forwardPass s2 with
        | (false, s3) => some (false, s3, "")
        | (true, s3) =>
          match backwardPass s3 with
          | (false, s4) => some (false, s4, "")
          | (true, s4) =>
            let s5 := calculateSlack s4
            (deriveCriticalPath (s5.activities.length + 1) s5).map fun s6 => (true, s6, "")

end PERT

/-! ## Specification vocabulary: invariants and derived notions used in the statements -/

/-- Keys in strictly ascending order: the representation invariant of `std::map`. -/
def KeysSorted {β : Type} (m : List (String × β)) : Prop :=
  (mapKeys m).Pairwise (· < ·)

/-- The map with every activity replaced by a projection of it. -/
def mapProj {γ : Type} (π : Activity → γ) (m : List (String × Activity)) : List (String × γ) :=
  m.map fun kv => (kv.1, π kv.2)

namespace PERT

/-- Everything of an activity except its successor list. -/
def noSucc (a : Activity) : Activity := { a with successors := [] }

/-- The activity with `l` appended to its successor list. -/
def addSucc (l : List String) (a : Activity) : Activity :=
  { a with successors := a.successors ++ l }

/-- The dependants of `p` among the entries `es` (key, predecessor list): each key
once per occurrence of `p` in its predecessor list, in entry order. -/
def succOf (es : List (String × List String)) (p : String) : List String :=
  es.flatMap fun e => (e.2.filter fun x => x = p).map fun _ => e.1

/-- Keys with their predecessor lists, in key order. -/
def predEntries (m : List (String × Activity)) : List (String × List String) :=
  m.map fun kv => (kv.1, kv.2.predecessors)

/-- Every predecessor named by a registered activity is registered. -/
def PredsResolved (m : List (String × Activity)) : Prop :=
  ∀ k a, mapFind m k = some a → ∀ p ∈ a.predecessors, p ∈ mapKeys m

/-- Every successor list is the list of dependants that `buildGraph` produces. -/
def SuccSpec (m : List (String × Activity)) : Prop :=
  ∀ p a, mapFind m p = some a → a.successors = succOf (predEntries m) p

/-- The part of an activity that no stage after `buildGraph` changes. -/
def static (a : Activity) : String × F32 × List String × List String :=
  (a.activity_id, a.duration, a.predecessors, a.successors)

/-- The part of an activity given by the caller of `addActivity`. -/
def core (a : Activity) : String × F32 × List String :=
  (a.activity_id, a.duration, a.predecessors)

/-- The state of the activity map that the stages after `buildGraph` rely on. -/
structure GraphOK (m : List (String × Activity)) : Prop where
  sorted : KeysSorted m
  resolved : PredsResolved m
  succSpec : SuccSpec m

/-- Every entry of every successor list, in map order. -/
def allSucc (m : List (String × Activity)) : List String :=
  m.flatMap fun kv => kv.2.successors

/-- The in-degree table that `topoSort` starts its queue loop with. -/
def indeg0 (m : List (String × Activity)) : List (String × Int) :=
  indegCount m (indegInit m)

/-- Successor list stored under `u`. -/
def succs (m : List (String × Activity)) (u : String) : List String := (mapGet m u).successors

/-- Predecessor list stored under `u`. -/
def preds (m : List (String × Activity)) (u : String) : List String := (mapGet m u).predecessors

/-- Invariant of the queue loop of `topoSort`. -/
structure KahnInv (m : List (String × Activity)) (d : List (String × Int))
    (q order : List String) : Prop where
  nodup : (order ++ q).Nodup
  sub : ∀ x ∈ order ++ q, x ∈ mapKeys m
  deg : ∀ s, mapGet d s + ((order.flatMap (succs m)).count s : Int) = ((allSucc m).count s : Int)
  zero : ∀ s ∈ mapKeys m, (s ∈ order ++ q ↔ mapGet d s = 0)
  topo : ∀ pre x post, order = pre ++ x :: post → ∀ p ∈ preds m x, p ∈ pre

/-- Invariant of the inner loop of the queue loop, while the successors `part`
of the dequeued `u` have been handled. -/
structure RelaxInv (m : List (String × Activity)) (order : List String) (u : String)
    (part : List String) (d : List (String × Int)) (q : List String) : Prop where
  nodup : (order ++ u :: q).Nodup
  sub : ∀ x ∈ q, x ∈ mapKeys m
  deg : ∀ s, mapGet d s + ((order.flatMap (succs m)).count s : Int) + (part.count s : Int)
    = ((allSucc m).count s : Int)
  zero : ∀ s ∈ mapKeys m, (s ∈ order ++ u :: q ↔ mapGet d s = 0)

/-- Activity `a` is registered and names `b` in its predecessor list. -/
def Dep (m : List (String × Activity)) (a b : String) : Prop :=
  ∃ act, mapFind m a = some act ∧ b ∈ act.predecessors

/-- The predecessor relation has no cycle (a self-dependency is a cycle). -/
def Acyclic (m : List (String × Activity)) : Prop :=
  ∀ a, ¬ Relation.TransGen (Dep m) a a

/-- A complete Kahn order: contains every key once, predecessors first. -/
structure TopoOrder (m : List (String × Activity)) (ord : List String) : Prop where
  nodup : ord.Nodup
  perm : ord.Perm (mapKeys m)
  before : ∀ pre x post, ord = pre ++ x :: post → ∀ p ∈ preds m x, p ∈ pre

end PERT

namespace F32

/-- The value is NaN, an infinity, or a finite number within the binary32 range. -/
def InRange (x : F32) : Prop := ∀ s n, x = F32.fin s n → n < F32.huge

end F32

namespace PERT

/-- A list in which every element comes after all of its dependencies. -/
structure DepOrdered (deps : String → List String) (l : List String) : Prop where
  nodup : l.Nodup
  before : ∀ pre x post, l = pre ++ x :: post → ∀ p ∈ deps x, p ∈ pre

/-- The value of `es` after the predecessor loop of `forwardPass`, started at `e`. -/
def esOf (m : List (String × Activity)) (ps : List String) (e : F32) : F32 :=
  ps.foldl (fun es p => F32.max es (mapGet m p).EF) e

/-- One iteration of the loop of `forwardPass` when no key is missing. -/
def fwdStep (m : List (String × Activity)) (id : String) : List (String × Activity) :=
  mapModify m id fun a =>
    { a with ES := esOf m (preds m id) 0, EF := F32.add (esOf m (preds m id) 0) a.duration }

/-- Everything of an activity except `ES` and `EF`. -/
def fwdFrame (a : Activity) : (String × F32 × List String × List String) × F32 × F32 × F32 :=
  (static a, a.LS, a.LF, a.slack)

/-- Invariant of the loop of `forwardPass` after the ids `done`. -/
structure FwdInv (m0 : List (String × Activity)) (done : List String)
    (m : List (String × Activity)) (pd : F32) : Prop where
  frame : mapProj fwdFrame m = mapProj fwdFrame m0
  es : ∀ k ∈ done, (mapGet m k).ES = esOf m (preds m0 k) 0
  ef : ∀ k ∈ done, (mapGet m k).EF = F32.add (mapGet m k).ES (mapGet m k).duration
  pd : pd = esOf m done 0

/-- The running minimum of the successor loop of `backwardPass`, started at `lf`. -/
def lfFold (m : List (String × Activity)) (ss : List String) (lf : F32) : F32 :=
  ss.foldl (fun lf s => F32.min lf (mapGet m s).LS) lf

/-- The latest finish that `backwardPass` assigns for the successor list `ss`. -/
def lfOf (m : List (String × Activity)) (ss : List String) (pd : F32) : F32 :=
  if ss = [] then pd else lfFold m ss F32.infinity

/-- One iteration of the loop of `backwardPass` when no key is missing. -/
def bwdStep (pd : F32) (m : List (String × Activity)) (id : String) : List (String × Activity) :=
  mapModify m id fun a =>
    { a with LF := lfOf m (succs m id) pd, LS := F32.sub (lfOf m (succs m id) pd) a.duration }

/-- Everything of an activity except `LS` and `LF`. -/
def bwdFrame (a : Activity) : (String × F32 × List String × List String) × F32 × F32 × F32 :=
  (static a, a.ES, a.EF, a.slack)

/-- Invariant of the loop of `backwardPass` after the ids `done`. -/
structure BwdInv (m0 : List (String × Activity)) (pd : F32) (done : List String)
    (m : List (String × Activity)) : Prop where
  frame : mapProj bwdFrame m = mapProj bwdFrame m0
  lf : ∀ k ∈ done, (mapGet m k).LF = lfOf m (succs m0 k) pd
  ls : ∀ k ∈ done, (mapGet m k).LS = F32.sub (mapGet m k).LF (mapGet m k).duration

/-- The schedule equations that hold after the passes of a successful `calculate`, in
binary32 arithmetic: `ord` is the topological order and `pd` the project duration. -/
structure Scheduled (m : List (String × Activity)) (ord : List String) (pd : F32) : Prop where
  es : ∀ k ∈ mapKeys m, (mapGet m k).ES = esOf m (preds m k) 0
  ef : ∀ k ∈ mapKeys m, (mapGet m k).EF = F32.add (mapGet m k).ES (mapGet m k).duration
  lf : ∀ k ∈ mapKeys m, (mapGet m k).LF = lfOf m (succs m k) pd
  ls : ∀ k ∈ mapKeys m, (mapGet m k).LS = F32.sub (mapGet m k).LF (mapGet m k).duration
  slack : ∀ k ∈ mapKeys m, (mapGet m k).slack =
    if F32.eq (F32.sub (mapGet m k).LS (mapGet m k).ES) (F32.neg 0) = true then 0
    else F32.sub (mapGet m k).LS (mapGet m k).ES
  pd : pd = esOf m ord 0

/-- Everything of an activity except `slack`. -/
def slackFrame (a : Activity) :
    (String × F32 × List String × List String) × F32 × F32 × F32 × F32 :=
  (static a, a.ES, a.EF, a.LS, a.LF)

/-- The test that `deriveCriticalPath` applies to a successor `n` of `p`. -/
def Tight (m : List (String × Activity)) (p n : String) : Prop :=
  n ∈ succs m p ∧ F32.eq (mapGet m n).slack 0 = true ∧
    F32.eq (mapGet m p).EF (mapGet m n).ES = true

/-- No successor of `k` passes the test of `deriveCriticalPath`. -/
def Stuck (m : List (String × Activity)) (k : String) : Prop :=
  ∀ s ∈ succs m k, ¬ (F32.eq (mapGet m s).slack 0 = true ∧
    F32.eq (mapGet m k).EF (mapGet m s).ES = true)

/-- The last element of the non-empty list `a :: l`. -/
def lastOf (a : String) (l : List String) : String := (a :: l).getLast (List.cons_ne_nil a l)

/-- What `deriveCriticalPath` leaves in `critical_path`. -/
structure CritPath (m : List (String × Activity)) (path : List String) : Prop where
  chain : List.Chain' (Tight m) path
  mem : ∀ k ∈ path, k ∈ mapKeys m
  head : ∀ k l, path = k :: l →
    preds m k = [] ∧ F32.eq (mapGet m k).slack 0 = true ∧ Stuck m (lastOf k l)

/-- What `addActivity` guarantees of every registered entry: a non-empty key,
the key as `activity_id`, and a duration that did not compare below zero. -/
def RegOK (m : List (String × Activity)) : Prop :=
  ∀ k a, mapFind m k = some a → k ≠ "" ∧ a.activity_id = k ∧ F32.lt a.duration 0 = false

/-- Invariant of every state that the public operations can reach. -/
structure Inv (s : PERT) : Prop where
  sorted : KeysSorted s.activities
  reg : RegOK s.activities

/-- Text written to `std::cerr` when the activity set is empty. -/
def emptyMsg : String := "没有活动\n"

/-- Text written to `std::cerr` when `buildGraph` fails with `err`. -/
def buildFailMsg (err : String) : String := "构建失败: " ++ err ++ "\n"

/-- Text written to `std::cerr` when `topoSort` fails with `err`. -/
def topoFailMsg (err : String) : String := "拓扑失败: " ++ err ++ "\n"

/-- What a failed `calculate` leaves untouched. -/
structure FailFrame (s s1 : PERT) : Prop where
  pd : s1.project_duration = s.project_duration
  cp : s1.critical_path = s.critical_path
  acts : mapProj noSucc s1.activities = mapProj noSucc s.activities

/-- The state after a successful `calculate`. -/
structure Calculated (s s' : PERT) : Prop where
  core : mapProj core s'.activities = mapProj core s.activities
  graph : GraphOK s'.activities
  order : TopoOrder s'.activities s'.topo_order
  sched : Scheduled s'.activities s'.topo_order s'.project_duration
  crit : CritPath s'.activities s'.critical_path
  start : s'.critical_path = [] → ∀ x ∈ s'.topo_order,
    ¬ ((mapGet s'.activities x).predecessors = [] ∧
      F32.eq (mapGet s'.activities x).slack 0 = true)

/-- States reachable from a freshly constructed `PERT` by `addActivity` calls only. -/
inductive AddReachable : PERT → Prop
  | fresh : AddReachable {}
  | add (s : PERT) (id : String) (d : F32) (ps : List String) :
      AddReachable s → AddReachable (addActivity s id d ps).2

/-- States reachable from a freshly constructed `PERT` by the public mutating
operations `addActivity`, `clear` and `calculate`. -/
inductive Reachable : PERT → Prop
  | fresh : Reachable {}
  | add (s : PERT) (id : String) (d : F32) (ps : List String) :
      Reachable s → Reachable (addActivity s id d ps).2
  | clear (s : PERT) : Reachable s → Reachable (clear s)
  | calculate (s s' : PERT) (b : Bool) (e : String) :
      Reachable s → calculate s = some (b, s', e) → Reachable s'

/-- Reachable states tagged with whether some `calculate` has returned `true`
since the last successful `addActivity` or `clear`. -/
inductive Trace : PERT → Bool → Prop
  | fresh : Trace {} false
  | add_ok (s : PERT) (b : Bool) (id : String) (d : F32) (ps : List String) :
      Trace s b → (addActivity s id d ps).1 = true → Trace (addActivity s id d ps).2 false
  | add_rejected (s : PERT) (b : Bool) (id : String) (d : F32) (ps : List String) :
      Trace s b → (addActivity s id d ps).1 = false → Trace (addActivity s id d ps).2 b
  | clear (s : PERT) (b : Bool) : Trace s b → Trace (clear s) false
  | calc_true (s s' : PERT) (b : Bool) (e : String) :
      Trace s b → calculate s = some (true, s', e) → Trace s' true
  | calc_false (s s' : PERT) (b : Bool) (e : String) :
      Trace s b → calculate s = some (false, s', e) → Trace s' b

/-- One activity was scheduled without rounding: its duration and its five times are
finite, and `EF = ES + duration`, `LS = LF - duration`, `slack = LS - ES` hold for the exact
values. -/
def ExactAct (a : Activity) : Prop :=
  F32.isFinite a.duration = true ∧ F32.isFinite a.ES = true ∧ F32.isFinite a.EF = true ∧
  F32.isFinite a.LS = true ∧ F32.isFinite a.LF = true ∧ F32.isFinite a.slack = true ∧
  F32.toRat a.EF = F32.toRat a.ES + F32.toRat a.duration ∧
  F32.toRat a.LS = F32.toRat a.LF - F32.toRat a.duration ∧
  F32.toRat a.slack = F32.toRat a.LS - F32.toRat a.ES

instance (a : Activity) : Decidable (ExactAct a) := by
  unfold ExactAct
  infer_instance

/-- No addition or subtraction of the passes was rounded or overflowed: every registered
activity satisfies `ExactAct`. -/
def Exact (m : List (String × Activity)) : Prop := ∀ kv ∈ m, ExactAct kv.2

instance (m : List (String × Activity)) : Decidable (Exact m) := by
  unfold Exact
  infer_instance

end PERT

namespace F32

/-- The non-negative value `n * 2^j` units, that is `n * 2^(j-149)`. -/
def grid (j n : Nat) : F32 := F32.fin false (n * 2 ^ j)

/-- The magnitude of a finite value counted in multiples of `2^j` units (rounded down). -/
def gridNat (j : Nat) : F32 → Nat
  | F32.fin _ n => n / 2 ^ j
  | _ => 0

/-- The value is a non-negative whole multiple of `2^j` units. -/
def OnGrid (j : Nat) (x : F32) : Prop := x = grid j (gridNat j x)

instance (j : Nat) (x : F32) : Decidable (OnGrid j x) := by
  unfold OnGrid
  infer_instance

end F32

namespace PERT

/-- The registry after `addActivity("A", 2, {})`, `addActivity("B", 4, {"A"})`,
`addActivity("C", 3, {"A"})` on a fresh object. -/
def exampleABC : PERT :=
  (addActivity (addActivity (addActivity {} "A" 2 []).2 "B" 4 ["A"]).2 "C" 3 ["A"]).2

/-- The state that `calculate` leaves for `exampleABC`. -/
def scheduledABC : PERT :=
  { activities :=
      [("A", { activity_id := "A", duration := 2, predecessors := [], successors := ["B", "C"],
               ES := 0, EF := 2, LS := 0, LF := 2, slack := 0 }),
       ("B", { activity_id := "B", duration := 4, predecessors := ["A"], successors := [],
               ES := 2, EF := 6, LS := 2, LF := 6, slack := 0 }),
       ("C", { activity_id := "C", duration := 3, predecessors := ["A"], successors := [],
               ES := 2, EF := 5, LS := 3, LF := 6, slack := 1 })]
    project_duration := 6
    topo_order := ["A", "B", "C"]
    critical_path := ["A", "B"] }

/-- The registry after `addActivity("A", NaN, {})` on a fresh object; the guard
`duration < 0.0f` is false for NaN. -/
def nanA : PERT := (addActivity {} "A" F32.nan []).2

/-- The state that `calculate` leaves for `nanA`. -/
def scheduledNanA : PERT :=
  { activities :=
      [("A", { activity_id := "A", duration := F32.nan, predecessors := [], successors := [],
               ES := 0, EF := F32.nan, LS := F32.nan, LF := 0, slack := F32.nan })]
    project_duration := 0
    topo_order := ["A"]
    critical_path := [] }

/-- The registry after `addActivity("A", 16777216, {})` and `addActivity("B", 1, {"A"})` on
a fresh object. Both durations are exact binary32 numbers, and `16777216 + 1` is not. -/
def bigAB : PERT := (addActivity (addActivity {} "A" 16777216 []).2 "B" 1 ["A"]).2

/-- The state that `calculate` leaves for `bigAB`. -/
def scheduledBigAB : PERT :=
  { activities :=
      [("A", { activity_id := "A", duration := 16777216, predecessors := [],
               successors := ["B"], ES := 0, EF := 16777216, LS := F32.neg 1, LF := 16777215,
               slack := F32.neg 1 }),
       ("B", { activity_id := "B", duration := 1, predecessors := ["A"], successors := [],
               ES := 16777216, EF := 16777216, LS := 16777215, LF := 16777216,
               slack := F32.neg 1 })]
    project_duration := 16777216
    topo_order := ["A", "B"]
    critical_path := [] }

/-- The text `t` contains the text `sub`. -/
def Contains (t sub : String) : Prop := ∃ pre post, t = pre ++ sub ++ post

/-- The registry after `addActivity("A", 1, {"B"})` and `addActivity("B", 1, {"A"})` on a
fresh object: A depends on B and B depends on A. -/
def cycleAB : PERT :=
  (addActivity (addActivity {} "A" 1 ["B"]).2 "B" 1 ["A"]).2

/-- The registry after `addActivity("A", 1, {"X"})` on a fresh object: the predecessor
`X` is not registered. -/
def danglingA : PERT := (addActivity {} "A" 1 ["X"]).2

/-- The registry after `addActivity("A", NaN, {})` and `addActivity("B", 1, {"A"})` on a
fresh object. -/
def nanAB : PERT := (addActivity (addActivity {} "A" F32.nan []).2 "B" 1 ["A"]).2

/-- The registry after `addActivity("P", 1, {})` and `addActivity("A", +∞, {"P"})` on a
fresh object; the guard `duration < 0.0f` is false for `+∞`. -/
def infPA : PERT := (addActivity (addActivity {} "P" 1 []).2 "A" F32.infinity ["P"]).2

/-- The activity set on which `calculate` succeeds. -/
def Computable (m : List (String × Activity)) : Prop :=
  m ≠ [] ∧ PredsResolved m ∧ Acyclic m

/-- The state that the failed `calculate` leaves for `cycleAB`. -/
def cycleABFailed : PERT :=
  { activities :=
      [("A", { activity_id := "A", duration := 1, predecessors := ["B"], successors := ["B"] }),
       ("B", { activity_id := "B", duration := 1, predecessors := ["A"], successors := ["A"] })]
    project_duration := 0
    topo_order := []
    critical_path := [] }

/-- The registry after `addActivity("Z", 1, {})`, `addActivity("B", 1, {"Z"})`,
`addActivity("A", 1, {"Z"})` on a fresh object: B is added before A. -/
def exampleZBA : PERT :=
  (addActivity (addActivity (addActivity {} "Z" 1 []).2 "B" 1 ["Z"]).2 "A" 1 ["Z"]).2

/-- The state that `calculate` leaves after `addActivity("A", 2, {})` on a fresh object. -/
def scheduledA : PERT :=
  { activities :=
      [("A", { activity_id := "A", duration := 2, predecessors := [], successors := [],
               ES := 0, EF := 2, LS := 0, LF := 2, slack := 0 })]
    project_duration := 2
    topo_order := ["A"]
    critical_path := ["A"] }

/-- After `addActivity("A", 2, {})`, a successful `calculate()` and then
`addActivity("B", 1, {"missing"})`: A keeps the times of the earlier calculation. -/
def staleAB : PERT := (addActivity scheduledA "B" 1 ["missing"]).2

/-- After `addActivity("A", 2, {})` and `addActivity("B", 1, {"missing"})` on a fresh
object, with no calculation in between. -/
def freshAB : PERT := (addActivity (addActivity {} "A" 2 []).2 "B" 1 ["missing"]).2

end PERT

/-! ## Supporting lemmas -/

theorem mapFind_eq_none_iff {β : Type} (m : List (String × β)) (k : String) :
    mapFind m k = none ↔ k ∉ mapKeys m := by
  induction m with
  | nil => simp [mapFind, mapKeys]
  | cons kv rest ih =>
    obtain ⟨k', v⟩ := kv
    by_cases h : k' = k
    · simp [mapFind, mapKeys, h]
    · have h' : ¬ k = k' := fun e => h e.symm
      simpa [mapFind, mapKeys, h, h'] using ih

theorem mem_mapKeys_iff {β : Type} (m : List (String × β)) (k : String) :
    k ∈ mapKeys m ↔ ∃ v, mapFind m k = some v := by
  rw [← not_iff_not, ← mapFind_eq_none_iff]
  cases mapFind m k <;> simp

theorem mapFind_mem {β : Type} (m : List (String × β)) (k : String) (v : β)
    (h : mapFind m k = some v) : (k, v) ∈ m := by
  induction m with
  | nil => simp [mapFind] at h
  | cons kv rest ih =>
    obtain ⟨k', v'⟩ := kv
    by_cases hk : k' = k
    · simp [mapFind, hk] at h
      simp [hk, h]
    · simp [mapFind, hk] at h
      exact List.mem_cons_of_mem _ (ih h)

theorem mapFind_of_mem {β : Type} (m : List (String × β)) (k : String) (v : β)
    (hn : (mapKeys m).Nodup) (h : (k, v) ∈ m) : mapFind m k = some v := by
  induction m with
  | nil => simp at h
  | cons kv rest ih =>
    obtain ⟨k', v'⟩ := kv
    simp only [mapKeys, List.map_cons, List.nodup_cons] at hn
    rcases List.mem_cons.1 h with h | h
    · simp only [Prod.mk.injEq] at h
      simp [mapFind, h.1, h.2]
    · have hk : k' ≠ k := by
        intro e
        apply hn.1
        rw [e]
        exact List.mem_map_of_mem Prod.fst h
      simp only [mapFind, hk, if_false]
      exact ih hn.2 h

theorem mapCount_eq_zero_iff {β : Type} (m : List (String × β)) (k : String) :
    mapCount m k = 0 ↔ k ∉ mapKeys m := by
  rw [← mapFind_eq_none_iff]
  unfold mapCount
  cases mapFind m k <;> simp

theorem mapIndex_of_mem {β : Type} [Inhabited β] (m : List (String × β)) (k : String)
    (h : k ∈ mapKeys m) : mapIndex m k = m := by
  unfold mapIndex
  rw [if_neg]
  rw [mapCount_eq_zero_iff]
  exact fun hn => hn h

theorem mapKeys_mapModify {β : Type} (m : List (String × β)) (k : String) (f : β → β) :
    mapKeys (mapModify m k f) = mapKeys m := by
  unfold mapKeys mapModify
  rw [List.map_map]
  apply List.map_congr_left
  intro kv _
  by_cases h : kv.1 = k <;> simp [h]

theorem length_mapModify {β : Type} (m : List (String × β)) (k : String) (f : β → β) :
    (mapModify m k f).length = m.length := by
  simp [mapModify]

theorem mapModify_cons {β : Type} (k' : String) (v : β) (rest : List (String × β)) (k : String)
    (f : β → β) :
    mapModify ((k', v) :: rest) k f =
      (if k' = k then (k', f v) else (k', v)) :: mapModify rest k f := rfl

theorem mapFind_mapModify {β : Type} (m : List (String × β)) (k j : String) (f : β → β) :
    mapFind (mapModify m k f) j = if j = k then (mapFind m k).map f else mapFind m j := by
  induction m with
  | nil => simp [mapFind, mapModify]
  | cons kv rest ih =>
    obtain ⟨k', v⟩ := kv
    rw [mapModify_cons]
    by_cases h1 : k' = k
    · rw [if_pos h1]
      by_cases h2 : j = k
      · simp [mapFind, h1, h2]
      · have h3 : ¬ k = j := fun e => h2 e.symm
        simp only [mapFind, h1, h3, if_false, h2]
        rw [ih, if_neg h2]
    · rw [if_neg h1]
      by_cases h2 : k' = j
      · have h3 : ¬ j = k := fun e => h1 (h2.trans e)
        simp [mapFind, h2, h3]
      · simp only [mapFind, h2, if_false, h1]
        rw [ih]

theorem mapFind_mapModify_self {β : Type} (m : List (String × β)) (k : String) (f : β → β) :
    mapFind (mapModify m k f) k = (mapFind m k).map f := by
  rw [mapFind_mapModify, if_pos rfl]

theorem mapFind_mapModify_ne {β : Type} (m : List (String × β)) (k j : String) (f : β → β)
    (h : j ≠ k) : mapFind (mapModify m k f) j = mapFind m j := by
  rw [mapFind_mapModify, if_neg h]

theorem mapFind_mapInsert {β : Type} (m : List (String × β)) (k j : String) (v : β) :
    mapFind (mapInsert m k v) j = if j = k then some v else mapFind m j := by
  induction m with
  | nil =>
    by_cases h : k = j
    · simp [mapFind, mapInsert, h]
    · have h' : ¬ j = k := fun e => h e.symm
      simp [mapFind, mapInsert, h, h']
  | cons kv rest ih =>
    obtain ⟨k', v'⟩ := kv
    unfold mapInsert
    by_cases h1 : k < k'
    · simp only [h1, if_true]
      by_cases h2 : k = j
      · simp [mapFind, h2]
      · have h' : ¬ j = k := fun e => h2 e.symm
        simp [mapFind, h2, h']
    · simp only [h1, if_false]
      by_cases h2 : k = k'
      · simp only [h2, if_true]
        by_cases h3 : k' = j
        · simp [mapFind, h3]
        · have h' : ¬ j = k' := fun e => h3 e.symm
          simp [mapFind, h3, h']
      · simp only [h2, if_false]
        by_cases h3 : k' = j
        · have h' : ¬ j = k := fun e => h2 (e.symm.trans h3.symm)
          simp [mapFind, h3, h']
        · simp only [mapFind, h3, if_false]
          exact ih

theorem mem_mapKeys_mapInsert {β : Type} (m : List (String × β)) (k j : String) (v : β) :
    j ∈ mapKeys (mapInsert m k v) ↔ j = k ∨ j ∈ mapKeys m := by
  rw [mem_mapKeys_iff, mem_mapKeys_iff, mapFind_mapInsert]
  by_cases h : j = k <;> simp [h]

theorem mapKeys_mapInsert_perm {β : Type} (m : List (String × β)) (k : String) (v : β)
    (h : k ∉ mapKeys m) : (mapKeys (mapInsert m k v)).Perm (k :: mapKeys m) := by
  induction m with
  | nil => simp [mapInsert, mapKeys]
  | cons kv rest ih =>
    obtain ⟨k', v'⟩ := kv
    have hk : k ≠ k' := by
      intro e
      apply h
      simp [mapKeys, e]
    have hr : k ∉ mapKeys rest := by
      intro e
      apply h
      simp only [mapKeys, List.map_cons, List.mem_cons]
      exact Or.inr e
    unfold mapInsert
    by_cases h1 : k < k'
    · simp [h1, mapKeys]
    · simp only [h1, if_false, hk]
      have := ih hr
      simp only [mapKeys, List.map_cons] at this ⊢
      exact (List.Perm.cons k' this).trans (List.Perm.swap k k' _)

theorem KeysSorted.nodup {β : Type} {m : List (String × β)} (h : KeysSorted m) :
    (mapKeys m).Nodup :=
  List.Pairwise.imp (fun hab => ne_of_lt hab) h

theorem keysSorted_mapInsert {β : Type} (m : List (String × β)) (k : String) (v : β)
    (h : KeysSorted m) : KeysSorted (mapInsert m k v) := by
  induction m with
  | nil => simp [mapInsert, KeysSorted, mapKeys]
  | cons kv rest ih =>
    obtain ⟨k', v'⟩ := kv
    unfold KeysSorted mapKeys at h
    simp only [List.map_cons, List.pairwise_cons] at h
    unfold mapInsert
    by_cases h1 : k < k'
    · simp only [h1, if_true]
      unfold KeysSorted mapKeys
      simp only [List.map_cons, List.pairwise_cons, List.mem_cons]
      refine ⟨?_, h.1, h.2⟩
      intro a ha
      rcases ha with ha | ha
      · rw [ha]; exact h1
      · exact lt_trans h1 (h.1 a ha)
    · simp only [h1, if_false]
      by_cases h2 : k = k'
      · simp only [h2, if_true]
        unfold KeysSorted mapKeys
        simp only [List.map_cons, List.pairwise_cons]
        exact h
      · simp only [h2, if_false]
        have h3 : k' < k := lt_of_le_of_ne (not_lt.1 h1) (fun e => h2 e.symm)
        have ih' := ih h.2
        unfold KeysSorted mapKeys
        simp only [List.map_cons, List.pairwise_cons]
        refine ⟨?_, ih'⟩
        intro a ha
        rcases (mem_mapKeys_mapInsert rest k a v).1 ha with e | e
        · rw [e]; exact h3
        · exact h.1 a e

theorem keysSorted_mapModify {β : Type} (m : List (String × β)) (k : String) (f : β → β)
    (h : KeysSorted m) : KeysSorted (mapModify m k f) := by
  unfold KeysSorted
  rw [mapKeys_mapModify]
  exact h

theorem mapGet_of_find {β : Type} [Inhabited β] (m : List (String × β)) (k : String) (v : β)
    (h : mapFind m k = some v) : mapGet m k = v := by
  simp [mapGet, h]

theorem mapKeys_mapProj {γ : Type} (π : Activity → γ) (m : List (String × Activity)) :
    mapKeys (mapProj π m) = mapKeys m := by
  simp [mapKeys, mapProj, List.map_map, Function.comp_def]

theorem mapFind_mapProj {γ : Type} (π : Activity → γ) (m : List (String × Activity))
    (j : String) : mapFind (mapProj π m) j = (mapFind m j).map π := by
  induction m with
  | nil => simp [mapProj, mapFind]
  | cons kv rest ih =>
    obtain ⟨k', v⟩ := kv
    unfold mapProj at ih ⊢
    by_cases h : k' = j
    · simp [mapFind, h]
    · simp only [List.map_cons, mapFind, h, if_false]
      exact ih

theorem mapProj_mapModify {γ : Type} (π : Activity → γ) (m : List (String × Activity))
    (k : String) (f : Activity → Activity) (hf : ∀ a, π (f a) = π a) :
    mapProj π (mapModify m k f) = mapProj π m := by
  unfold mapProj mapModify
  rw [List.map_map]
  apply List.map_congr_left
  intro kv _
  by_cases h : kv.1 = k <;> simp [h, hf]

theorem mapProj_map {γ : Type} (π : Activity → γ) (m : List (String × Activity))
    (g : String × Activity → Activity) (hg : ∀ kv, π (g kv) = π kv.2) :
    mapProj π (m.map fun kv => (kv.1, g kv)) = mapProj π m := by
  unfold mapProj
  rw [List.map_map]
  apply List.map_congr_left
  intro kv _
  simp [hg]

theorem mapKeys_eq_of_proj {γ : Type} (π : Activity → γ) {m m' : List (String × Activity)}
    (h : mapProj π m' = mapProj π m) : mapKeys m' = mapKeys m := by
  rw [← mapKeys_mapProj π m', h, mapKeys_mapProj]

theorem length_eq_of_proj {γ : Type} (π : Activity → γ) {m m' : List (String × Activity)}
    (h : mapProj π m' = mapProj π m) : m'.length = m.length := by
  have := congrArg List.length h
  simpa [mapProj] using this

theorem find_proj_of_proj {γ : Type} (π : Activity → γ) {m m' : List (String × Activity)}
    (h : mapProj π m' = mapProj π m) (j : String) :
    (mapFind m' j).map π = (mapFind m j).map π := by
  rw [← mapFind_mapProj, ← mapFind_mapProj, h]

theorem length_mapKeys {β : Type} (m : List (String × β)) : (mapKeys m).length = m.length := by
  simp [mapKeys]

namespace PERT

theorem addSucc_nil (a : Activity) : addSucc [] a = a := by
  simp [addSucc]

theorem addSucc_addSucc (l1 l2 : List String) (a : Activity) :
    addSucc l2 (addSucc l1 a) = addSucc (l1 ++ l2) a := by
  simp [addSucc]

theorem noSucc_addSucc (l : List String) (a : Activity) : noSucc (addSucc l a) = noSucc a := rfl

theorem linkPreds_spec (k : String) (ps : List String) (m : List (String × Activity)) :
    mapProj noSucc (linkPreds k ps m).2 = mapProj noSucc m ∧
    ((linkPreds k ps m).1 = none →
      (∀ p ∈ ps, p ∈ mapKeys m) ∧
      ∀ j, mapFind (linkPreds k ps m).2 j =
        (mapFind m j).map (addSucc ((ps.filter fun x => x = j).map fun _ => k))) ∧
    (∀ e, (linkPreds k ps m).1 = some e →
      ∃ p ∈ ps, p ∉ mapKeys m ∧ e = missingMsg p k) := by
  induction ps generalizing m with
  | nil =>
    refine ⟨rfl, fun _ => ⟨by simp, fun j => ?_⟩, by simp [linkPreds]⟩
    simp only [linkPreds, List.filter_nil, List.map_nil]
    cases mapFind m j <;> simp [addSucc_nil]
  | cons p ps ih =>
    by_cases hc : mapCount m p = 0
    · have hp : p ∉ mapKeys m := (mapCount_eq_zero_iff m p).1 hc
      simp only [linkPreds, hc, if_true]
      refine ⟨trivial, by simp, ?_⟩
      intro e he
      refine ⟨p, List.mem_cons_self _ _, hp, ?_⟩
      simpa using he.symm
    · have hp : p ∈ mapKeys m := by
        by_contra hn
        exact hc ((mapCount_eq_zero_iff m p).2 hn)
      have hstep : linkPreds k (p :: ps) m =
          linkPreds k ps (mapModify m p (addSucc [k])) := by
        simp only [linkPreds, hc, if_false, mapIndex_of_mem m p hp]
        rfl
      rw [hstep]
      obtain ⟨ih1, ih2, ih3⟩ := ih (mapModify m p (addSucc [k]))
      have hkeys : mapKeys (mapModify m p (addSucc [k])) = mapKeys m := mapKeys_mapModify _ _ _
      refine ⟨?_, ?_, ?_⟩
      · rw [ih1]
        exact mapProj_mapModify noSucc m p _ (fun _ => rfl)
      · intro hnone
        obtain ⟨h1, h2⟩ := ih2 hnone
        refine ⟨?_, ?_⟩
        · intro x hx
          rcases List.mem_cons.1 hx with hx | hx
          · rw [hx]; exact hp
          · rw [← hkeys]; exact h1 x hx
        · intro j
          rw [h2 j, mapFind_mapModify]
          by_cases hj : j = p
          · subst hj
            simp only [if_true, List.filter_cons, decide_True, List.map_cons]
            cases mapFind m j <;> simp [addSucc_addSucc]
          · have hj' : ¬ p = j := fun e => hj e.symm
            simp [hj, hj', List.filter_cons]
      · intro e he
        obtain ⟨x, hx, hxn, hxe⟩ := ih3 e he
        exact ⟨x, List.mem_cons_of_mem _ hx, by rw [← hkeys]; exact hxn, hxe⟩

theorem succOf_nil (j : String) : succOf [] j = [] := rfl

theorem succOf_cons (k : String) (ps : List String) (es : List (String × List String))
    (j : String) :
    succOf ((k, ps) :: es) j = ((ps.filter fun x => x = j).map fun _ => k) ++ succOf es j := by
  simp [succOf]

theorem linkAll_spec (es : List (String × List String)) (m : List (String × Activity)) :
    mapProj noSucc (linkAll es m).2 = mapProj noSucc m ∧
    ((linkAll es m).1 = none →
      (∀ e ∈ es, ∀ p ∈ e.2, p ∈ mapKeys m) ∧
      ∀ j, mapFind (linkAll es m).2 j = (mapFind m j).map (addSucc (succOf es j))) ∧
    (∀ e, (linkAll es m).1 = some e →
      ∃ kp ∈ es, ∃ p ∈ kp.2, p ∉ mapKeys m ∧ e = missingMsg p kp.1) := by
  induction es generalizing m with
  | nil =>
    refine ⟨rfl, fun _ => ⟨by simp, fun j => ?_⟩, by simp [linkAll]⟩
    simp only [linkAll, succOf_nil]
    cases mapFind m j <;> simp [addSucc_nil]
  | cons kp es ih =>
    obtain ⟨k, ps⟩ := kp
    obtain ⟨l1, l2, l3⟩ := linkPreds_spec k ps m
    cases hr : linkPreds k ps m with
    | mk r m1 =>
      rw [hr] at l1 l2 l3
      simp only at l1 l2 l3
      have hkeys : mapKeys m1 = mapKeys m := mapKeys_eq_of_proj noSucc l1
      cases r with
      | some e0 =>
        have hstep : linkAll ((k, ps) :: es) m = (some e0, m1) := by
          simp [linkAll, hr]
        rw [hstep]
        refine ⟨l1, by simp, ?_⟩
        intro e he
        obtain ⟨p, hp, hpn, hpe⟩ := l3 e0 rfl
        simp only [Option.some.injEq] at he
        exact ⟨(k, ps), List.mem_cons_self _ _, p, hp, hpn, by rw [← he]; exact hpe⟩
      | none =>
        have hstep : linkAll ((k, ps) :: es) m = linkAll es m1 := by
          simp [linkAll, hr]
        rw [hstep]
        obtain ⟨ih1, ih2, ih3⟩ := ih m1
        obtain ⟨h1, h2⟩ := l2 rfl
        refine ⟨ih1.trans l1, ?_, ?_⟩
        · intro hnone
          obtain ⟨g1, g2⟩ := ih2 hnone
          refine ⟨?_, ?_⟩
          · intro e he p hp
            rcases List.mem_cons.1 he with he | he
            · rw [he] at hp; exact h1 p hp
            · rw [← hkeys]; exact g1 e he p hp
          · intro j
            rw [g2 j, h2 j, succOf_cons]
            cases mapFind m j <;> simp [addSucc_addSucc]
        · intro e he
          obtain ⟨kp, hkp, p, hp, hpn, hpe⟩ := ih3 e he
          exact ⟨kp, List.mem_cons_of_mem _ hkp, p, hp, by rw [← hkeys]; exact hpn, hpe⟩

theorem find_of_proj {γ : Type} (π : Activity → γ) {m m' : List (String × Activity)}
    (h : mapProj π m' = mapProj π m) (j : String) (a' : Activity)
    (hf : mapFind m' j = some a') : ∃ a, mapFind m j = some a ∧ π a = π a' := by
  have := find_proj_of_proj π h j
  rw [hf] at this
  cases hm : mapFind m j with
  | none => rw [hm] at this; simp at this
  | some a =>
    rw [hm] at this
    simp only [Option.map_some', Option.some.injEq] at this
    exact ⟨a, rfl, this.symm⟩

theorem predEntries_eq_of_proj {γ : Type} (π : Activity → γ) (g : γ → List String)
    (hg : ∀ a, g (π a) = a.predecessors) {m m' : List (String × Activity)}
    (h : mapProj π m' = mapProj π m) : predEntries m' = predEntries m := by
  have e : ∀ x : List (String × Activity),
      predEntries x = (mapProj π x).map fun kv => (kv.1, g kv.2) := by
    intro x
    simp [predEntries, mapProj, List.map_map, Function.comp_def, hg]
  rw [e, e, h]

theorem clearSuccessors_eq (m : List (String × Activity)) :
    clearSuccessors m = mapProj noSucc m := rfl

theorem mapProj_noSucc_idem (m : List (String × Activity)) :
    mapProj noSucc (mapProj noSucc m) = mapProj noSucc m := by
  simp [mapProj, List.map_map, Function.comp_def, noSucc]

theorem mem_predEntries_of_find (m : List (String × Activity)) (k : String) (a : Activity)
    (h : mapFind m k = some a) : (k, a.predecessors) ∈ predEntries m := by
  have := mapFind_mem m k a h
  exact List.mem_map.2 ⟨(k, a), this, rfl⟩

theorem find_of_mem_predEntries (m : List (String × Activity)) (hn : (mapKeys m).Nodup)
    (e : String × List String) (h : e ∈ predEntries m) :
    ∃ a, mapFind m e.1 = some a ∧ a.predecessors = e.2 := by
  obtain ⟨kv, hkv, rfl⟩ := List.mem_map.1 h
  exact ⟨kv.2, mapFind_of_mem m kv.1 kv.2 hn hkv, rfl⟩

theorem mem_succOf (es : List (String × List String)) (p s : String) :
    s ∈ succOf es p ↔ ∃ e ∈ es, e.1 = s ∧ p ∈ e.2 := by
  unfold succOf
  simp only [List.mem_flatMap, List.mem_map, List.mem_filter, decide_eq_true_eq]
  constructor
  · rintro ⟨e, he, x, ⟨hx, rfl⟩, rfl⟩
    exact ⟨e, he, rfl, hx⟩
  · rintro ⟨e, he, rfl, hp⟩
    exact ⟨e, he, p, ⟨hp, rfl⟩, rfl⟩

theorem mem_succOf_predEntries (m : List (String × Activity)) (hn : (mapKeys m).Nodup)
    (p s : String) :
    s ∈ succOf (predEntries m) p ↔ ∃ b, mapFind m s = some b ∧ p ∈ b.predecessors := by
  rw [mem_succOf]
  constructor
  · rintro ⟨e, he, rfl, hp⟩
    obtain ⟨a, ha, hpa⟩ := find_of_mem_predEntries m hn e he
    exact ⟨a, ha, by rw [hpa]; exact hp⟩
  · rintro ⟨b, hb, hp⟩
    exact ⟨(s, b.predecessors), mem_predEntries_of_find m s b hb, rfl, hp⟩

theorem buildGraph_eq (s : PERT) (err : String) :
    buildGraph s err =
      ((linkAll (predEntries (clearSuccessors s.activities)) (clearSuccessors s.activities)).1.isNone,
       (linkAll (predEntries (clearSuccessors s.activities)) (clearSuccessors s.activities)).1.getD err,
       { s with activities :=
          (linkAll (predEntries (clearSuccessors s.activities)) (clearSuccessors s.activities)).2 }) := by
  unfold buildGraph predEntries
  simp only
  generalize linkAll (List.map (fun kv => (kv.1, kv.2.predecessors)) (clearSuccessors s.activities))
    (clearSuccessors s.activities) = r
  obtain ⟨r1, r2⟩ := r
  cases r1 <;> rfl

theorem buildGraph_frame (s : PERT) (err : String) :
    (buildGraph s err).2.2.project_duration = s.project_duration ∧
    (buildGraph s err).2.2.topo_order = s.topo_order ∧
    (buildGraph s err).2.2.critical_path = s.critical_path ∧
    mapProj noSucc (buildGraph s err).2.2.activities = mapProj noSucc s.activities := by
  have h := (linkAll_spec (predEntries (clearSuccessors s.activities))
    (clearSuccessors s.activities)).1
  rw [clearSuccessors_eq, mapProj_noSucc_idem] at h
  rw [buildGraph_eq]
  exact ⟨rfl, rfl, rfl, h⟩

theorem predEntries_clearSuccessors (m : List (String × Activity)) :
    predEntries (clearSuccessors m) = predEntries m := by
  simp [predEntries, clearSuccessors, List.map_map, Function.comp_def]

theorem mapKeys_clearSuccessors (m : List (String × Activity)) :
    mapKeys (clearSuccessors m) = mapKeys m := by
  rw [clearSuccessors_eq, mapKeys_mapProj]

theorem buildGraph_true_iff (s : PERT) (err : String) (hs : KeysSorted s.activities) :
    (buildGraph s err).1 = true ↔ PredsResolved s.activities := by
  obtain ⟨_, l2, l3⟩ := linkAll_spec (predEntries (clearSuccessors s.activities))
    (clearSuccessors s.activities)
  rw [buildGraph_eq]
  simp only [Option.isNone_iff_eq_none]
  rw [predEntries_clearSuccessors] at l2 l3 ⊢
  rw [mapKeys_clearSuccessors] at l2 l3
  constructor
  · intro h k a hk p hp
    exact (l2 h).1 (k, a.predecessors) (mem_predEntries_of_find _ k a hk) p hp
  · intro h
    cases hr : (linkAll (predEntries s.activities) (clearSuccessors s.activities)).1 with
    | none => rfl
    | some e =>
      exfalso
      obtain ⟨kp, hkp, p, hp, hpn, _⟩ := l3 e hr
      obtain ⟨a, ha, hpa⟩ := find_of_mem_predEntries s.activities hs.nodup kp hkp
      exact hpn (h kp.1 a ha p (by rw [hpa]; exact hp))

theorem buildGraph_false (s : PERT) (err : String) (hs : KeysSorted s.activities)
    (h : (buildGraph s err).1 = false) :
    ∃ k a p, mapFind s.activities k = some a ∧ p ∈ a.predecessors ∧
      p ∉ mapKeys s.activities ∧ (buildGraph s err).2.1 = missingMsg p k := by
  obtain ⟨_, _, l3⟩ := linkAll_spec (predEntries (clearSuccessors s.activities))
    (clearSuccessors s.activities)
  rw [buildGraph_eq] at h ⊢
  simp only at h ⊢
  rw [predEntries_clearSuccessors] at l3 h ⊢
  rw [mapKeys_clearSuccessors] at l3
  cases hr : (linkAll (predEntries s.activities) (clearSuccessors s.activities)).1 with
  | none => rw [hr] at h; simp at h
  | some e =>
    obtain ⟨kp, hkp, p, hp, hpn, hpe⟩ := l3 e hr
    obtain ⟨a, ha, hpa⟩ := find_of_mem_predEntries s.activities hs.nodup kp hkp
    exact ⟨kp.1, a, p, ha, by rw [hpa]; exact hp, hpn, by simp [hpe]⟩

theorem buildGraph_true (s : PERT) (err : String)
    (h : (buildGraph s err).1 = true) :
    (buildGraph s err).2.1 = err ∧ SuccSpec (buildGraph s err).2.2.activities := by
  have hfr := (buildGraph_frame s err).2.2.2
  have hpe : predEntries (buildGraph s err).2.2.activities = predEntries s.activities :=
    predEntries_eq_of_proj noSucc (fun a => a.predecessors) (fun _ => rfl) hfr
  obtain ⟨_, l2, _⟩ := linkAll_spec (predEntries (clearSuccessors s.activities))
    (clearSuccessors s.activities)
  unfold SuccSpec
  rw [hpe]
  rw [buildGraph_eq] at h ⊢
  simp only [Option.isNone_iff_eq_none] at h ⊢
  rw [predEntries_clearSuccessors] at l2 h ⊢
  refine ⟨by rw [h]; rfl, ?_⟩
  intro p a hp
  rw [(l2 h).2 p, clearSuccessors_eq, mapFind_mapProj] at hp
  cases hm : mapFind s.activities p with
  | none => rw [hm] at hp; simp at hp
  | some a0 =>
    rw [hm] at hp
    simp only [Option.map_some', Option.some.injEq] at hp
    rw [← hp]
    simp [addSucc, noSucc]

theorem GraphOK.graph_of_proj {m m' : List (String × Activity)}
    (h : mapProj static m' = mapProj static m) (g : GraphOK m) : GraphOK m' := by
  have hk : mapKeys m' = mapKeys m := mapKeys_eq_of_proj static h
  have hpe : predEntries m' = predEntries m :=
    predEntries_eq_of_proj static (fun x => x.2.2.1) (fun _ => rfl) h
  refine ⟨?_, ?_, ?_⟩
  · unfold KeysSorted; rw [hk]; exact g.sorted
  · intro k a' hk' p hp
    obtain ⟨a, ha, hst⟩ := find_of_proj static h k a' hk'
    rw [hk]
    refine g.resolved k a ha p ?_
    have : a.predecessors = a'.predecessors := congrArg (fun x => x.2.2.1) hst
    rw [this]; exact hp
  · intro p a' hp
    obtain ⟨a, ha, hst⟩ := find_of_proj static h p a' hp
    have : a.successors = a'.successors := congrArg (fun x => x.2.2.2) hst
    rw [hpe, ← this]
    exact g.succSpec p a ha

theorem GraphOK.mem_succ_iff {m : List (String × Activity)} (g : GraphOK m) (p s : String)
    (a : Activity) (ha : mapFind m p = some a) :
    s ∈ a.successors ↔ ∃ b, mapFind m s = some b ∧ p ∈ b.predecessors := by
  rw [g.succSpec p a ha]
  exact mem_succOf_predEntries m g.sorted.nodup p s

theorem GraphOK.succ_mem_keys {m : List (String × Activity)} (g : GraphOK m) (p s : String)
    (a : Activity) (ha : mapFind m p = some a) (hs : s ∈ a.successors) : s ∈ mapKeys m := by
  obtain ⟨b, hb, _⟩ := (g.mem_succ_iff p s a ha).1 hs
  exact (mem_mapKeys_iff m s).2 ⟨b, hb⟩

end PERT

theorem mapFind_mapIndex {β : Type} [Inhabited β] (m : List (String × β)) (k j : String) :
    mapFind (mapIndex m k) j = if j = k then some (mapGet m k) else mapFind m j := by
  unfold mapIndex mapCount mapGet
  cases h : mapFind m k with
  | none =>
    simp only [if_true, mapFind_mapInsert, Option.getD_none]
  | some v =>
    simp only [one_ne_zero, if_false, Option.getD_some]
    by_cases hj : j = k
    · rw [if_pos hj, hj, h]
    · rw [if_neg hj]

theorem mem_mapKeys_mapIndex {β : Type} [Inhabited β] (m : List (String × β)) (k j : String) :
    j ∈ mapKeys (mapIndex m k) ↔ j = k ∨ j ∈ mapKeys m := by
  rw [mem_mapKeys_iff, mem_mapKeys_iff, mapFind_mapIndex]
  by_cases h : j = k <;> simp [h]

theorem keysSorted_mapIndex {β : Type} [Inhabited β] (m : List (String × β)) (k : String)
    (h : KeysSorted m) : KeysSorted (mapIndex m k) := by
  unfold mapIndex
  split
  · exact keysSorted_mapInsert m k default h
  · exact h

theorem mapGet_modify_index {β : Type} [Inhabited β] (m : List (String × β)) (k j : String)
    (f : β → β) :
    mapGet (mapModify (mapIndex m k) k f) j = if j = k then f (mapGet m k) else mapGet m j := by
  unfold mapGet
  rw [mapFind_mapModify, mapFind_mapIndex]
  by_cases h : j = k
  · simp [h, mapGet]
  · simp [h, mapFind_mapIndex]

namespace PERT

theorem mapGet_indegIncr (d : List (String × Int)) (s j : String) :
    mapGet (indegIncr d s) j = mapGet d j + if j = s then 1 else 0 := by
  unfold indegIncr
  rw [mapGet_modify_index]
  by_cases h : j = s <;> simp [h]

theorem mapGet_indegDecr (d : List (String × Int)) (s j : String) :
    mapGet (indegDecr d s) j = mapGet d j - if j = s then 1 else 0 := by
  unfold indegDecr
  rw [mapGet_modify_index]
  by_cases h : j = s <;> simp [h]

theorem mem_mapKeys_indegIncr (d : List (String × Int)) (s j : String) :
    j ∈ mapKeys (indegIncr d s) ↔ j = s ∨ j ∈ mapKeys d := by
  unfold indegIncr
  rw [mapKeys_mapModify, mem_mapKeys_mapIndex]

theorem mem_mapKeys_indegDecr (d : List (String × Int)) (s j : String) :
    j ∈ mapKeys (indegDecr d s) ↔ j = s ∨ j ∈ mapKeys d := by
  unfold indegDecr
  rw [mapKeys_mapModify, mem_mapKeys_mapIndex]

theorem keysSorted_indegIncr (d : List (String × Int)) (s : String) (h : KeysSorted d) :
    KeysSorted (indegIncr d s) :=
  keysSorted_mapModify _ _ _ (keysSorted_mapIndex d s h)

theorem foldl_indegIncr_spec (l : List String) (d : List (String × Int)) :
    (KeysSorted d → KeysSorted (l.foldl indegIncr d)) ∧
    (∀ j, j ∈ mapKeys (l.foldl indegIncr d) ↔ j ∈ l ∨ j ∈ mapKeys d) ∧
    (∀ j, mapGet (l.foldl indegIncr d) j = mapGet d j + (l.count j : Int)) := by
  induction l generalizing d with
  | nil => simp
  | cons s l ih =>
    obtain ⟨i1, i2, i3⟩ := ih (indegIncr d s)
    simp only [List.foldl_cons]
    refine ⟨fun h => i1 (keysSorted_indegIncr d s h), ?_, ?_⟩
    · intro j
      rw [i2, mem_mapKeys_indegIncr]
      simp only [List.mem_cons]
      tauto
    · intro j
      rw [i3, mapGet_indegIncr, List.count_cons]
      by_cases h : j = s
      · subst h
        simp
        ring
      · have h' : ¬ s = j := fun e => h e.symm
        simp [h, h']

theorem indegCount_eq (m : List (String × Activity)) (d : List (String × Int)) :
    indegCount m d = (allSucc m).foldl indegIncr d := by
  unfold indegCount allSucc
  induction m generalizing d with
  | nil => rfl
  | cons kv rest ih =>
    simp only [List.foldl_cons, List.flatMap_cons, List.foldl_append]
    exact ih _

theorem indegInit_spec (m : List (String × Activity)) (d : List (String × Int)) :
    (KeysSorted d → KeysSorted (m.foldl (fun d kv => mapInsert d kv.1 0) d)) ∧
    (∀ j, j ∈ mapKeys (m.foldl (fun d kv => mapInsert d kv.1 0) d) ↔
      j ∈ mapKeys m ∨ j ∈ mapKeys d) ∧
    (∀ j, mapGet (m.foldl (fun d kv => mapInsert d kv.1 0) d) j =
      if j ∈ mapKeys m then 0 else mapGet d j) := by
  induction m generalizing d with
  | nil => simp [mapKeys]
  | cons kv rest ih =>
    obtain ⟨i1, i2, i3⟩ := ih (mapInsert d kv.1 0)
    simp only [List.foldl_cons]
    refine ⟨fun h => i1 (keysSorted_mapInsert d kv.1 0 h), ?_, ?_⟩
    · intro j
      rw [i2, mem_mapKeys_mapInsert]
      simp only [mapKeys, List.map_cons, List.mem_cons]
      tauto
    · intro j
      rw [i3]
      simp only [mapKeys, List.map_cons, List.mem_cons]
      by_cases h1 : j ∈ List.map Prod.fst rest
      · simp [h1, mapKeys]
      · by_cases h2 : j = kv.1
        · simp [h2, mapGet, mapFind_mapInsert]
        · simp [h1, h2, mapKeys, mapGet, mapFind_mapInsert]

theorem indeg0_spec (m : List (String × Activity))
    (hsub : ∀ s ∈ allSucc m, s ∈ mapKeys m) :
    KeysSorted (indeg0 m) ∧
    (∀ j, j ∈ mapKeys (indeg0 m) ↔ j ∈ mapKeys m) ∧
    (∀ j, mapGet (indeg0 m) j = ((allSucc m).count j : Int)) := by
  obtain ⟨a1, a2, a3⟩ := indegInit_spec m []
  obtain ⟨b1, b2, b3⟩ := foldl_indegIncr_spec (allSucc m) (indegInit m)
  unfold indeg0
  rw [indegCount_eq]
  have hs0 : KeysSorted ([] : List (String × Int)) := by simp [KeysSorted, mapKeys]
  refine ⟨b1 (a1 hs0), ?_, ?_⟩
  · intro j
    rw [b2]
    unfold indegInit
    rw [a2]
    simp only [mapKeys, List.map_nil, List.not_mem_nil, or_false]
    constructor
    · rintro (h | h)
      · exact hsub j h
      · exact h
    · exact Or.inr
  · intro j
    rw [b3]
    unfold indegInit
    rw [a3]
    have : mapGet ([] : List (String × Int)) j = 0 := rfl
    by_cases h : j ∈ mapKeys m <;> simp [h, this]

theorem zeroQueue_sublist (d : List (String × Int)) : (zeroQueue d).Sublist (mapKeys d) := by
  unfold zeroQueue mapKeys
  induction d with
  | nil => simp
  | cons kv rest ih =>
    by_cases h : kv.2 = 0
    · simp only [List.filterMap_cons, h, if_true, List.map_cons]
      exact ih.cons₂ _
    · simp only [List.filterMap_cons, h, if_false, List.map_cons]
      exact ih.cons _

theorem mem_zeroQueue (d : List (String × Int)) (hd : KeysSorted d) (k : String) :
    k ∈ zeroQueue d ↔ k ∈ mapKeys d ∧ mapGet d k = 0 := by
  unfold zeroQueue
  simp only [List.mem_filterMap]
  constructor
  · rintro ⟨kv, hkv, h⟩
    by_cases h0 : kv.2 = 0
    · simp only [h0, if_true, Option.some.injEq] at h
      have hf : mapFind d k = some 0 :=
        mapFind_of_mem d k 0 hd.nodup (by rw [← h, ← h0]; exact hkv)
      exact ⟨(mem_mapKeys_iff d k).2 ⟨0, hf⟩, by simp [mapGet, hf]⟩
    · simp [h0] at h
  · rintro ⟨hk, hg⟩
    obtain ⟨v, hv⟩ := (mem_mapKeys_iff d k).1 hk
    have : v = 0 := by simpa [mapGet, hv] using hg
    subst this
    exact ⟨(k, 0), mapFind_mem d k 0 hv, by simp⟩

theorem count_flatMap_eq_sum (f : String → List String) (l : List String) (hl : l.Nodup)
    (s : String) : (l.flatMap f).count s = ∑ x ∈ l.toFinset, (f x).count s := by
  rw [List.count_flatMap, List.sum_toFinset _ hl]
  rfl

theorem count_flatMap_le (f : String → List String) (l keys : List String) (hl : l.Nodup)
    (hk : keys.Nodup) (hsub : ∀ x ∈ l, x ∈ keys) (s : String) :
    (l.flatMap f).count s ≤ (keys.flatMap f).count s := by
  rw [count_flatMap_eq_sum f l hl, count_flatMap_eq_sum f keys hk]
  apply Finset.sum_le_sum_of_subset
  intro x hx
  rw [List.mem_toFinset] at hx ⊢
  exact hsub x hx

theorem count_flatMap_eq (f : String → List String) (l keys : List String) (hl : l.Nodup)
    (hk : keys.Nodup) (hsub : ∀ x ∈ l, x ∈ keys) (s : String)
    (hall : ∀ u ∈ keys, s ∈ f u → u ∈ l) :
    (l.flatMap f).count s = (keys.flatMap f).count s := by
  rw [count_flatMap_eq_sum f l hl, count_flatMap_eq_sum f keys hk]
  apply Finset.sum_subset
  · intro x hx
    rw [List.mem_toFinset] at hx ⊢
    exact hsub x hx
  · intro x hx hxl
    rw [List.mem_toFinset] at hx hxl
    rw [List.count_eq_zero]
    exact fun hs => hxl (hall x hx hs)

theorem allSucc_eq (m : List (String × Activity)) (hn : (mapKeys m).Nodup) :
    allSucc m = (mapKeys m).flatMap (succs m) := by
  have key : ∀ l : List (String × Activity), (∀ kv ∈ l, kv ∈ m) →
      (l.flatMap fun kv => kv.2.successors) = (mapKeys l).flatMap (succs m) := by
    intro l
    induction l with
    | nil => intro _; rfl
    | cons kv rest ih =>
      intro h
      have h1 : mapFind m kv.1 = some kv.2 :=
        mapFind_of_mem m kv.1 kv.2 hn (h kv (List.mem_cons_self _ _))
      have h2 : succs m kv.1 = kv.2.successors := by
        unfold succs
        rw [mapGet_of_find m kv.1 kv.2 h1]
      simp only [List.flatMap_cons, mapKeys, List.map_cons]
      rw [h2]
      congr 1
      exact ih (fun x hx => h x (List.mem_cons_of_mem _ hx))
  exact key m (fun _ h => h)

theorem succs_mem_keys {m : List (String × Activity)} (g : GraphOK m) (u s : String)
    (hu : u ∈ mapKeys m) (hs : s ∈ succs m u) : s ∈ mapKeys m := by
  obtain ⟨a, ha⟩ := (mem_mapKeys_iff m u).1 hu
  unfold succs at hs
  rw [mapGet_of_find m u a ha] at hs
  exact g.succ_mem_keys u s a ha hs

theorem mem_succs_iff {m : List (String × Activity)} (g : GraphOK m) (u s : String)
    (hu : u ∈ mapKeys m) : s ∈ succs m u ↔ s ∈ mapKeys m ∧ u ∈ preds m s := by
  obtain ⟨a, ha⟩ := (mem_mapKeys_iff m u).1 hu
  unfold succs preds
  rw [mapGet_of_find m u a ha, g.mem_succ_iff u s a ha]
  constructor
  · rintro ⟨b, hb, hp⟩
    refine ⟨(mem_mapKeys_iff m s).2 ⟨b, hb⟩, ?_⟩
    rw [mapGet_of_find m s b hb]
    exact hp
  · rintro ⟨hs, hp⟩
    obtain ⟨b, hb⟩ := (mem_mapKeys_iff m s).1 hs
    rw [mapGet_of_find m s b hb] at hp
    exact ⟨b, hb, hp⟩

theorem preds_mem_keys {m : List (String × Activity)} (g : GraphOK m) (u p : String)
    (hu : u ∈ mapKeys m) (hp : p ∈ preds m u) : p ∈ mapKeys m := by
  obtain ⟨a, ha⟩ := (mem_mapKeys_iff m u).1 hu
  unfold preds at hp
  rw [mapGet_of_find m u a ha] at hp
  exact g.resolved u a ha p hp

theorem relax_inv (m : List (String × Activity)) (g : GraphOK m) (order : List String)
    (u : String) (hu : u ∈ mapKeys m) (ho : ∀ x ∈ order, x ∈ mapKeys m) :
    ∀ (rest part : List String) (d : List (String × Int)) (q : List String),
      part ++ rest = succs m u → RelaxInv m order u part d q →
      RelaxInv m order u (succs m u) (relax rest (d, q)).1 (relax rest (d, q)).2 := by
  intro rest
  induction rest with
  | nil =>
    intro part d q hsplit inv
    simp only [List.append_nil] at hsplit
    rw [← hsplit]
    exact inv
  | cons s rest ih =>
    intro part d q hsplit inv
    have hsk : s ∈ mapKeys m :=
      succs_mem_keys g u s hu (by rw [← hsplit]; simp)
    have hnd : (u :: order).Nodup := by
      have h1 := inv.nodup
      rw [List.nodup_append] at h1
      obtain ⟨h1, h2, h3⟩ := h1
      rw [List.nodup_cons] at h2 ⊢
      refine ⟨fun hmem => ?_, h1⟩
      exact h3 hmem (List.mem_cons_self _ _)
    have hle := count_flatMap_le (succs m) (u :: order) (mapKeys m) hnd g.sorted.nodup
      (by
        intro x hx
        rcases List.mem_cons.1 hx with hx | hx
        · rw [hx]; exact hu
        · exact ho x hx) s
    rw [← allSucc_eq m g.sorted.nodup, List.flatMap_cons, List.count_append] at hle
    have hcnt : (succs m u).count s = part.count s + (rest.count s + 1) := by
      rw [← hsplit, List.count_append, List.count_cons_self]
    have hdeg := inv.deg s
    have hpos : 1 ≤ mapGet d s := by omega
    have hsplit' : (part ++ [s]) ++ rest = succs m u := by
      rw [← hsplit]; simp
    have hdeg' : ∀ j, mapGet (indegDecr d s) j + ((order.flatMap (succs m)).count j : Int)
        + ((part ++ [s]).count j : Int) = ((allSucc m).count j : Int) := by
      intro j
      rw [mapGet_indegDecr, List.count_append]
      have := inv.deg j
      by_cases hj : j = s
      · subst hj
        simp only [if_true, List.count_cons_self, List.count_nil]
        push_cast
        omega
      · have hj' : ¬ s = j := fun e => hj e.symm
        have hc : List.count j [s] = 0 := by
          rw [List.count_eq_zero]
          simpa using hj
        simp only [hj, if_false, hc]
        push_cast
        omega
    have hnot : s ∉ order ++ u :: q := by
      intro hmem
      have := (inv.zero s hsk).1 hmem
      omega
    have hds : mapGet (indegDecr d s) s = mapGet d s - 1 := by
      rw [mapGet_indegDecr]; simp
    simp only [relax]
    by_cases hz : mapGet (indegDecr d s) s = 0
    · rw [if_pos hz]
      apply ih (part ++ [s]) (indegDecr d s) (q ++ [s]) hsplit'
      refine ⟨?_, ?_, hdeg', ?_⟩
      · have : order ++ u :: (q ++ [s]) = (order ++ u :: q) ++ [s] := by simp
        rw [this, List.nodup_append]
        refine ⟨inv.nodup, by simp, ?_⟩
        intro a ha hb
        simp only [List.mem_singleton] at hb
        exact hnot (hb ▸ ha)
      · intro x hx
        rcases List.mem_append.1 hx with hx | hx
        · exact inv.sub x hx
        · simp only [List.mem_singleton] at hx
          rw [hx]; exact hsk
      · intro j hj
        by_cases hjs : j = s
        · subst hjs
          simp [hz]
        · have h1 := inv.zero j hj
          rw [mapGet_indegDecr]
          simp only [hjs, if_false, sub_zero]
          rw [← h1]
          simp [hjs]
    · rw [if_neg hz]
      apply ih (part ++ [s]) (indegDecr d s) q hsplit'
      refine ⟨inv.nodup, inv.sub, hdeg', ?_⟩
      intro j hj
      by_cases hjs : j = s
      · subst hjs
        constructor
        · intro h; exact absurd h hnot
        · intro h; exact absurd h hz
      · have h1 := inv.zero j hj
        rw [mapGet_indegDecr]
        simp only [hjs, if_false, sub_zero]
        exact h1

theorem KahnInv.queue_preds {m : List (String × Activity)} {d : List (String × Int)}
    {q order : List String} (g : GraphOK m) (inv : KahnInv m d q order) (x : String)
    (hx : x ∈ q) : ∀ p ∈ preds m x, p ∈ order := by
  intro p hp
  by_contra hpo
  have hxk : x ∈ mapKeys m := inv.sub x (List.mem_append_right _ hx)
  have hpk : p ∈ mapKeys m := preds_mem_keys g x p hxk hp
  have hxs : x ∈ succs m p := (mem_succs_iff g p x hpk).2 ⟨hxk, hp⟩
  have hz : mapGet d x = 0 := (inv.zero x hxk).1 (List.mem_append_right _ hx)
  have hdeg := inv.deg x
  have hnd : (p :: order).Nodup :=
    List.nodup_cons.2 ⟨hpo, (List.nodup_append.1 inv.nodup).1⟩
  have hle := count_flatMap_le (succs m) (p :: order) (mapKeys m) hnd g.sorted.nodup
    (by
      intro y hy
      rcases List.mem_cons.1 hy with hy | hy
      · rw [hy]; exact hpk
      · exact inv.sub y (List.mem_append_left _ hy)) x
  rw [← allSucc_eq m g.sorted.nodup, List.flatMap_cons, List.count_append] at hle
  have hpos : 0 < (succs m p).count x := List.count_pos_iff.2 hxs
  omega

theorem KahnInv.kahn_step {m : List (String × Activity)} {d : List (String × Int)}
    {q order : List String} {u : String} (g : GraphOK m) (inv : KahnInv m d (u :: q) order) :
    KahnInv m (relax (succs m u) (d, q)).1 (relax (succs m u) (d, q)).2 (order ++ [u]) := by
  have hu : u ∈ mapKeys m := inv.sub u (by simp)
  have ho : ∀ x ∈ order, x ∈ mapKeys m := fun x hx => inv.sub x (List.mem_append_left _ hx)
  have r0 : RelaxInv m order u [] d q :=
    ⟨inv.nodup, fun x hx => inv.sub x (by simp [hx]), by simpa using inv.deg, inv.zero⟩
  have r1 := relax_inv m g order u hu ho (succs m u) [] d q rfl r0
  have happ : ∀ l : List String, (order ++ [u]) ++ l = order ++ u :: l := by
    intro l; simp
  refine ⟨?_, ?_, ?_, ?_, ?_⟩
  · rw [happ]; exact r1.nodup
  · intro x hx
    rw [happ] at hx
    rcases List.mem_append.1 hx with hx | hx
    · exact ho x hx
    · rcases List.mem_cons.1 hx with hx | hx
      · rw [hx]; exact hu
      · exact r1.sub x hx
  · intro s
    have := r1.deg s
    rw [List.flatMap_append, List.count_append]
    simp only [List.flatMap_cons, List.flatMap_nil, List.append_nil]
    push_cast
    omega
  · intro s hs
    rw [happ]
    exact r1.zero s hs
  · intro pre x post hsplit p hp
    rcases List.eq_nil_or_concat post with hpost | ⟨L, b, hpost⟩
    · subst hpost
      have h2 := List.append_inj' hsplit rfl
      have hxu : u = x := by simpa using h2.2
      rw [← h2.1]
      rw [← hxu] at hp
      exact inv.queue_preds g u (List.mem_cons_self _ _) p hp
    · subst hpost
      have h1 : order ++ [u] = (pre ++ x :: L) ++ [b] := by
        rw [hsplit]; simp
      have h2 := List.append_inj' h1 rfl
      exact inv.topo pre x L h2.1 p hp

theorem topoLoop_nil (fuel : Nat) (acts : List (String × Activity)) (d : List (String × Int))
    (order : List String) : topoLoop fuel acts d [] order = some (acts, order) := by
  cases fuel <;> rfl

theorem topoLoop_spec (m : List (String × Activity)) (g : GraphOK m) :
    ∀ (fuel : Nat) (d : List (String × Int)) (q order : List String),
      KahnInv m d q order → (mapKeys m).length ≤ fuel + order.length →
      ∃ d' ord, topoLoop fuel m d q order = some (m, ord) ∧ KahnInv m d' [] ord := by
  intro fuel
  induction fuel with
  | zero =>
    intro d q order inv hf
    cases q with
    | nil => exact ⟨d, order, topoLoop_nil _ _ _ _, inv⟩
    | cons u q =>
      exfalso
      have hsp : (order ++ u :: q).Subperm (mapKeys m) :=
        List.subperm_of_subset inv.nodup inv.sub
      have := hsp.length_le
      simp only [List.length_append, List.length_cons] at this
      omega
  | succ fuel ih =>
    intro d q order inv hf
    cases q with
    | nil => exact ⟨d, order, topoLoop_nil _ _ _ _, inv⟩
    | cons u q =>
      have hu : u ∈ mapKeys m := inv.sub u (by simp)
      have hstep : topoLoop (fuel + 1) m d (u :: q) order =
          topoLoop fuel m (relax (succs m u) (d, q)).1 (relax (succs m u) (d, q)).2
            (order ++ [u]) := by
        simp only [topoLoop, mapIndex_of_mem m u hu]
        rfl
      rw [hstep]
      apply ih _ _ _ (inv.kahn_step g)
      simp only [List.length_append, List.length_singleton]
      omega

theorem allSucc_mem_keys {m : List (String × Activity)} (g : GraphOK m) :
    ∀ s ∈ allSucc m, s ∈ mapKeys m := by
  intro s hs
  rw [allSucc_eq m g.sorted.nodup, List.mem_flatMap] at hs
  obtain ⟨u, hu, hsu⟩ := hs
  exact succs_mem_keys g u s hu hsu

theorem kahnInv_init (m : List (String × Activity)) (g : GraphOK m) :
    KahnInv m (indeg0 m) (zeroQueue (indeg0 m)) [] := by
  obtain ⟨h1, h2, h3⟩ := indeg0_spec m (allSucc_mem_keys g)
  refine ⟨?_, ?_, ?_, ?_, ?_⟩
  · simp only [List.nil_append]
    exact List.Nodup.sublist (zeroQueue_sublist _) h1.nodup
  · intro x hx
    simp only [List.nil_append] at hx
    exact (h2 x).1 ((zeroQueue_sublist _).subset hx)
  · intro s
    simp [h3]
  · intro s hs
    simp only [List.nil_append]
    rw [mem_zeroQueue _ h1]
    constructor
    · exact fun h => h.2
    · exact fun h => ⟨(h2 s).2 hs, h⟩
  · intro pre x post h
    simp at h

/-- Result of the queue loop of `topoSort` on a built graph. -/
theorem topoSort_spec (s : PERT) (err : String) (fuel : Nat) (g : GraphOK s.activities)
    (hf : s.activities.length ≤ fuel) :
    ∃ d ord, KahnInv s.activities d [] ord ∧
      topoSort fuel s err =
        some (if ord.length ≠ s.activities.length then (false, cycleMsg, { s with topo_order := [] })
          else (true, err, { s with topo_order := ord })) := by
  obtain ⟨d, ord, hl, inv⟩ := topoLoop_spec s.activities g fuel (indeg0 s.activities)
    (zeroQueue (indeg0 s.activities)) [] (kahnInv_init s.activities g)
    (by rw [length_mapKeys]; simpa using hf)
  refine ⟨d, ord, inv, ?_⟩
  unfold topoSort
  simp only
  unfold indeg0 at hl
  rw [hl]
  simp only
  by_cases h : ord.length = s.activities.length
  · simp [h]
  · simp [h]

theorem Dep.mem_keys {m : List (String × Activity)} {a b : String} (h : Dep m a b) :
    a ∈ mapKeys m := by
  obtain ⟨act, ha, _⟩ := h
  exact (mem_mapKeys_iff m a).2 ⟨act, ha⟩

theorem Dep.mem_preds {m : List (String × Activity)} {a b : String} (h : Dep m a b) :
    b ∈ preds m a := by
  obtain ⟨act, ha, hb⟩ := h
  unfold preds
  rw [mapGet_of_find m a act ha]
  exact hb

theorem dep_of_mem_preds {m : List (String × Activity)} {a b : String} (ha : a ∈ mapKeys m)
    (hb : b ∈ preds m a) : Dep m a b := by
  obtain ⟨act, hact⟩ := (mem_mapKeys_iff m a).1 ha
  unfold preds at hb
  rw [mapGet_of_find m a act hact] at hb
  exact ⟨act, hact, hb⟩

theorem Dep.dep_of_proj {γ : Type} (π : Activity → γ) (f : γ → List String)
    (hf : ∀ a, f (π a) = a.predecessors) {m m' : List (String × Activity)}
    (h : mapProj π m' = mapProj π m) {a b : String} (hd : Dep m' a b) : Dep m a b := by
  obtain ⟨act', ha, hb⟩ := hd
  obtain ⟨act, hact, hπ⟩ := find_of_proj π h a act' ha
  refine ⟨act, hact, ?_⟩
  rw [← hf act, hπ, hf]
  exact hb

theorem Acyclic.acyclic_of_proj {γ : Type} (π : Activity → γ) (f : γ → List String)
    (hf : ∀ a, f (π a) = a.predecessors) {m m' : List (String × Activity)}
    (h : mapProj π m' = mapProj π m) (hm : Acyclic m) : Acyclic m' := by
  intro a ht
  apply hm a
  exact Relation.TransGen.mono (fun x y hxy => Dep.dep_of_proj π f hf h hxy) ht

theorem PredsResolved.resolved_of_proj {γ : Type} (π : Activity → γ) (f : γ → List String)
    (hf : ∀ a, f (π a) = a.predecessors) {m m' : List (String × Activity)}
    (h : mapProj π m' = mapProj π m) (hm : PredsResolved m) : PredsResolved m' := by
  intro k a' hk p hp
  obtain ⟨a, ha, hπ⟩ := find_of_proj π h k a' hk
  rw [mapKeys_eq_of_proj π h]
  refine hm k a ha p ?_
  rw [← hf a, hπ, hf]
  exact hp

theorem KahnInv.full {m : List (String × Activity)} {d : List (String × Int)}
    {ord : List String} (inv : KahnInv m d [] ord) (hlen : ord.length = m.length) :
    TopoOrder m ord := by
  have hnd : ord.Nodup := by simpa using inv.nodup
  have hsub : ∀ x ∈ ord, x ∈ mapKeys m := fun x hx => inv.sub x (by simpa using hx)
  refine ⟨hnd, ?_, inv.topo⟩
  apply (List.subperm_of_subset hnd hsub).perm_of_length_le
  rw [length_mapKeys, hlen]

theorem TopoOrder.index_lt {m : List (String × Activity)} {ord : List String}
    (t : TopoOrder m ord) {a b : String} (h : Dep m a b) :
    ord.indexOf b < ord.indexOf a := by
  have ha : a ∈ ord := t.perm.mem_iff.2 h.mem_keys
  obtain ⟨pre, post, hsplit⟩ := List.append_of_mem ha
  have hb : b ∈ pre := t.before pre a post hsplit b h.mem_preds
  have hnp : a ∉ pre := by
    intro hmem
    have hn := t.nodup
    rw [hsplit, List.nodup_append] at hn
    exact hn.2.2 hmem (List.mem_cons_self _ _)
  rw [hsplit, List.indexOf_append_of_mem hb, List.indexOf_append_of_not_mem hnp,
    List.indexOf_cons_self]
  have := List.indexOf_lt_length.2 hb
  omega

theorem TopoOrder.acyclic {m : List (String × Activity)} {ord : List String}
    (t : TopoOrder m ord) : Acyclic m := by
  have key : ∀ a c, Relation.TransGen (Dep m) a c → ord.indexOf c < ord.indexOf a := by
    intro a c h
    induction h with
    | single h => exact t.index_lt h
    | tail _ h ih => exact lt_trans (t.index_lt h) ih
  intro a h
  exact lt_irrefl _ (key a a h)

theorem KahnInv.blocked {m : List (String × Activity)} {d : List (String × Int)}
    {ord : List String} (g : GraphOK m) (inv : KahnInv m d [] ord) (s : String)
    (hs : s ∈ mapKeys m) (hso : s ∉ ord) :
    ∃ u, u ∈ mapKeys m ∧ u ∉ ord ∧ Dep m s u := by
  have hnd : ord.Nodup := by simpa using inv.nodup
  have hsub : ∀ x ∈ ord, x ∈ mapKeys m := fun x hx => inv.sub x (by simpa using hx)
  have hz : mapGet d s ≠ 0 := by
    intro h0
    exact hso (by simpa using (inv.zero s hs).2 h0)
  by_contra hno
  apply hz
  have hall : ∀ u ∈ mapKeys m, s ∈ succs m u → u ∈ ord := by
    intro u hu hsu
    by_contra huo
    exact hno ⟨u, hu, huo, dep_of_mem_preds hs ((mem_succs_iff g u s hu).1 hsu).2⟩
  have hc := count_flatMap_eq (succs m) ord (mapKeys m) hnd g.sorted.nodup hsub s hall
  rw [← allSucc_eq m g.sorted.nodup] at hc
  have := inv.deg s
  omega

theorem KahnInv.full_of_acyclic {m : List (String × Activity)} {d : List (String × Int)}
    {ord : List String} (g : GraphOK m) (inv : KahnInv m d [] ord) (hac : Acyclic m) :
    ord.length = m.length := by
  have hnd : ord.Nodup := by simpa using inv.nodup
  have hsub : ∀ x ∈ ord, x ∈ mapKeys m := fun x hx => inv.sub x (by simpa using hx)
  by_contra hlen
  have hex : ∃ k, k ∈ mapKeys m ∧ k ∉ ord := by
    by_contra hno
    apply hlen
    have h1 : ∀ x ∈ mapKeys m, x ∈ ord := by
      intro x hx
      by_contra hxo
      exact hno ⟨x, hx, hxo⟩
    have l1 := (List.subperm_of_subset hnd hsub).length_le
    have l2 := (List.subperm_of_subset g.sorted.nodup h1).length_le
    rw [length_mapKeys] at l1 l2
    omega
  obtain ⟨k0, hk0, hk0o⟩ := hex
  let r : String → String → Prop := fun x y => Relation.TransGen (Dep m) y x
  haveI : IsStrictOrder String r :=
    { irrefl := fun a h => hac a h
      trans := fun a b c hab hbc => Relation.TransGen.trans hbc hab }
  have hfin : {x | x ∈ mapKeys m ∧ x ∉ ord}.Finite :=
    (List.finite_toSet (mapKeys m)).subset (fun x hx => hx.1)
  have hwf : {x | x ∈ mapKeys m ∧ x ∉ ord}.WellFoundedOn r := hfin.wellFoundedOn
  obtain ⟨a, _, hmin⟩ := WellFounded.has_min hwf Set.univ ⟨⟨k0, hk0, hk0o⟩, trivial⟩
  obtain ⟨u, hu, huo, hdep⟩ := inv.blocked g a.1 a.2.1 a.2.2
  exact hmin ⟨u, hu, huo⟩ trivial (Relation.TransGen.single hdep)

end PERT

namespace F32

theorem zero_eq : (0 : F32) = F32.fin false 0 := rfl

theorem key_zero : F32.key 0 = some 0 := rfl

theorem huge_pos : (0 : Int) < (F32.huge : Int) := by
  unfold F32.huge
  positivity

theorem key_eq_none_iff (x : F32) : F32.key x = none ↔ x = F32.nan := by
  cases x with
  | nan => simp [F32.key]
  | inf s => cases s <;> simp [F32.key]
  | fin s n => simp [F32.key]

theorem key_of_ne_nan {x : F32} (h : x ≠ F32.nan) : ∃ a, F32.key x = some a := by
  cases hk : F32.key x with
  | none => exact absurd ((key_eq_none_iff x).1 hk) h
  | some a => exact ⟨a, rfl⟩

theorem ne_nan_of_key {x : F32} {a : Int} (h : F32.key x = some a) : x ≠ F32.nan := by
  intro e
  rw [e] at h
  simp [F32.key] at h

theorem lt_of_keys {x y : F32} {a b : Int} (hx : F32.key x = some a) (hy : F32.key y = some b) :
    F32.lt x y = decide (a < b) := by
  unfold F32.lt
  rw [hx, hy]

theorem le_of_keys {x y : F32} {a b : Int} (hx : F32.key x = some a) (hy : F32.key y = some b) :
    F32.le x y = decide (a ≤ b) := by
  unfold F32.le
  rw [hx, hy]

theorem keys_of_lt {x y : F32} (h : F32.lt x y = true) :
    ∃ a b, F32.key x = some a ∧ F32.key y = some b ∧ a < b := by
  unfold F32.lt at h
  cases hx : F32.key x with
  | none => rw [hx] at h; simp at h
  | some a =>
    cases hy : F32.key y with
    | none => rw [hx, hy] at h; simp at h
    | some b =>
      rw [hx, hy] at h
      exact ⟨a, b, rfl, rfl, by simpa using h⟩

theorem keys_of_le {x y : F32} (h : F32.le x y = true) :
    ∃ a b, F32.key x = some a ∧ F32.key y = some b ∧ a ≤ b := by
  unfold F32.le at h
  cases hx : F32.key x with
  | none => rw [hx] at h; simp at h
  | some a =>
    cases hy : F32.key y with
    | none => rw [hx, hy] at h; simp at h
    | some b =>
      rw [hx, hy] at h
      exact ⟨a, b, rfl, rfl, by simpa using h⟩

theorem keys_of_eq {x y : F32} (h : F32.eq x y = true) :
    ∃ a, F32.key x = some a ∧ F32.key y = some a := by
  unfold F32.eq at h
  cases hx : F32.key x with
  | none => rw [hx] at h; simp at h
  | some a =>
    cases hy : F32.key y with
    | none => rw [hx, hy] at h; simp at h
    | some b =>
      rw [hx, hy] at h
      have : a = b := by simpa using h
      exact ⟨a, rfl, by rw [this]⟩

/-- The only values at place 0 are the two zeros. -/
theorem zero_of_key {x : F32} (h : F32.key x = some 0) :
    x = F32.fin false 0 ∨ x = F32.fin true 0 := by
  cases x with
  | nan => simp [F32.key] at h
  | inf s =>
    have hp := huge_pos
    cases s <;> simp only [F32.key, Option.some.injEq] at h <;> omega
  | fin s n =>
    cases s
    · left
      simp only [F32.key, F32.signed, Option.some.injEq] at h
      have : n = 0 := by simpa using h
      rw [this]
    · right
      simp only [F32.key, F32.signed, Option.some.injEq] at h
      have : n = 0 := by simpa using h
      rw [this]

theorem max_eq (a b : F32) :
    (F32.lt a b = true ∧ F32.max a b = b) ∨ (F32.lt a b = false ∧ F32.max a b = a) := by
  unfold F32.max
  cases h : F32.lt a b
  · right; simp
  · left; simp

theorem min_eq (a b : F32) :
    (F32.lt b a = true ∧ F32.min a b = b) ∨ (F32.lt b a = false ∧ F32.min a b = a) := by
  unfold F32.min
  cases h : F32.lt b a
  · right; simp
  · left; simp

/-- The running maximum never becomes NaN and never decreases. -/
theorem key_max {a b : F32} {x : Int} (ha : F32.key a = some x) :
    ∃ y, F32.key (F32.max a b) = some y ∧ x ≤ y := by
  rcases max_eq a b with ⟨h1, h2⟩ | ⟨_, h2⟩
  · obtain ⟨p, q, hp, hq, hpq⟩ := keys_of_lt h1
    rw [ha] at hp
    simp only [Option.some.injEq] at hp
    rw [h2]
    exact ⟨q, hq, by omega⟩
  · rw [h2]
    exact ⟨x, ha, le_refl _⟩

/-- The running maximum is at least the value just compared, unless that value is NaN. -/
theorem key_max_right {a b : F32} {x y : Int} (ha : F32.key a = some x)
    (hb : F32.key b = some y) : ∃ z, F32.key (F32.max a b) = some z ∧ y ≤ z := by
  rcases max_eq a b with ⟨_, h2⟩ | ⟨h1, h2⟩
  · rw [h2]
    exact ⟨y, hb, le_refl _⟩
  · rw [lt_of_keys ha hb] at h1
    have : ¬ x < y := by simpa using h1
    rw [h2]
    exact ⟨x, ha, by omega⟩

/-- The running minimum never becomes NaN and never increases. -/
theorem key_min {a b : F32} {x : Int} (ha : F32.key a = some x) :
    ∃ y, F32.key (F32.min a b) = some y ∧ y ≤ x := by
  rcases min_eq a b with ⟨h1, h2⟩ | ⟨_, h2⟩
  · obtain ⟨p, q, hp, hq, hpq⟩ := keys_of_lt h1
    rw [ha] at hq
    simp only [Option.some.injEq] at hq
    rw [h2]
    exact ⟨p, hp, by omega⟩
  · rw [h2]
    exact ⟨x, ha, le_refl _⟩

/-- The running minimum is at most the value just compared, unless that value is NaN. -/
theorem key_min_right {a b : F32} {x y : Int} (ha : F32.key a = some x)
    (hb : F32.key b = some y) : ∃ z, F32.key (F32.min a b) = some z ∧ z ≤ y := by
  rcases min_eq a b with ⟨_, h2⟩ | ⟨h1, h2⟩
  · rw [h2]
    exact ⟨y, hb, le_refl _⟩
  · rw [lt_of_keys hb ha] at h1
    have : ¬ y < x := by simpa using h1
    rw [h2]
    exact ⟨x, ha, by omega⟩

theorem excess_spec (fuel n : Nat) :
    F32.excess fuel n = 0 ∨ 2 ^ F32.excess fuel n * 2 ^ 23 ≤ n := by
  induction fuel generalizing n with
  | zero => left; rfl
  | succ f ih =>
    by_cases h : n < 2 ^ 24
    · left
      show (if n < 2 ^ 24 then 0 else F32.excess f (n / 2) + 1) = 0
      rw [if_pos h]
    · right
      have he : F32.excess (f + 1) n = F32.excess f (n / 2) + 1 := by
        show (if n < 2 ^ 24 then 0 else F32.excess f (n / 2) + 1) = _
        rw [if_neg h]
      rw [he, pow_succ]
      rcases ih (n / 2) with h0 | h1
      · rw [h0]
        have e24 : (2 : Nat) ^ 0 * 2 * 2 ^ 23 = 2 ^ 24 := by norm_num
        rw [e24]
        exact Nat.le_of_not_lt h
      · have : 2 * (n / 2) ≤ n := Nat.mul_div_le n 2
        calc 2 ^ F32.excess f (n / 2) * 2 * 2 ^ 23
            = 2 * (2 ^ F32.excess f (n / 2) * 2 ^ 23) := by ring
          _ ≤ 2 * (n / 2) := Nat.mul_le_mul_left 2 h1
          _ ≤ n := this

/-- Rounding gives the infinity or a finite value of the same sign, never NaN. -/
theorem round_cases (neg : Bool) (n : Nat) :
    F32.round neg n = F32.inf neg ∨ ∃ k, F32.round neg n = F32.fin neg k ∧ k < F32.huge := by
  unfold F32.round
  by_cases h : F32.huge ≤ F32.roundMag n
  · left; rw [if_pos h]
  · right
    rw [if_neg h]
    exact ⟨_, rfl, Nat.lt_of_not_le h⟩

theorem roundMag_ne_zero (n : Nat) (hn : n ≠ 0) : F32.roundMag n ≠ 0 := by
  unfold F32.roundMag
  simp only
  intro hz
  have hp : 0 < 2 ^ F32.excess n n := pow_pos (by norm_num) _
  rcases Nat.mul_eq_zero.1 hz with hq | hq
  · have hq0 : n / 2 ^ F32.excess n n = 0 := by
      split at hq
      · exact absurd hq (Nat.succ_ne_zero _)
      · exact hq
    have hlt : n < 2 ^ F32.excess n n := (Nat.div_eq_zero_iff hp).1 hq0
    rcases excess_spec n n with h0 | h1
    · rw [h0] at hlt
      simp at hlt
      exact hn hlt
    · have : 2 ^ F32.excess n n ≤ 2 ^ F32.excess n n * 2 ^ 23 :=
        Nat.le_mul_of_pos_right _ (by norm_num)
      omega
  · omega

/-- Rounding a non-zero magnitude never gives a zero. -/
theorem round_ne_zero (neg s : Bool) (n : Nat) (hn : n ≠ 0) :
    F32.round neg n ≠ F32.fin s 0 := by
  unfold F32.round
  by_cases h : F32.huge ≤ F32.roundMag n
  · rw [if_pos h]
    intro e
    cases e
  · rw [if_neg h]
    intro e
    simp only [F32.fin.injEq] at e
    exact roundMag_ne_zero n hn e.2

theorem signed_nonneg_iff (s : Bool) (n : Nat) : 0 ≤ F32.signed s n ↔ s = false ∨ n = 0 := by
  unfold F32.signed
  cases s
  · simp
  · simp

theorem natAbs_signed (s : Bool) (n : Nat) : (F32.signed s n).natAbs = n := by
  unfold F32.signed
  cases s <;> simp

theorem key_round (neg : Bool) (n : Nat) :
    ∃ k, F32.key (F32.round neg n) = some k ∧ (neg = false → 0 ≤ k) ∧ (neg = true → k ≤ 0) := by
  rcases round_cases neg n with h | ⟨m, h, _⟩
  · rw [h]
    have hp := huge_pos
    cases neg
    · refine ⟨(F32.huge : Int), rfl, ?_, ?_⟩
      · intro _; omega
      · intro e; cases e
    · refine ⟨-(F32.huge : Int), rfl, ?_, ?_⟩
      · intro e; cases e
      · intro _; omega
  · rw [h]
    refine ⟨F32.signed neg m, rfl, ?_, ?_⟩
    · intro e
      rw [e]
      simp [F32.signed]
    · intro e
      rw [e]
      simp [F32.signed]

/-- The sum of two values that are neither NaN nor negative is neither NaN nor negative. -/
theorem add_key_nonneg {x y : F32} {a b : Int} (hx : F32.key x = some a) (ha : 0 ≤ a)
    (hy : F32.key y = some b) (hb : 0 ≤ b) : ∃ c, F32.key (F32.add x y) = some c ∧ 0 ≤ c := by
  have hp := huge_pos
  cases x with
  | nan => simp [F32.key] at hx
  | inf s =>
    cases s with
    | true =>
      simp only [F32.key, Option.some.injEq] at hx
      omega
    | false =>
      cases y with
      | nan => simp [F32.key] at hy
      | inf t =>
        cases t with
        | true =>
          simp only [F32.key, Option.some.injEq] at hy
          omega
        | false => exact ⟨_, rfl, by omega⟩
      | fin t m => exact ⟨_, rfl, by omega⟩
  | fin s n =>
    cases y with
    | nan => simp [F32.key] at hy
    | inf t =>
      cases t with
      | true =>
        simp only [F32.key, Option.some.injEq] at hy
        omega
      | false => exact ⟨_, rfl, by omega⟩
    | fin t m =>
      simp only [F32.key, Option.some.injEq] at hx hy
      show ∃ c, F32.key (if F32.signed s n + F32.signed t m = 0 then F32.fin (s && t) 0
        else F32.round (decide (F32.signed s n + F32.signed t m < 0))
          (F32.signed s n + F32.signed t m).natAbs) = some c ∧ 0 ≤ c
      by_cases h0 : F32.signed s n + F32.signed t m = 0
      · rw [if_pos h0]
        exact ⟨_, rfl, by simp [F32.signed]⟩
      · rw [if_neg h0]
        have hneg : decide (F32.signed s n + F32.signed t m < 0) = false := by
          simp only [decide_eq_false_iff_not]
          omega
        rw [hneg]
        obtain ⟨k, hk, hk1, _⟩ := key_round false (F32.signed s n + F32.signed t m).natAbs
        exact ⟨k, hk, hk1 rfl⟩

/-- A sum is the negative zero only when both operands are negative zeros. -/
theorem add_eq_negzero {x y : F32} (h : F32.add x y = F32.fin true 0) :
    x = F32.fin true 0 ∧ y = F32.fin true 0 := by
  cases x with
  | nan => cases y <;> simp [F32.add] at h
  | inf s =>
    cases y with
    | nan => simp [F32.add] at h
    | inf t =>
      simp only [F32.add] at h
      split at h <;> cases h
    | fin t m => simp [F32.add] at h
  | fin s n =>
    cases y with
    | nan => simp [F32.add] at h
    | inf t => simp [F32.add] at h
    | fin t m =>
      change (if F32.signed s n + F32.signed t m = 0 then F32.fin (s && t) 0
        else F32.round (decide (F32.signed s n + F32.signed t m < 0))
          (F32.signed s n + F32.signed t m).natAbs) = F32.fin true 0 at h
      by_cases h0 : F32.signed s n + F32.signed t m = 0
      · rw [if_pos h0] at h
        simp only [F32.fin.injEq, Bool.and_eq_true, and_true] at h
        obtain ⟨hs, ht⟩ := h
        subst hs
        subst ht
        simp only [F32.signed, if_true] at h0
        have hn : n = 0 := by omega
        have hm : m = 0 := by omega
        rw [hn, hm]
        exact ⟨rfl, rfl⟩
      · rw [if_neg h0] at h
        exact absurd h (round_ne_zero _ _ _ (by
          intro e
          exact h0 (Int.natAbs_eq_zero.1 e)))

theorem neg_neg (x : F32) : F32.neg (F32.neg x) = x := by
  cases x <;> simp [F32.neg]

/-- A difference is the negative zero only for `(-0) - (+0)`. -/
theorem sub_eq_negzero {x y : F32} (h : F32.sub x y = F32.fin true 0) :
    x = F32.fin true 0 ∧ y = F32.fin false 0 := by
  unfold F32.sub at h
  obtain ⟨h1, h2⟩ := add_eq_negzero h
  refine ⟨h1, ?_⟩
  have := congrArg F32.neg h2
  rw [neg_neg] at this
  rw [this]
  rfl

/-- Adding a finite value to a value that is not NaN does not give NaN. -/
theorem add_fin_ne_nan {x : F32} (hx : x ≠ F32.nan) (s : Bool) (n : Nat) :
    F32.add x (F32.fin s n) ≠ F32.nan := by
  cases x with
  | nan => exact absurd rfl hx
  | inf t => simp [F32.add]
  | fin t m =>
    show (if F32.signed t m + F32.signed s n = 0 then F32.fin (t && s) 0
        else F32.round (decide (F32.signed t m + F32.signed s n < 0))
          (F32.signed t m + F32.signed s n).natAbs) ≠ F32.nan
    split
    · intro e; cases e
    · rcases round_cases (decide (F32.signed t m + F32.signed s n < 0))
        (F32.signed t m + F32.signed s n).natAbs with h | ⟨k, h, _⟩
      · rw [h]; intro e; cases e
      · rw [h]; intro e; cases e

/-- Subtracting a finite value from a value that is not NaN does not give NaN. -/
theorem sub_fin_ne_nan {x : F32} (hx : x ≠ F32.nan) (s : Bool) (n : Nat) :
    F32.sub x (F32.fin s n) ≠ F32.nan :=
  add_fin_ne_nan hx (!s) n

theorem inRange_zero : InRange 0 := by
  intro s n h
  have h0 : (0 : F32) = F32.fin false 0 := rfl
  rw [h0] at h
  simp only [F32.fin.injEq] at h
  rw [← h.2]
  have := huge_pos
  omega

theorem inRange_infinity : InRange F32.infinity := by
  intro s n h
  cases h

/-- A finite result of an addition is in range. -/
theorem add_in_range {x y : F32} {s : Bool} {n : Nat} (h : F32.add x y = F32.fin s n) :
    n < F32.huge := by
  cases x with
  | nan => cases y <;> simp [F32.add] at h
  | inf a =>
    cases y with
    | nan => simp [F32.add] at h
    | inf b =>
      simp only [F32.add] at h
      split at h <;> cases h
    | fin b m => simp [F32.add] at h
  | fin a k =>
    cases y with
    | nan => simp [F32.add] at h
    | inf b => simp [F32.add] at h
    | fin b m =>
      change (if F32.signed a k + F32.signed b m = 0 then F32.fin (a && b) 0
        else F32.round (decide (F32.signed a k + F32.signed b m < 0))
          (F32.signed a k + F32.signed b m).natAbs) = F32.fin s n at h
      by_cases h0 : F32.signed a k + F32.signed b m = 0
      · rw [if_pos h0] at h
        simp only [F32.fin.injEq] at h
        rw [← h.2]
        have := huge_pos
        omega
      · rw [if_neg h0] at h
        rcases round_cases (decide (F32.signed a k + F32.signed b m < 0))
          (F32.signed a k + F32.signed b m).natAbs with h1 | ⟨j, h1, hj⟩
        · rw [h1] at h; cases h
        · rw [h1] at h
          simp only [F32.fin.injEq] at h
          rw [← h.2]
          exact hj

theorem sub_in_range {x y : F32} {s : Bool} {n : Nat} (h : F32.sub x y = F32.fin s n) :
    n < F32.huge :=
  add_in_range h

theorem inRange_add (x y : F32) : InRange (F32.add x y) := fun _ _ h => add_in_range h

theorem inRange_sub (x y : F32) : InRange (F32.sub x y) := fun _ _ h => sub_in_range h

/-- Values in range that compare equal are the same value, the two zeros apart. -/
theorem eq_of_eq_true {x y : F32} (hx : InRange x) (hy : InRange y)
    (hx0 : x ≠ F32.fin true 0) (hy0 : y ≠ F32.fin true 0) (h : F32.eq x y = true) : x = y := by
  obtain ⟨a, ha, hb⟩ := keys_of_eq h
  have hp := huge_pos
  cases x with
  | nan => simp [F32.key] at ha
  | inf s =>
    cases y with
    | nan => simp [F32.key] at hb
    | inf u =>
      cases s <;> cases u <;> simp only [F32.key, Option.some.injEq] at ha hb <;>
        first | rfl | omega
    | fin u j =>
      have hj := hy u j rfl
      cases s <;> cases u <;> simp only [F32.key, F32.signed, Option.some.injEq, Bool.false_eq_true, if_false, if_true] at ha hb <;>
        omega
  | fin s i =>
    have hi := hx s i rfl
    cases y with
    | nan => simp [F32.key] at hb
    | inf u =>
      cases s <;> cases u <;> simp only [F32.key, F32.signed, Option.some.injEq, Bool.false_eq_true, if_false, if_true] at ha hb <;>
        omega
    | fin u j =>
      cases s <;> cases u <;> simp only [F32.key, F32.signed, Option.some.injEq, Bool.false_eq_true, if_false, if_true] at ha hb
      · have : i = j := by omega
        rw [this]
      · have hi0 : i = 0 := by omega
        have hj0 : j = 0 := by omega
        rw [hj0] at hy0
        exact absurd rfl hy0
      · have hi0 : i = 0 := by omega
        rw [hi0] at hx0
        exact absurd rfl hx0
      · have : i = j := by omega
        rw [this]

/-- A value in range that is not below `+∞` is `+∞`. -/
theorem inf_of_key_ge {x : F32} {k : Int} (hr : InRange x)
    (hk : F32.key x = some k) (hge : (F32.huge : Int) ≤ k) : x = F32.inf false := by
  have hp := huge_pos
  cases x with
  | nan => simp [F32.key] at hk
  | inf s =>
    cases s with
    | false => rfl
    | true =>
      simp only [F32.key, Option.some.injEq] at hk
      omega
  | fin s n =>
    have hn := hr s n rfl
    simp only [F32.key, Option.some.injEq] at hk
    unfold F32.signed at hk
    split at hk <;> omega

theorem isFinite_iff (x : F32) :
    F32.isFinite x = true ↔ ∃ s n, x = F32.fin s n ∧ n < F32.huge := by
  cases x with
  | nan => simp [F32.isFinite]
  | inf s => simp [F32.isFinite]
  | fin s n =>
    simp only [F32.isFinite, decide_eq_true_eq]
    constructor
    · intro h
      exact ⟨s, n, rfl, h⟩
    · rintro ⟨t, m, e, h⟩
      simp only [F32.fin.injEq] at e
      rw [e.2]
      exact h

theorem ne_nan_of_finite {x : F32} (h : F32.isFinite x = true) : x ≠ F32.nan := by
  intro e
  rw [e] at h
  simp [F32.isFinite] at h

end F32

theorem mapGet_mapModify_self {β : Type} [Inhabited β] (m : List (String × β)) (k : String)
    (f : β → β) (hk : k ∈ mapKeys m) : mapGet (mapModify m k f) k = f (mapGet m k) := by
  obtain ⟨v, hv⟩ := (mem_mapKeys_iff m k).1 hk
  simp [mapGet, mapFind_mapModify_self, hv]

theorem mapGet_mapModify_ne {β : Type} [Inhabited β] (m : List (String × β)) (k j : String)
    (f : β → β) (h : j ≠ k) : mapGet (mapModify m k f) j = mapGet m j := by
  simp [mapGet, mapFind_mapModify_ne m k j f h]

theorem get_proj_of_proj {γ : Type} (π : Activity → γ) {m m' : List (String × Activity)}
    (h : mapProj π m' = mapProj π m) (j : String) : π (mapGet m' j) = π (mapGet m j) := by
  have := find_proj_of_proj π h j
  unfold mapGet
  cases h1 : mapFind m' j with
  | none =>
    cases h2 : mapFind m j with
    | none => rfl
    | some b => rw [h1, h2] at this; simp at this
  | some a =>
    cases h2 : mapFind m j with
    | none => rw [h1, h2] at this; simp at this
    | some b =>
      rw [h1, h2] at this
      simpa using this

namespace PERT

theorem DepOrdered.split {deps : String → List String} {done rest : List String} {id : String}
    (h : DepOrdered deps (done ++ id :: rest)) :
    id ∉ done ∧ (∀ p ∈ deps id, p ∈ done) ∧ (∀ k ∈ done, ∀ p ∈ deps k, p ∈ done) := by
  have hn := h.nodup
  rw [List.nodup_append] at hn
  refine ⟨fun hmem => hn.2.2 hmem (List.mem_cons_self _ _), h.before done id rest rfl, ?_⟩
  intro k hk p hp
  obtain ⟨d1, d2, hd⟩ := List.append_of_mem hk
  have : done ++ id :: rest = d1 ++ k :: (d2 ++ id :: rest) := by
    rw [hd]; simp
  have := h.before d1 k _ this p hp
  rw [hd]
  exact List.mem_append_left _ this

theorem maxEF_eq (ps : List String) (m : List (String × Activity)) (e : F32)
    (h : ∀ p ∈ ps, p ∈ mapKeys m) : maxEF ps m e = (m, esOf m ps e) := by
  induction ps generalizing e with
  | nil => rfl
  | cons p ps ih =>
    have hp : p ∈ mapKeys m := h p (List.mem_cons_self _ _)
    simp only [maxEF, mapIndex_of_mem m p hp]
    rw [ih _ (fun x hx => h x (List.mem_cons_of_mem _ hx))]
    rfl

theorem esOf_congr (m1 m2 : List (String × Activity)) (ps : List String) (e : F32)
    (h : ∀ p ∈ ps, (mapGet m1 p).EF = (mapGet m2 p).EF) : esOf m1 ps e = esOf m2 ps e := by
  induction ps generalizing e with
  | nil => rfl
  | cons p ps ih =>
    simp only [esOf, List.foldl_cons]
    rw [h p (List.mem_cons_self _ _)]
    exact ih _ (fun x hx => h x (List.mem_cons_of_mem _ hx))

theorem esOf_append (m : List (String × Activity)) (l1 l2 : List String) (e : F32) :
    esOf m (l1 ++ l2) e = esOf m l2 (esOf m l1 e) := by
  simp [esOf, List.foldl_append]

/-- The running maximum is never NaN and never below its start value, when that is not
NaN. -/
theorem esOf_key (m : List (String × Activity)) (ps : List String) (e : F32) (a : Int)
    (he : F32.key e = some a) : ∃ b, F32.key (esOf m ps e) = some b ∧ a ≤ b := by
  induction ps generalizing e a with
  | nil => exact ⟨a, he, le_refl _⟩
  | cons p ps ih =>
    simp only [esOf, List.foldl_cons]
    obtain ⟨y, hy, hay⟩ := F32.key_max (b := (mapGet m p).EF) he
    obtain ⟨b, hb, hyb⟩ := ih _ y hy
    exact ⟨b, hb, by omega⟩

/-- The running maximum is at least every value of the list that is not NaN. -/
theorem esOf_ge_mem (m : List (String × Activity)) (ps : List String) (e : F32) (a : Int)
    (he : F32.key e = some a) (p : String) (hp : p ∈ ps) (c : Int)
    (hc : F32.key (mapGet m p).EF = some c) :
    ∃ b, F32.key (esOf m ps e) = some b ∧ c ≤ b := by
  induction ps generalizing e a with
  | nil => simp at hp
  | cons x ps ih =>
    simp only [esOf, List.foldl_cons]
    rcases List.mem_cons.1 hp with h | h
    · subst h
      obtain ⟨z, hz, hcz⟩ := F32.key_max_right he hc
      obtain ⟨b, hb, hzb⟩ := esOf_key m ps _ z hz
      exact ⟨b, hb, by omega⟩
    · obtain ⟨y, hy, _⟩ := F32.key_max (b := (mapGet m x).EF) he
      exact ih _ y hy h

/-- The running maximum is its start value or a value of the list that exceeds the start
value. -/
theorem esOf_attained (m : List (String × Activity)) (ps : List String) (e : F32) :
    esOf m ps e = e ∨
      ∃ p ∈ ps, esOf m ps e = (mapGet m p).EF ∧ F32.lt e (mapGet m p).EF = true := by
  induction ps generalizing e with
  | nil => exact Or.inl rfl
  | cons x ps ih =>
    simp only [esOf, List.foldl_cons]
    rcases F32.max_eq e (mapGet m x).EF with ⟨h1, h2⟩ | ⟨h1, h2⟩
    · rw [h2]
      rcases ih (mapGet m x).EF with h | ⟨p, hp, h, hlt⟩
      · right
        exact ⟨x, List.mem_cons_self _ _, h, h1⟩
      · right
        refine ⟨p, List.mem_cons_of_mem _ hp, h, ?_⟩
        obtain ⟨a, b, ha, hb, hab⟩ := F32.keys_of_lt h1
        obtain ⟨b', c, hb', hc, hbc⟩ := F32.keys_of_lt hlt
        rw [hb] at hb'
        simp only [Option.some.injEq] at hb'
        rw [F32.lt_of_keys ha hc]
        simp only [decide_eq_true_eq]
        omega
    · rw [h2]
      rcases ih e with h | ⟨p, hp, h, hlt⟩
      · exact Or.inl h
      · exact Or.inr ⟨p, List.mem_cons_of_mem _ hp, h, hlt⟩

theorem forwardLoop_cons (id : String) (ids : List String) (m : List (String × Activity))
    (pd : F32) (hid : id ∈ mapKeys m) (hp : ∀ p ∈ preds m id, p ∈ mapKeys m) :
    forwardLoop (id :: ids) m pd =
      forwardLoop ids (fwdStep m id)
        (F32.max pd (F32.add (esOf m (preds m id) 0) (mapGet m id).duration)) := by
  simp only [forwardLoop, mapIndex_of_mem m id hid]
  have : maxEF (mapGet m id).predecessors m 0 = (m, esOf m (preds m id) 0) := maxEF_eq _ m 0 hp
  rw [this]
  rfl

theorem FwdInv.preds_eq {m0 m : List (String × Activity)} {done : List String} {pd : F32}
    (inv : FwdInv m0 done m pd) (k : String) : preds m k = preds m0 k := by
  have := get_proj_of_proj fwdFrame inv.frame k
  exact congrArg (fun x => x.1.2.2.1) this

theorem FwdInv.fwd_step {m0 m : List (String × Activity)} {done rest : List String} {pd : F32}
    {id : String} (hord : DepOrdered (preds m0) (done ++ id :: rest))
    (hid : id ∈ mapKeys m0) (inv : FwdInv m0 done m pd) :
    FwdInv m0 (done ++ [id]) (fwdStep m id)
      (F32.max pd (F32.add (esOf m (preds m id) 0) (mapGet m id).duration)) := by
  obtain ⟨hnd, hpid, hpk⟩ := hord.split
  have hkeys : mapKeys m = mapKeys m0 := mapKeys_eq_of_proj fwdFrame inv.frame
  have hidm : id ∈ mapKeys m := by rw [hkeys]; exact hid
  have hself : mapGet (fwdStep m id) id =
      { mapGet m id with ES := esOf m (preds m id) 0
                         EF := F32.add (esOf m (preds m id) 0) (mapGet m id).duration } :=
    mapGet_mapModify_self m id _ hidm
  have hother : ∀ j, j ≠ id → mapGet (fwdStep m id) j = mapGet m j :=
    fun j hj => mapGet_mapModify_ne m id j _ hj
  have hes : ∀ ps : List String, id ∉ ps → esOf (fwdStep m id) ps 0 = esOf m ps 0 := by
    intro ps hps
    apply esOf_congr
    intro p hp
    rw [hother p (fun e => hps (e ▸ hp))]
  have hpe := inv.preds_eq id
  refine ⟨?_, ?_, ?_, ?_⟩
  · rw [← inv.frame]
    exact mapProj_mapModify fwdFrame m id _ (fun _ => rfl)
  · intro k hk
    rcases List.mem_append.1 hk with hk | hk
    · have hne : k ≠ id := fun e => hnd (e ▸ hk)
      rw [hother k hne, hes _ (fun h => hnd (hpk k hk id h))]
      exact inv.es k hk
    · simp only [List.mem_singleton] at hk
      subst hk
      rw [hself, hes _ (fun h => hnd (hpid k h)), hpe]
  · intro k hk
    rcases List.mem_append.1 hk with hk | hk
    · have hne : k ≠ id := fun e => hnd (e ▸ hk)
      rw [hother k hne]
      exact inv.ef k hk
    · simp only [List.mem_singleton] at hk
      subst hk
      rw [hself]
  · rw [esOf_append, hes done hnd, ← inv.pd]
    show F32.max pd _ = F32.max pd (mapGet (fwdStep m id) id).EF
    rw [hself]

theorem forwardLoop_inv (m0 : List (String × Activity)) (g : GraphOK m0) (ord : List String)
    (hord : DepOrdered (preds m0) ord) (hsub : ∀ x ∈ ord, x ∈ mapKeys m0) :
    ∀ (rest done : List String) (m : List (String × Activity)) (pd : F32),
      ord = done ++ rest → FwdInv m0 done m pd →
      FwdInv m0 ord (forwardLoop rest m pd).1 (forwardLoop rest m pd).2 := by
  intro rest
  induction rest with
  | nil =>
    intro done m pd h inv
    simp only [List.append_nil] at h
    rw [h]
    exact inv
  | cons id rest ih =>
    intro done m pd h inv
    have hid : id ∈ mapKeys m0 := hsub id (by rw [h]; simp)
    have hkeys : mapKeys m = mapKeys m0 := mapKeys_eq_of_proj fwdFrame inv.frame
    have hp : ∀ p ∈ preds m id, p ∈ mapKeys m := by
      intro p hp
      rw [hkeys]
      rw [inv.preds_eq id] at hp
      exact preds_mem_keys g id p hid hp
    rw [forwardLoop_cons id rest m pd (by rw [hkeys]; exact hid) hp]
    apply ih (done ++ [id])
    · rw [h]; simp
    · exact inv.fwd_step (h ▸ hord) hid

theorem forwardLoop_spec (m0 : List (String × Activity)) (g : GraphOK m0) (ord : List String)
    (hord : DepOrdered (preds m0) ord) (hsub : ∀ x ∈ ord, x ∈ mapKeys m0) :
    FwdInv m0 ord (forwardLoop ord m0 0).1 (forwardLoop ord m0 0).2 := by
  apply forwardLoop_inv m0 g ord hord hsub ord [] m0 0 rfl
  exact ⟨rfl, by simp, by simp, rfl⟩

theorem minLS_eq (ss : List String) (m : List (String × Activity)) (lf : F32)
    (h : ∀ s ∈ ss, s ∈ mapKeys m) : minLS ss m lf = (m, lfFold m ss lf) := by
  induction ss generalizing lf with
  | nil => rfl
  | cons s ss ih =>
    have hs : s ∈ mapKeys m := h s (List.mem_cons_self _ _)
    simp only [minLS, mapIndex_of_mem m s hs]
    rw [ih _ (fun x hx => h x (List.mem_cons_of_mem _ hx))]
    rfl

theorem latestFinish_eq (ss : List String) (m : List (String × Activity)) (pd : F32)
    (h : ∀ s ∈ ss, s ∈ mapKeys m) : latestFinish ss m pd = (m, lfOf m ss pd) := by
  unfold latestFinish lfOf
  by_cases hs : ss = []
  · rw [if_pos hs, if_pos hs]
  · rw [if_neg hs, if_neg hs]
    exact minLS_eq ss m _ h

theorem lfFold_congr (m1 m2 : List (String × Activity)) (ss : List String) (lf : F32)
    (h : ∀ s ∈ ss, (mapGet m1 s).LS = (mapGet m2 s).LS) : lfFold m1 ss lf = lfFold m2 ss lf := by
  induction ss generalizing lf with
  | nil => rfl
  | cons s ss ih =>
    simp only [lfFold, List.foldl_cons]
    rw [h s (List.mem_cons_self _ _)]
    exact ih _ (fun x hx => h x (List.mem_cons_of_mem _ hx))

theorem lfOf_congr (m1 m2 : List (String × Activity)) (ss : List String) (pd : F32)
    (h : ∀ s ∈ ss, (mapGet m1 s).LS = (mapGet m2 s).LS) : lfOf m1 ss pd = lfOf m2 ss pd := by
  unfold lfOf
  rw [lfFold_congr m1 m2 ss _ h]

/-- The running minimum is never NaN and never above its start value, when that is not
NaN. -/
theorem lfFold_key (m : List (String × Activity)) (ss : List String) (lf : F32) (a : Int)
    (he : F32.key lf = some a) : ∃ b, F32.key (lfFold m ss lf) = some b ∧ b ≤ a := by
  induction ss generalizing lf a with
  | nil => exact ⟨a, he, le_refl _⟩
  | cons s ss ih =>
    simp only [lfFold, List.foldl_cons]
    obtain ⟨y, hy, hay⟩ := F32.key_min (b := (mapGet m s).LS) he
    obtain ⟨b, hb, hyb⟩ := ih _ y hy
    exact ⟨b, hb, by omega⟩

/-- The running minimum is at most every value of the list that is not NaN. -/
theorem lfFold_le_mem (m : List (String × Activity)) (ss : List String) (lf : F32) (a : Int)
    (he : F32.key lf = some a) (s : String) (hs : s ∈ ss) (c : Int)
    (hc : F32.key (mapGet m s).LS = some c) :
    ∃ b, F32.key (lfFold m ss lf) = some b ∧ b ≤ c := by
  induction ss generalizing lf a with
  | nil => simp at hs
  | cons x ss ih =>
    simp only [lfFold, List.foldl_cons]
    rcases List.mem_cons.1 hs with h | h
    · subst h
      obtain ⟨z, hz, hcz⟩ := F32.key_min_right he hc
      obtain ⟨b, hb, hzb⟩ := lfFold_key m ss _ z hz
      exact ⟨b, hb, by omega⟩
    · obtain ⟨y, hy, _⟩ := F32.key_min (b := (mapGet m x).LS) he
      exact ih _ y hy h

/-- The running minimum is its start value or a value of the list that is below the start
value. -/
theorem lfFold_attained (m : List (String × Activity)) (ss : List String) (lf : F32) :
    lfFold m ss lf = lf ∨
      ∃ s ∈ ss, lfFold m ss lf = (mapGet m s).LS ∧ F32.lt (mapGet m s).LS lf = true := by
  induction ss generalizing lf with
  | nil => exact Or.inl rfl
  | cons x ss ih =>
    simp only [lfFold, List.foldl_cons]
    rcases F32.min_eq lf (mapGet m x).LS with ⟨h1, h2⟩ | ⟨h1, h2⟩
    · rw [h2]
      rcases ih (mapGet m x).LS with h | ⟨s, hs, h, hlt⟩
      · right
        exact ⟨x, List.mem_cons_self _ _, h, h1⟩
      · right
        refine ⟨s, List.mem_cons_of_mem _ hs, h, ?_⟩
        obtain ⟨a, b, ha, hb, hab⟩ := F32.keys_of_lt h1
        obtain ⟨c, a', hc, ha', hca⟩ := F32.keys_of_lt hlt
        rw [ha] at ha'
        simp only [Option.some.injEq] at ha'
        rw [F32.lt_of_keys hc hb]
        simp only [decide_eq_true_eq]
        omega
    · rw [h2]
      rcases ih lf with h | ⟨s, hs, h, hlt⟩
      · exact Or.inl h
      · exact Or.inr ⟨s, List.mem_cons_of_mem _ hs, h, hlt⟩

theorem lfOf_nil (m : List (String × Activity)) (pd : F32) : lfOf m [] pd = pd := rfl

theorem lfOf_of_ne_nil (m : List (String × Activity)) (ss : List String) (pd : F32)
    (h : ss ≠ []) : lfOf m ss pd = lfFold m ss F32.infinity := by
  unfold lfOf
  rw [if_neg h]

theorem backwardLoop_cons (id : String) (ids : List String) (m : List (String × Activity))
    (pd : F32) (hid : id ∈ mapKeys m) (hp : ∀ s ∈ succs m id, s ∈ mapKeys m) :
    backwardLoop (id :: ids) m pd = backwardLoop ids (bwdStep pd m id) pd := by
  simp only [backwardLoop, mapIndex_of_mem m id hid]
  have : latestFinish (mapGet m id).successors m pd = (m, lfOf m (succs m id) pd) :=
    latestFinish_eq _ m pd hp
  rw [this]
  rfl

theorem BwdInv.succs_eq {m0 m : List (String × Activity)} {done : List String} {pd : F32}
    (inv : BwdInv m0 pd done m) (k : String) : succs m k = succs m0 k := by
  have := get_proj_of_proj bwdFrame inv.frame k
  exact congrArg (fun x => x.1.2.2.2) this

theorem BwdInv.bwd_step {m0 m : List (String × Activity)} {done rest : List String} {pd : F32}
    {id : String} (hord : DepOrdered (succs m0) (done ++ id :: rest))
    (hid : id ∈ mapKeys m0) (inv : BwdInv m0 pd done m) :
    BwdInv m0 pd (done ++ [id]) (bwdStep pd m id) := by
  obtain ⟨hnd, hpid, hpk⟩ := hord.split
  have hkeys : mapKeys m = mapKeys m0 := mapKeys_eq_of_proj bwdFrame inv.frame
  have hidm : id ∈ mapKeys m := by rw [hkeys]; exact hid
  have hself : mapGet (bwdStep pd m id) id =
      { mapGet m id with LF := lfOf m (succs m id) pd
                         LS := F32.sub (lfOf m (succs m id) pd) (mapGet m id).duration } :=
    mapGet_mapModify_self m id _ hidm
  have hother : ∀ j, j ≠ id → mapGet (bwdStep pd m id) j = mapGet m j :=
    fun j hj => mapGet_mapModify_ne m id j _ hj
  have hlf : ∀ ss : List String, id ∉ ss → lfOf (bwdStep pd m id) ss pd = lfOf m ss pd := by
    intro ss hss
    apply lfOf_congr
    intro s hs
    rw [hother s (fun e => hss (e ▸ hs))]
  have hse := inv.succs_eq id
  refine ⟨?_, ?_, ?_⟩
  · rw [← inv.frame]
    exact mapProj_mapModify bwdFrame m id _ (fun _ => rfl)
  · intro k hk
    rcases List.mem_append.1 hk with hk | hk
    · have hne : k ≠ id := fun e => hnd (e ▸ hk)
      rw [hother k hne, hlf _ (fun h => hnd (hpk k hk id h))]
      exact inv.lf k hk
    · simp only [List.mem_singleton] at hk
      subst hk
      rw [hself, hlf _ (fun h => hnd (hpid k h)), hse]
  · intro k hk
    rcases List.mem_append.1 hk with hk | hk
    · have hne : k ≠ id := fun e => hnd (e ▸ hk)
      rw [hother k hne]
      exact inv.ls k hk
    · simp only [List.mem_singleton] at hk
      subst hk
      rw [hself]

theorem backwardLoop_inv (m0 : List (String × Activity)) (g : GraphOK m0) (pd : F32)
    (l : List String) (hord : DepOrdered (succs m0) l) (hsub : ∀ x ∈ l, x ∈ mapKeys m0) :
    ∀ (rest done : List String) (m : List (String × Activity)),
      l = done ++ rest → BwdInv m0 pd done m → BwdInv m0 pd l (backwardLoop rest m pd) := by
  intro rest
  induction rest with
  | nil =>
    intro done m h inv
    simp only [List.append_nil] at h
    rw [h]
    exact inv
  | cons id rest ih =>
    intro done m h inv
    have hid : id ∈ mapKeys m0 := hsub id (by rw [h]; simp)
    have hkeys : mapKeys m = mapKeys m0 := mapKeys_eq_of_proj bwdFrame inv.frame
    have hp : ∀ s ∈ succs m id, s ∈ mapKeys m := by
      intro s hs
      rw [hkeys]
      rw [inv.succs_eq id] at hs
      exact succs_mem_keys g id s hid hs
    rw [backwardLoop_cons id rest m pd (by rw [hkeys]; exact hid) hp]
    apply ih (done ++ [id])
    · rw [h]; simp
    · exact inv.bwd_step (h ▸ hord) hid

theorem backwardLoop_spec (m0 : List (String × Activity)) (g : GraphOK m0) (pd : F32)
    (l : List String) (hord : DepOrdered (succs m0) l) (hsub : ∀ x ∈ l, x ∈ mapKeys m0) :
    BwdInv m0 pd l (backwardLoop l m0 pd) := by
  apply backwardLoop_inv m0 g pd l hord hsub l [] m0 rfl
  exact ⟨rfl, by simp, by simp⟩

theorem TopoOrder.depOrdered {m : List (String × Activity)} {ord : List String}
    (t : TopoOrder m ord) : DepOrdered (preds m) ord :=
  ⟨t.nodup, t.before⟩

theorem TopoOrder.reverse_depOrdered {m : List (String × Activity)} {ord : List String}
    (g : GraphOK m) (t : TopoOrder m ord) : DepOrdered (succs m) ord.reverse := by
  refine ⟨List.nodup_reverse.2 t.nodup, ?_⟩
  intro pre x post hsplit s hs
  have hord : ord = post.reverse ++ x :: pre.reverse := by
    have := congrArg List.reverse hsplit
    simpa using this
  have hx : x ∈ mapKeys m := t.perm.mem_iff.1 (by rw [hord]; simp)
  obtain ⟨hsk, hxp⟩ := (mem_succs_iff g x s hx).1 hs
  have hso : s ∈ ord := t.perm.mem_iff.2 hsk
  have hn := t.nodup
  rw [hord, List.nodup_append] at hn
  rw [hord] at hso
  rcases List.mem_append.1 hso with h1 | h1
  · exfalso
    obtain ⟨a, b, hab⟩ := List.append_of_mem h1
    have h2 : ord = a ++ s :: (b ++ x :: pre.reverse) := by
      rw [hord, hab]; simp
    have h3 : x ∈ a := t.before a s _ h2 x hxp
    have h4 : x ∈ post.reverse := by rw [hab]; exact List.mem_append_left _ h3
    exact hn.2.2 h4 (List.mem_cons_self _ _)
  · rcases List.mem_cons.1 h1 with h1 | h1
    · exfalso
      rw [h1] at hxp
      have h3 : x ∈ post.reverse := t.before _ x _ hord x hxp
      exact hn.2.2 h3 (List.mem_cons_self _ _)
    · exact List.mem_reverse.1 h1

end PERT

theorem proj_of_proj_comp {γ δ : Type} (π : Activity → γ) (f : γ → δ) (π' : Activity → δ)
    (hf : ∀ a, π' a = f (π a)) {m m' : List (String × Activity)}
    (h : mapProj π m' = mapProj π m) : mapProj π' m' = mapProj π' m := by
  have e : ∀ x : List (String × Activity),
      mapProj π' x = (mapProj π x).map fun kv => (kv.1, f kv.2) := by
    intro x
    simp [mapProj, List.map_map, Function.comp_def, hf]
  rw [e, e, h]

namespace PERT

theorem calculateSlack_eq (s : PERT) :
    calculateSlack s = { s with activities := mapProj slackOf s.activities } := rfl

theorem slackOf_slack (a : Activity) :
    (slackOf a).slack =
      if F32.eq (F32.sub a.LS a.ES) (F32.neg 0) = true then 0 else F32.sub a.LS a.ES := rfl

theorem mapGet_mapProj_slackOf (m : List (String × Activity)) (k : String)
    (hk : k ∈ mapKeys m) : mapGet (mapProj slackOf m) k = slackOf (mapGet m k) := by
  obtain ⟨a, ha⟩ := (mem_mapKeys_iff m k).1 hk
  simp [mapGet, mapFind_mapProj, ha]

theorem TopoOrder.order_of_proj {m m' : List (String × Activity)} {ord : List String}
    (h : mapProj static m' = mapProj static m) (t : TopoOrder m ord) : TopoOrder m' ord := by
  refine ⟨t.nodup, ?_, ?_⟩
  · rw [mapKeys_eq_of_proj static h]; exact t.perm
  · intro pre x post hs p hp
    have : preds m' x = preds m x :=
      congrArg (fun x => x.2.2.1) (get_proj_of_proj static h x)
    rw [this] at hp
    exact t.before pre x post hs p hp

/-- The three passes of `calculate` on a built graph with a complete order. -/
theorem passes_spec (s : PERT) (g : GraphOK s.activities)
    (t : TopoOrder s.activities s.topo_order) :
    mapProj static (calculateSlack (backwardPass (forwardPass s).2).2).activities
      = mapProj static s.activities ∧
    (calculateSlack (backwardPass (forwardPass s).2).2).topo_order = s.topo_order ∧
    (calculateSlack (backwardPass (forwardPass s).2).2).critical_path = s.critical_path ∧
    Scheduled (calculateSlack (backwardPass (forwardPass s).2).2).activities s.topo_order
      (calculateSlack (backwardPass (forwardPass s).2).2).project_duration := by
  have hsub : ∀ x ∈ s.topo_order, x ∈ mapKeys s.activities := fun x hx => t.perm.mem_iff.1 hx
  have fwd := forwardLoop_spec s.activities g s.topo_order t.depOrdered hsub
  generalize hm1 : (forwardLoop s.topo_order s.activities 0).1 = m1 at fwd
  generalize hpd : (forwardLoop s.topo_order s.activities 0).2 = pd at fwd
  have st1 : mapProj static m1 = mapProj static s.activities :=
    proj_of_proj_comp fwdFrame (fun x => x.1) static (fun _ => rfl) fwd.frame
  have g1 : GraphOK m1 := g.graph_of_proj st1
  have t1 : TopoOrder m1 s.topo_order := t.order_of_proj st1
  have k1 : mapKeys m1 = mapKeys s.activities := mapKeys_eq_of_proj static st1
  have hsub1 : ∀ x ∈ s.topo_order.reverse, x ∈ mapKeys m1 := by
    intro x hx
    rw [k1]
    exact hsub x (List.mem_reverse.1 hx)
  have bwd := backwardLoop_spec m1 g1 pd s.topo_order.reverse (t1.reverse_depOrdered g1) hsub1
  generalize hm2 : backwardLoop s.topo_order.reverse m1 pd = m2 at bwd
  have st2 : mapProj static m2 = mapProj static m1 :=
    proj_of_proj_comp bwdFrame (fun x => x.1) static (fun _ => rfl) bwd.frame
  have k2 : mapKeys m2 = mapKeys m1 := mapKeys_eq_of_proj static st2
  have hfin : calculateSlack (backwardPass (forwardPass s).2).2 =
      { s with activities := mapProj slackOf m2, project_duration := pd } := by
    rw [calculateSlack_eq]
    simp only [backwardPass, forwardPass, hm1, hpd, hm2]
  rw [hfin]
  simp only
  have st3 : mapProj static (mapProj slackOf m2) = mapProj static m2 := by
    simp [mapProj, List.map_map, Function.comp_def, static, slackOf]
  have k3 : mapKeys (mapProj slackOf m2) = mapKeys m2 := mapKeys_mapProj _ _
  have hall : ∀ x, x ∈ mapKeys m2 ↔ x ∈ s.topo_order := by
    intro x
    rw [k2, k1]
    exact t.perm.mem_iff.symm
  -- fields of the final map in terms of the maps after each pass
  have e3 : ∀ k ∈ mapKeys m2, mapGet (mapProj slackOf m2) k = slackOf (mapGet m2 k) :=
    fun k hk => mapGet_mapProj_slackOf m2 k hk
  have e2 : ∀ k, bwdFrame (mapGet m2 k) = bwdFrame (mapGet m1 k) :=
    fun k => get_proj_of_proj bwdFrame bwd.frame k
  have e1 : ∀ k, fwdFrame (mapGet m1 k) = fwdFrame (mapGet s.activities k) :=
    fun k => get_proj_of_proj fwdFrame fwd.frame k
  have hEF : ∀ k ∈ mapKeys m2, (mapGet (mapProj slackOf m2) k).EF = (mapGet m1 k).EF := by
    intro k hk
    rw [e3 k hk]
    exact congrArg (fun x => x.2.2.1) (e2 k)
  have hES : ∀ k ∈ mapKeys m2, (mapGet (mapProj slackOf m2) k).ES = (mapGet m1 k).ES := by
    intro k hk
    rw [e3 k hk]
    exact congrArg (fun x => x.2.1) (e2 k)
  have hdur : ∀ k ∈ mapKeys m2,
      (mapGet (mapProj slackOf m2) k).duration = (mapGet m1 k).duration := by
    intro k hk
    rw [e3 k hk]
    exact congrArg (fun x => x.1.2.1) (e2 k)
  have hdur2 : ∀ k, (mapGet m2 k).duration = (mapGet m1 k).duration :=
    fun k => congrArg (fun x => x.1.2.1) (e2 k)
  have hLS : ∀ k ∈ mapKeys m2, (mapGet (mapProj slackOf m2) k).LS = (mapGet m2 k).LS := by
    intro k hk
    rw [e3 k hk]; rfl
  have hLF : ∀ k ∈ mapKeys m2, (mapGet (mapProj slackOf m2) k).LF = (mapGet m2 k).LF := by
    intro k hk
    rw [e3 k hk]; rfl
  have hpreds : ∀ k ∈ mapKeys m2, preds (mapProj slackOf m2) k = preds s.activities k := by
    intro k hk
    unfold preds
    rw [e3 k hk]
    have a1 : (mapGet m2 k).predecessors = (mapGet m1 k).predecessors :=
      congrArg (fun x => x.1.2.2.1) (e2 k)
    have a2 : (mapGet m1 k).predecessors = (mapGet s.activities k).predecessors :=
      congrArg (fun x => x.1.2.2.1) (e1 k)
    exact a1.trans a2
  have hsuccs : ∀ k ∈ mapKeys m2, succs (mapProj slackOf m2) k = succs m1 k := by
    intro k hk
    unfold succs
    rw [e3 k hk]
    exact congrArg (fun x => x.1.2.2.2) (e2 k)
  refine ⟨st3.trans (st2.trans st1), trivial, trivial, ?_⟩
  refine ⟨?_, ?_, ?_, ?_, ?_, ?_⟩
  · intro k hk
    rw [k3] at hk
    rw [hES k hk, hpreds k hk, fwd.es k ((hall k).1 hk)]
    apply esOf_congr
    intro p hp
    have hpk : p ∈ mapKeys m2 := by
      rw [k2, k1]
      exact preds_mem_keys g k p (by rw [← k1, ← k2]; exact hk) hp
    exact (hEF p hpk).symm
  · intro k hk
    rw [k3] at hk
    rw [hES k hk, hEF k hk, hdur k hk]
    exact fwd.ef k ((hall k).1 hk)
  · intro k hk
    rw [k3] at hk
    have hk' : k ∈ s.topo_order.reverse := List.mem_reverse.2 ((hall k).1 hk)
    rw [hLF k hk, hsuccs k hk, bwd.lf k hk']
    apply lfOf_congr
    intro x hx
    have hxk : x ∈ mapKeys m2 := by
      rw [k2]
      exact succs_mem_keys g1 k x (by rw [← k2]; exact hk) hx
    exact (hLS x hxk).symm
  · intro k hk
    rw [k3] at hk
    have hk' : k ∈ s.topo_order.reverse := List.mem_reverse.2 ((hall k).1 hk)
    rw [hLS k hk, hLF k hk, hdur k hk, ← hdur2 k]
    exact bwd.ls k hk'
  · intro k hk
    rw [k3] at hk
    rw [e3 k hk, slackOf_slack]
    rfl
  · rw [fwd.pd]
    apply esOf_congr
    intro p hp
    exact (hEF p ((hall p).2 hp)).symm

end PERT

theorem mapFind_eq_get {β : Type} [Inhabited β] (m : List (String × β)) (k : String)
    (hk : k ∈ mapKeys m) : mapFind m k = some (mapGet m k) := by
  obtain ⟨v, hv⟩ := (mem_mapKeys_iff m k).1 hk
  simp [mapGet, hv]

namespace PERT

theorem TopoOrder.succ_after {m : List (String × Activity)} {ord : List String}
    (g : GraphOK m) (t : TopoOrder m ord) (pre post : List String) (cur r : String)
    (h : ord = pre ++ cur :: post) (hr : r ∈ succs m cur) : r ∈ post := by
  have hrev : ord.reverse = post.reverse ++ cur :: pre.reverse := by
    rw [h]; simp
  have := (t.reverse_depOrdered g).before _ cur _ hrev r hr
  exact List.mem_reverse.1 this

theorem nextCritical_spec (m : List (String × Activity)) (curA : Activity) (ss : List String)
    (h : ∀ s ∈ ss, s ∈ mapKeys m) :
    (nextCritical m curA ss = some "" ∧
      ∀ s ∈ ss, ¬ (F32.eq (mapGet m s).slack 0 = true ∧
        F32.eq curA.EF (mapGet m s).ES = true)) ∨
    (∃ r, nextCritical m curA ss = some r ∧ r ∈ ss ∧
      F32.eq (mapGet m r).slack 0 = true ∧ F32.eq curA.EF (mapGet m r).ES = true) := by
  induction ss with
  | nil => left; exact ⟨rfl, by simp⟩
  | cons s ss ih =>
    have hs : s ∈ mapKeys m := h s (List.mem_cons_self _ _)
    have hf := mapFind_eq_get m s hs
    by_cases hc : F32.eq (mapGet m s).slack 0 = true ∧ F32.eq curA.EF (mapGet m s).ES = true
    · right
      refine ⟨s, ?_, List.mem_cons_self _ _, hc.1, hc.2⟩
      simp only [nextCritical, mapAt, hf]
      rw [if_pos hc]
    · have hstep : nextCritical m curA (s :: ss) = nextCritical m curA ss := by
        simp only [nextCritical, mapAt, hf]
        rw [if_neg hc]
      rw [hstep]
      rcases ih (fun x hx => h x (List.mem_cons_of_mem _ hx)) with ⟨h1, h2⟩ | ⟨r, h1, h2, h3⟩
      · left
        refine ⟨h1, ?_⟩
        intro x hx
        rcases List.mem_cons.1 hx with hx | hx
        · rw [hx]; exact hc
        · exact h2 x hx
      · right
        exact ⟨r, h1, List.mem_cons_of_mem _ h2, h3⟩

theorem lastOf_nil (a : String) : lastOf a [] = a := rfl

theorem lastOf_cons (a b : String) (l : List String) : lastOf a (b :: l) = lastOf b l := by
  simp [lastOf, List.getLast_cons]

theorem walk_spec (m : List (String × Activity)) (ord : List String) (g : GraphOK m)
    (t : TopoOrder m ord) (hne : ∀ k ∈ mapKeys m, k ≠ "") :
    ∀ (fuel : Nat) (cur : String) (path pre post : List String),
      ord = pre ++ cur :: post → post.length < fuel →
      ∃ ext, walk fuel m cur path = some (path ++ ext) ∧
        List.Chain (Tight m) cur ext ∧ (∀ x ∈ ext, x ∈ mapKeys m) ∧
        Stuck m (lastOf cur ext) := by
  intro fuel
  induction fuel with
  | zero => intro cur path pre post _ h; omega
  | succ fuel ih =>
    intro cur path pre post hsplit hfuel
    have hcur : cur ∈ mapKeys m := t.perm.mem_iff.1 (by rw [hsplit]; simp)
    have hf := mapFind_eq_get m cur hcur
    have hss : ∀ s ∈ (mapGet m cur).successors, s ∈ mapKeys m :=
      fun s hs => succs_mem_keys g cur s hcur hs
    rcases nextCritical_spec m (mapGet m cur) (mapGet m cur).successors hss with
      ⟨h1, h2⟩ | ⟨r, h1, h2, h3, h4⟩
    · refine ⟨[], ?_, List.Chain.nil, by simp, ?_⟩
      · simp only [walk, mapAt, hf, h1, if_true, List.append_nil]
      · rw [lastOf_nil]
        exact h2
    · have hrk : r ∈ mapKeys m := hss r h2
      have hrne : r ≠ "" := hne r hrk
      have hrpost : r ∈ post := t.succ_after g pre post cur r hsplit h2
      obtain ⟨a, b, hab⟩ := List.append_of_mem hrpost
      have hsplit2 : ord = (pre ++ cur :: a) ++ r :: b := by
        rw [hsplit, hab]; simp
      have hlen : b.length < fuel := by
        rw [hab] at hfuel
        simp only [List.length_append, List.length_cons] at hfuel
        omega
      obtain ⟨ext, e1, e2, e3, e4⟩ := ih r (path ++ [r]) _ b hsplit2 hlen
      refine ⟨r :: ext, ?_, List.Chain.cons ⟨h2, h3, h4⟩ e2, ?_, ?_⟩
      · simp only [walk, mapAt, hf, h1, hrne, if_false]
        rw [e1]
        simp
      · intro x hx
        rcases List.mem_cons.1 hx with hx | hx
        · rw [hx]; exact hrk
        · exact e3 x hx
      · rw [lastOf_cons]
        exact e4

theorem scanStart_spec (m : List (String × Activity)) (ord : List String) (g : GraphOK m)
    (t : TopoOrder m ord) (hne : ∀ k ∈ mapKeys m, k ≠ "") (fuel : Nat)
    (hfuel : ord.length ≤ fuel) :
    ∀ ids : List String, (∀ x ∈ ids, x ∈ ord) →
      ∃ path, scanStart fuel m ids = some path ∧ CritPath m path ∧
        (path = [] → ∀ x ∈ ids,
          ¬ ((mapGet m x).predecessors = [] ∧ F32.eq (mapGet m x).slack 0 = true)) := by
  intro ids
  induction ids with
  | nil =>
    intro _
    exact ⟨[], rfl, ⟨List.chain'_nil, by simp, by simp⟩, by simp⟩
  | cons id ids ih =>
    intro hsub
    have hio : id ∈ ord := hsub id (List.mem_cons_self _ _)
    have hid : id ∈ mapKeys m := t.perm.mem_iff.1 hio
    have hf := mapFind_eq_get m id hid
    by_cases hc : (mapGet m id).predecessors = [] ∧ F32.eq (mapGet m id).slack 0 = true
    · obtain ⟨pre, post, hsplit⟩ := List.append_of_mem hio
      have hlen : post.length < fuel := by
        have := congrArg List.length hsplit
        simp only [List.length_append, List.length_cons] at this
        omega
      obtain ⟨ext, e1, e2, e3, e4⟩ := walk_spec m ord g t hne fuel id [id] pre post hsplit hlen
      refine ⟨id :: ext, ?_, ⟨e2, ?_, ?_⟩, by simp⟩
      · simp only [scanStart, mapAt, hf]
        rw [if_pos hc, e1]
        rfl
      · intro k hk
        rcases List.mem_cons.1 hk with hk | hk
        · rw [hk]; exact hid
        · exact e3 k hk
      · intro k l hkl
        simp only [List.cons.injEq] at hkl
        rw [← hkl.1, ← hkl.2]
        exact ⟨hc.1, hc.2, e4⟩
    · obtain ⟨path, p1, p2, p3⟩ := ih (fun x hx => hsub x (List.mem_cons_of_mem _ hx))
      refine ⟨path, ?_, p2, ?_⟩
      · simp only [scanStart, mapAt, hf]
        rw [if_neg hc]
        exact p1
      · intro hp x hx
        rcases List.mem_cons.1 hx with hx | hx
        · rw [hx]; exact hc
        · exact p3 hp x hx

theorem RegOK.reg_of_proj {γ : Type} (π : Activity → γ) (f : γ → String × F32)
    (hf : ∀ a, f (π a) = (a.activity_id, a.duration)) {m m' : List (String × Activity)}
    (h : mapProj π m' = mapProj π m) (hm : RegOK m) : RegOK m' := by
  intro k a' hk
  obtain ⟨a, ha, hπ⟩ := find_of_proj π h k a' hk
  have e : (a.activity_id, a.duration) = (a'.activity_id, a'.duration) := by
    rw [← hf a, hπ, hf]
  simp only [Prod.mk.injEq] at e
  obtain ⟨h1, h2, h3⟩ := hm k a ha
  exact ⟨h1, by rw [← e.1]; exact h2, by rw [← e.2]; exact h3⟩

theorem keysSorted_of_proj {γ : Type} (π : Activity → γ) {m m' : List (String × Activity)}
    (h : mapProj π m' = mapProj π m) (hm : KeysSorted m) : KeysSorted m' := by
  unfold KeysSorted
  rw [mapKeys_eq_of_proj π h]
  exact hm

theorem calculate_eq (s : PERT) :
    calculate s =
      if s.activities = [] then some (false, s, emptyMsg)
      else if (buildGraph s "").1 = false then
        some (false, (buildGraph s "").2.2, buildFailMsg (buildGraph s "").2.1)
      else
        match topoSort ((buildGraph s "").2.2.activities.length + 1) (buildGraph s "").2.2
            (buildGraph s "").2.1 with
        | none => none
        | some (false, err2, s2) => some (false, s2, topoFailMsg err2)
        | some (true, _, s2) =>
          (deriveCriticalPath
              ((calculateSlack (backwardPass (forwardPass s2).2).2).activities.length + 1)
              (calculateSlack (backwardPass (forwardPass s2).2).2)).map
            fun s6 => (true, s6, "") := by
  unfold calculate
  by_cases h : s.activities = []
  · simp only [h, if_true]; rfl
  · simp only [h, if_false]
    generalize buildGraph s "" = r
    obtain ⟨b, e, s1⟩ := r
    cases b <;> rfl

theorem calculate_spec (s : PERT) (inv : Inv s) :
    (s.activities = [] ∧ calculate s = some (false, s, emptyMsg)) ∨
    (s.activities ≠ [] ∧ ¬ PredsResolved s.activities ∧
      ∃ s1 k a p, calculate s = some (false, s1, buildFailMsg (missingMsg p k)) ∧
        mapFind s.activities k = some a ∧ p ∈ a.predecessors ∧ p ∉ mapKeys s.activities ∧
        FailFrame s s1 ∧ s1.topo_order = s.topo_order) ∨
    (s.activities ≠ [] ∧ PredsResolved s.activities ∧ ¬ Acyclic s.activities ∧
      ∃ s1, calculate s = some (false, s1, topoFailMsg cycleMsg) ∧
        FailFrame s s1 ∧ s1.topo_order = []) ∨
    (s.activities ≠ [] ∧ PredsResolved s.activities ∧ Acyclic s.activities ∧
      ∃ s', calculate s = some (true, s', "") ∧ Calculated s s') := by
  by_cases hempty : s.activities = []
  · left
    refine ⟨hempty, ?_⟩
    rw [calculate_eq, if_pos hempty]
  right
  obtain ⟨f1, f2, f3, f4⟩ := buildGraph_frame s ""
  by_cases hb : (buildGraph s "").1 = false
  · left
    have hnr : ¬ PredsResolved s.activities := by
      intro h
      have := (buildGraph_true_iff s "" inv.sorted).2 h
      rw [hb] at this
      exact absurd this (by simp)
    obtain ⟨k, a, p, h1, h2, h3, h4⟩ := buildGraph_false s "" inv.sorted hb
    refine ⟨hempty, hnr, (buildGraph s "").2.2, k, a, p, ?_, h1, h2, h3, ⟨f1, f3, f4⟩, f2⟩
    rw [calculate_eq, if_neg hempty, if_pos hb, h4]
  right
  have hbt : (buildGraph s "").1 = true := by
    cases h : (buildGraph s "").1
    · exact absurd h hb
    · rfl
  have hres : PredsResolved s.activities := (buildGraph_true_iff s "" inv.sorted).1 hbt
  obtain ⟨herr, hsucc⟩ := buildGraph_true s "" hbt
  generalize hs1 : (buildGraph s "").2.2 = s1 at f1 f2 f3 f4 hsucc
  have g1 : GraphOK s1.activities :=
    ⟨keysSorted_of_proj noSucc f4 inv.sorted,
     hres.resolved_of_proj noSucc (fun a => a.predecessors) (fun _ => rfl) f4, hsucc⟩
  have hac : Acyclic s.activities ↔ Acyclic s1.activities :=
    ⟨fun h => h.acyclic_of_proj noSucc (fun a => a.predecessors) (fun _ => rfl) f4,
     fun h => h.acyclic_of_proj noSucc (fun a => a.predecessors) (fun _ => rfl) f4.symm⟩
  obtain ⟨d, ord, kinv, hts⟩ := topoSort_spec s1 "" (s1.activities.length + 1) g1
    (Nat.le_succ _)
  have hcalc : calculate s =
      match topoSort (s1.activities.length + 1) s1 "" with
      | none => none
      | some (false, err2, s2) => some (false, s2, topoFailMsg err2)
      | some (true, _, s2) =>
        (deriveCriticalPath
            ((calculateSlack (backwardPass (forwardPass s2).2).2).activities.length + 1)
            (calculateSlack (backwardPass (forwardPass s2).2).2)).map
          fun s6 => (true, s6, "") := by
    rw [calculate_eq, if_neg hempty, if_neg hb, hs1, herr]
  by_cases hlen : ord.length = s1.activities.length
  · right
    have t1 : TopoOrder s1.activities ord := kinv.full hlen
    have hacyc : Acyclic s.activities := hac.2 t1.acyclic
    refine ⟨hempty, hres, hacyc, ?_⟩
    rw [if_neg (by simpa using hlen)] at hts
    rw [hts] at hcalc
    simp only at hcalc
    generalize hs2 : ({ s1 with topo_order := ord } : PERT) = s2 at hcalc
    have hs2a : s2.activities = s1.activities := by rw [← hs2]
    have hs2t : s2.topo_order = ord := by rw [← hs2]
    obtain ⟨p1, p2, p3, p4⟩ := passes_spec s2 (hs2a ▸ g1) (by rw [hs2a, hs2t]; exact t1)
    generalize hs5 : calculateSlack (backwardPass (forwardPass s2).2).2 = s5 at hcalc p1 p2 p3 p4
    rw [hs2a] at p1
    rw [hs2t] at p2
    rw [hs2t, ← p2] at p4
    have g5 : GraphOK s5.activities := g1.graph_of_proj p1
    have t5 : TopoOrder s5.activities s5.topo_order := by
      rw [p2]; exact t1.order_of_proj p1
    have hcore : mapProj core s5.activities = mapProj core s.activities := by
      have c1 : mapProj core s5.activities = mapProj core s1.activities :=
        proj_of_proj_comp static (fun x => (x.1, x.2.1, x.2.2.1)) core (fun _ => rfl) p1
      have c2 : mapProj core s1.activities = mapProj core s.activities :=
        proj_of_proj_comp noSucc core core (fun _ => rfl) f4
      exact c1.trans c2
    have hreg5 : RegOK s5.activities :=
      inv.reg.reg_of_proj core (fun x => (x.1, x.2.1)) (fun _ => rfl) hcore
    have hne5 : ∀ k ∈ mapKeys s5.activities, k ≠ "" := by
      intro k hk
      obtain ⟨a, ha⟩ := (mem_mapKeys_iff _ k).1 hk
      exact (hreg5 k a ha).1
    have hfuel : s5.topo_order.length ≤ s5.activities.length + 1 := by
      have := t5.perm.length_eq
      rw [length_mapKeys] at this
      omega
    obtain ⟨path, q1, q2, q3⟩ := scanStart_spec s5.activities s5.topo_order g5 t5 hne5
      (s5.activities.length + 1) hfuel s5.topo_order (fun x hx => hx)
    refine ⟨{ s5 with critical_path := path }, ?_, ⟨hcore, g5, t5, p4, q2, q3⟩⟩
    rw [hcalc]
    simp only [deriveCriticalPath, q1, Option.map_some']
  · left
    have hnac : ¬ Acyclic s.activities := by
      intro h
      exact hlen (kinv.full_of_acyclic g1 (hac.1 h))
    refine ⟨hempty, hres, hnac, { s1 with topo_order := [] }, ?_, ⟨f1, f3, f4⟩, rfl⟩
    rw [if_pos (by simpa using hlen)] at hts
    rw [hcalc, hts]

theorem addActivity_eq (s : PERT) (id : String) (d : F32) (ps : List String) :
    addActivity s id d ps =
      if id = "" ∨ F32.lt d 0 = true ∨ mapFind s.activities id ≠ none then (false, s)
      else (true, { activities := mapInsert s.activities id
                      { activity_id := id, duration := d, predecessors := ps }
                    project_duration := 0
                    topo_order := []
                    critical_path := [] }) := by
  unfold addActivity
  by_cases h1 : id = "" ∨ F32.lt d 0 = true
  · have : id = "" ∨ F32.lt d 0 = true ∨ mapFind s.activities id ≠ none := by tauto
    rw [if_pos h1, if_pos this]
  · rw [if_neg h1]
    by_cases h2 : mapFind s.activities id = none
    · have h3 : ¬ (id = "" ∨ F32.lt d 0 = true ∨ mapFind s.activities id ≠ none) := by tauto
      have h4 : ¬ mapCount s.activities id ≠ 0 := by
        simp [mapCount, h2]
      rw [if_neg h3, if_neg h4]
    · have h3 : id = "" ∨ F32.lt d 0 = true ∨ mapFind s.activities id ≠ none := by tauto
      have h4 : mapCount s.activities id ≠ 0 := by
        unfold mapCount
        cases h : mapFind s.activities id with
        | none => exact absurd h h2
        | some v => simp
      rw [if_pos h3, if_pos h4]

theorem inv_fresh : Inv {} :=
  ⟨by simp [KeysSorted, mapKeys], by intro k a h; simp [mapFind] at h⟩

theorem Inv.addActivity {s : PERT} (inv : Inv s) (id : String) (d : F32) (ps : List String) :
    Inv (addActivity s id d ps).2 := by
  rw [addActivity_eq]
  by_cases h : id = "" ∨ F32.lt d 0 = true ∨ mapFind s.activities id ≠ none
  · rw [if_pos h]; exact inv
  · rw [if_neg h]
    refine ⟨keysSorted_mapInsert _ _ _ inv.sorted, ?_⟩
    intro k a hk
    simp only [mapFind_mapInsert] at hk
    by_cases hki : k = id
    · rw [if_pos hki] at hk
      simp only [Option.some.injEq] at hk
      subst hki
      rw [← hk]
      refine ⟨fun e => h (Or.inl e), rfl, ?_⟩
      cases hd : F32.lt d 0
      · rfl
      · exact absurd (Or.inr (Or.inl hd)) h
    · rw [if_neg hki] at hk
      exact inv.reg k a hk

theorem Inv.of_noSucc {s s1 : PERT} (inv : Inv s)
    (h : mapProj noSucc s1.activities = mapProj noSucc s.activities) : Inv s1 :=
  ⟨keysSorted_of_proj noSucc h inv.sorted,
   inv.reg.reg_of_proj noSucc (fun a => (a.activity_id, a.duration)) (fun _ => rfl) h⟩

theorem Inv.calculate {s s' : PERT} {b : Bool} {e : String} (inv : Inv s)
    (h : calculate s = some (b, s', e)) : Inv s' := by
  rcases calculate_spec s inv with ⟨_, hc⟩ | ⟨_, _, s1, k, _, p, hc, _, _, _, fr, _⟩ |
    ⟨_, _, _, s1, hc, fr, _⟩ | ⟨_, _, _, s1, hc, cal⟩
  · rw [hc] at h
    simp only [Option.some.injEq, Prod.mk.injEq] at h
    rw [← h.2.1]; exact inv
  · rw [hc] at h
    simp only [Option.some.injEq, Prod.mk.injEq] at h
    rw [← h.2.1]; exact inv.of_noSucc fr.acts
  · rw [hc] at h
    simp only [Option.some.injEq, Prod.mk.injEq] at h
    rw [← h.2.1]; exact inv.of_noSucc fr.acts
  · rw [hc] at h
    simp only [Option.some.injEq, Prod.mk.injEq] at h
    rw [← h.2.1]
    exact ⟨keysSorted_of_proj core cal.core inv.sorted,
      inv.reg.reg_of_proj core (fun x => (x.1, x.2.1)) (fun _ => rfl) cal.core⟩

theorem Reachable.inv {s : PERT} (h : Reachable s) : Inv s := by
  induction h with
  | fresh => exact inv_fresh
  | add s id d ps _ ih => exact ih.addActivity id d ps
  | clear s _ _ => exact inv_fresh
  | calculate s s' b e _ hc ih => exact ih.calculate hc

theorem AddReachable.to_reachable {s : PERT} (h : AddReachable s) : Reachable s := by
  induction h with
  | fresh => exact Reachable.fresh
  | add s id d ps _ ih => exact Reachable.add s id d ps ih

theorem Trace.trace_reachable {s : PERT} {b : Bool} (h : Trace s b) : Reachable s := by
  induction h with
  | fresh => exact Reachable.fresh
  | add_ok s b id d ps _ _ ih => exact Reachable.add s id d ps ih
  | add_rejected s b id d ps _ _ ih => exact Reachable.add s id d ps ih
  | clear s b _ ih => exact Reachable.clear s ih
  | calc_true s s' b e _ hc ih => exact Reachable.calculate s s' true e ih hc
  | calc_false s s' b e _ hc ih => exact Reachable.calculate s s' false e ih hc

/-- A successful `calculate` from a reachable state yields a `Calculated` state. -/
theorem calculated_of_true {s s' : PERT} {e : String} (inv : Inv s)
    (h : calculate s = some (true, s', e)) :
    s.activities ≠ [] ∧ PredsResolved s.activities ∧ Acyclic s.activities ∧ Calculated s s' := by
  rcases calculate_spec s inv with ⟨_, hc⟩ | ⟨_, _, s1, k, _, p, hc, _⟩ |
    ⟨_, _, _, s1, hc, _⟩ | ⟨h1, h2, h3, s1, hc, cal⟩
  · rw [hc] at h; simp at h
  · rw [hc] at h; simp at h
  · rw [hc] at h; simp at h
  · rw [hc] at h
    simp only [Option.some.injEq, Prod.mk.injEq, true_and] at h
    rw [← h.1]
    exact ⟨h1, h2, h3, cal⟩

/-- A failed `calculate` leaves the duration and the critical path as they were. -/
theorem frame_of_false {s s' : PERT} {e : String} (inv : Inv s)
    (h : calculate s = some (false, s', e)) :
    s'.project_duration = s.project_duration ∧ s'.critical_path = s.critical_path := by
  rcases calculate_spec s inv with ⟨_, hc⟩ | ⟨_, _, s1, k, _, p, hc, _, _, _, fr, _⟩ |
    ⟨_, _, _, s1, hc, fr, _⟩ | ⟨_, _, _, s1, hc, _⟩
  · rw [hc] at h
    simp only [Option.some.injEq, Prod.mk.injEq] at h
    rw [← h.2.1]; exact ⟨rfl, rfl⟩
  · rw [hc] at h
    simp only [Option.some.injEq, Prod.mk.injEq] at h
    rw [← h.2.1]; exact ⟨fr.pd, fr.cp⟩
  · rw [hc] at h
    simp only [Option.some.injEq, Prod.mk.injEq] at h
    rw [← h.2.1]; exact ⟨fr.pd, fr.cp⟩
  · rw [hc] at h; simp at h

theorem Calculated.regOK {s s' : PERT} (inv : Inv s) (c : Calculated s s') :
    RegOK s'.activities :=
  RegOK.reg_of_proj PERT.core (fun x => (x.1, x.2.1)) (fun _ => rfl) c.core inv.reg

theorem find_get {s : PERT} {k : String} {a : Activity} (h : find s k = some a) :
    k ∈ mapKeys s.activities ∧ mapGet s.activities k = a :=
  ⟨(mem_mapKeys_iff _ k).2 ⟨a, h⟩, mapGet_of_find _ k a h⟩

/-- A property of the durations given to `addActivity` holds of the durations stored after
a successful `calculate`. -/
theorem Calculated.duration_of {s s' : PERT} (c : Calculated s s') (P : F32 → Prop)
    (h : ∀ kv ∈ s.activities, P kv.2.duration) :
    ∀ k ∈ mapKeys s'.activities, P (mapGet s'.activities k).duration := by
  intro k hk
  have hk0 : k ∈ mapKeys s.activities := by
    rw [← mapKeys_eq_of_proj PERT.core c.core]; exact hk
  have e : (mapGet s'.activities k).duration = (mapGet s.activities k).duration :=
    congrArg (fun x => x.2.1) (get_proj_of_proj PERT.core c.core k)
  rw [e]
  exact h (k, mapGet s.activities k) (mapFind_mem _ k _ (mapFind_eq_get _ k hk0))

theorem Calculated.nonempty {s s' : PERT} (c : Calculated s s') (hne : s.activities ≠ []) :
    s'.activities ≠ [] := by
  intro hnil
  have := length_eq_of_proj PERT.core c.core
  rw [hnil] at this
  exact hne (List.length_eq_zero.1 this.symm)

/-- Induction along the successor relation of a topologically ordered graph. -/
theorem TopoOrder.succ_induction {m : List (String × Activity)} {ord : List String}
    (g : GraphOK m) (t : TopoOrder m ord) (P : String → Prop)
    (step : ∀ k ∈ mapKeys m, (∀ s ∈ succs m k, P s) → P k) : ∀ k ∈ mapKeys m, P k := by
  have key : ∀ (post pre : List String), ord = pre ++ post → ∀ k ∈ post, P k := by
    intro post
    induction post with
    | nil => intro _ _ k hk; simp at hk
    | cons x post ih =>
      intro pre hsplit k hk
      have ih' := ih (pre ++ [x]) (by rw [hsplit]; simp)
      rcases List.mem_cons.1 hk with hk | hk
      · subst hk
        have hkk : k ∈ mapKeys m := t.perm.mem_iff.1 (by rw [hsplit]; simp)
        exact step k hkk (fun s hs => ih' s (t.succ_after g pre post k s hsplit hs))
      · exact ih' k hk
  intro k hk
  exact key ord [] rfl k (t.perm.mem_iff.2 hk)

/-- The running maximum started at `0.0f` is not NaN, not negative and not the negative
zero, whatever the values of the list are. -/
theorem esOf_zero_facts (m : List (String × Activity)) (ps : List String) :
    (∃ b, F32.key (esOf m ps 0) = some b ∧ 0 ≤ b) ∧ esOf m ps 0 ≠ F32.fin true 0 := by
  refine ⟨esOf_key m ps 0 0 F32.key_zero, ?_⟩
  rcases esOf_attained m ps 0 with h | ⟨p, _, h, hlt⟩
  · rw [h]
    intro e
    cases e
  · rw [h]
    intro e
    rw [e] at hlt
    exact absurd hlt (by decide)

theorem Scheduled.es_facts {m : List (String × Activity)} {ord : List String} {pd : F32}
    (sc : Scheduled m ord pd) (k : String) (hk : k ∈ mapKeys m) :
    (∃ b, F32.key (mapGet m k).ES = some b ∧ 0 ≤ b) ∧ (mapGet m k).ES ≠ F32.fin true 0 := by
  rw [sc.es k hk]
  exact esOf_zero_facts m _

theorem Scheduled.pd_facts {m : List (String × Activity)} {ord : List String} {pd : F32}
    (sc : Scheduled m ord pd) :
    (∃ b, F32.key pd = some b ∧ 0 ≤ b) ∧ pd ≠ F32.fin true 0 := by
  rw [sc.pd]
  exact esOf_zero_facts m _

theorem Scheduled.ef_ne_negzero {m : List (String × Activity)} {ord : List String} {pd : F32}
    (sc : Scheduled m ord pd) (k : String) (hk : k ∈ mapKeys m) :
    (mapGet m k).EF ≠ F32.fin true 0 := by
  rw [sc.ef k hk]
  intro e
  exact (sc.es_facts k hk).2 (F32.add_eq_negzero e).1

/-- With a duration that is not NaN, the earliest finish is neither NaN nor negative. -/
theorem Scheduled.ef_key {m : List (String × Activity)} {ord : List String} {pd : F32}
    (sc : Scheduled m ord pd) (hreg : RegOK m) (k : String) (hk : k ∈ mapKeys m)
    (hd : (mapGet m k).duration ≠ F32.nan) :
    ∃ c, F32.key (mapGet m k).EF = some c ∧ 0 ≤ c := by
  obtain ⟨⟨b, hb, hb0⟩, _⟩ := sc.es_facts k hk
  obtain ⟨d, hdk⟩ := F32.key_of_ne_nan hd
  have hlt := (hreg k _ (mapFind_eq_get m k hk)).2.2
  rw [F32.lt_of_keys hdk F32.key_zero] at hlt
  have hd0 : 0 ≤ d := by
    have : ¬ d < 0 := by simpa using hlt
    omega
  rw [sc.ef k hk]
  exact F32.add_key_nonneg hb hb0 hdk hd0

/-- Neither latest time is ever the negative zero. -/
theorem Scheduled.late_ne_negzero {m : List (String × Activity)} {ord : List String}
    {pd : F32} (g : GraphOK m) (t : TopoOrder m ord) (sc : Scheduled m ord pd) :
    ∀ k ∈ mapKeys m,
      (mapGet m k).LF ≠ F32.fin true 0 ∧ (mapGet m k).LS ≠ F32.fin true 0 := by
  apply t.succ_induction g
  intro k hk ih
  have hlf : (mapGet m k).LF ≠ F32.fin true 0 := by
    rw [sc.lf k hk]
    by_cases hs : succs m k = []
    · rw [hs, lfOf_nil]
      exact sc.pd_facts.2
    · rw [lfOf_of_ne_nil m _ pd hs]
      rcases lfFold_attained m (succs m k) F32.infinity with h | ⟨s, hs1, h, _⟩
      · rw [h]
        intro e
        cases e
      · rw [h]
        exact (ih s hs1).2
  refine ⟨hlf, ?_⟩
  rw [sc.ls k hk]
  intro e
  exact hlf (F32.sub_eq_negzero e).1

/-- The stored slack is the binary32 difference `LS - ES`, which is never the negative
zero. -/
theorem Scheduled.slack_eq {m : List (String × Activity)} {ord : List String} {pd : F32}
    (g : GraphOK m) (t : TopoOrder m ord) (sc : Scheduled m ord pd) (k : String)
    (hk : k ∈ mapKeys m) :
    (mapGet m k).slack = F32.sub (mapGet m k).LS (mapGet m k).ES ∧
      (mapGet m k).slack ≠ F32.fin true 0 := by
  have hne : F32.sub (mapGet m k).LS (mapGet m k).ES ≠ F32.fin true 0 := by
    intro e
    exact (sc.late_ne_negzero g t k hk).2 (F32.sub_eq_negzero e).1
  have hsl := sc.slack k hk
  by_cases hz : F32.eq (F32.sub (mapGet m k).LS (mapGet m k).ES) (F32.neg 0) = true
  · rw [if_pos hz] at hsl
    obtain ⟨a, ha, hb⟩ := F32.keys_of_eq hz
    have hb0 : F32.key (F32.neg 0) = some 0 := rfl
    rw [hb0] at hb
    simp only [Option.some.injEq] at hb
    rw [← hb] at ha
    rcases F32.zero_of_key ha with h | h
    · rw [hsl, h]
      exact ⟨rfl, by intro e; cases e⟩
    · exact absurd h hne
  · rw [if_neg hz] at hsl
    rw [hsl]
    exact ⟨rfl, hne⟩

/-- The test `slack == 0.0f` holds exactly when the stored slack is `0.0f`. -/
theorem Scheduled.slack_zero_iff {m : List (String × Activity)} {ord : List String}
    {pd : F32} (g : GraphOK m) (t : TopoOrder m ord) (sc : Scheduled m ord pd) (k : String)
    (hk : k ∈ mapKeys m) : F32.eq (mapGet m k).slack 0 = true ↔ (mapGet m k).slack = 0 := by
  constructor
  · intro h
    obtain ⟨a, ha, hb⟩ := F32.keys_of_eq h
    rw [F32.key_zero] at hb
    simp only [Option.some.injEq] at hb
    rw [← hb] at ha
    rcases F32.zero_of_key ha with h1 | h1
    · exact h1
    · exact absurd h1 (sc.slack_eq g t k hk).2
  · intro h
    rw [h]
    rfl

theorem Scheduled.ef_inRange {m : List (String × Activity)} {ord : List String} {pd : F32}
    (sc : Scheduled m ord pd) (k : String) (hk : k ∈ mapKeys m) :
    F32.InRange (mapGet m k).EF := by
  rw [sc.ef k hk]
  exact F32.inRange_add _ _

theorem Scheduled.es_inRange {m : List (String × Activity)} {ord : List String} {pd : F32}
    (g : GraphOK m) (sc : Scheduled m ord pd) (k : String) (hk : k ∈ mapKeys m) :
    F32.InRange (mapGet m k).ES := by
  rw [sc.es k hk]
  rcases esOf_attained m (preds m k) 0 with h | ⟨p, hp, h, _⟩
  · rw [h]
    exact F32.inRange_zero
  · rw [h]
    exact sc.ef_inRange p (preds_mem_keys g k p hk hp)

/-- Two earliest times that compare equal are the same value. -/
theorem Scheduled.ef_eq_es {m : List (String × Activity)} {ord : List String} {pd : F32}
    (g : GraphOK m) (sc : Scheduled m ord pd) (p n : String) (hp : p ∈ mapKeys m)
    (hn : n ∈ mapKeys m) (h : F32.eq (mapGet m p).EF (mapGet m n).ES = true) :
    (mapGet m p).EF = (mapGet m n).ES :=
  F32.eq_of_eq_true (sc.ef_inRange p hp) (sc.es_inRange g n hn) (sc.ef_ne_negzero p hp)
    (sc.es_facts n hn).2 h

theorem chain_slack {m : List (String × Activity)} :
    ∀ (l : List String) (k : String), List.Chain (Tight m) k l →
      ∀ x ∈ l, F32.eq (mapGet m x).slack 0 = true := by
  intro l
  induction l with
  | nil => intro k _ x hx; simp at hx
  | cons n l ih =>
    intro k h x hx
    rw [List.chain_cons] at h
    rcases List.mem_cons.1 hx with hx | hx
    · rw [hx]; exact h.1.2.1
    · exact ih n h.2 x hx

theorem chain_pair {m : List (String × Activity)} :
    ∀ (l1 : List String) {path l2 : List String} {p n : String},
      List.Chain' (Tight m) path → path = l1 ++ p :: n :: l2 → Tight m p n := by
  intro l1
  induction l1 with
  | nil =>
    intro path l2 p n h hs
    rw [hs] at h
    exact (List.chain'_cons.1 h).1
  | cons x l1 ih =>
    intro path l2 p n h hs
    rw [hs] at h
    exact ih h.tail rfl

end PERT

namespace F32

theorem gridNat_grid (j n : Nat) : gridNat j (grid j n) = n := by
  show n * 2 ^ j / 2 ^ j = n
  exact Nat.mul_div_cancel n (pow_pos (by norm_num) j)

theorem onGrid_grid (j n : Nat) : OnGrid j (grid j n) := by
  unfold OnGrid
  rw [gridNat_grid]

theorem grid_zero (j : Nat) : grid j 0 = 0 := by
  show F32.fin false (0 * 2 ^ j) = F32.fin false 0
  rw [Nat.zero_mul]

theorem onGrid_zero (j : Nat) : OnGrid j 0 ∧ gridNat j 0 = 0 := by
  rw [← grid_zero j]
  exact ⟨onGrid_grid j 0, gridNat_grid j 0⟩

theorem excess_le (fuel : Nat) :
    ∀ (x j : Nat), x / 2 ^ j < 2 ^ 24 → F32.excess fuel x ≤ j := by
  induction fuel with
  | zero => intro x j _; exact Nat.zero_le _
  | succ f ih =>
    intro x j h
    by_cases hx : x < 2 ^ 24
    · have : F32.excess (f + 1) x = 0 := by
        show (if x < 2 ^ 24 then 0 else F32.excess f (x / 2) + 1) = 0
        rw [if_pos hx]
      rw [this]
      exact Nat.zero_le _
    · have he : F32.excess (f + 1) x = F32.excess f (x / 2) + 1 := by
        show (if x < 2 ^ 24 then 0 else F32.excess f (x / 2) + 1) = _
        rw [if_neg hx]
      rw [he]
      cases j with
      | zero =>
        rw [pow_zero, Nat.div_one] at h
        exact absurd h hx
      | succ i =>
        have : x / 2 / 2 ^ i < 2 ^ 24 := by
          rw [Nat.div_div_eq_div_mul, ← pow_succ']
          exact h
        exact Nat.succ_le_succ (ih (x / 2) i this)

/-- A magnitude with at most 24 significant bits is not changed by rounding. -/
theorem roundMag_exact (n j : Nat) (hn : n ≤ 2 ^ 24) :
    F32.roundMag (n * 2 ^ j) = n * 2 ^ j := by
  have hdvd : 2 ^ F32.excess (n * 2 ^ j) (n * 2 ^ j) ∣ n * 2 ^ j := by
    rcases Nat.lt_or_ge n (2 ^ 24) with hlt | hge
    · have h1 : n * 2 ^ j / 2 ^ j < 2 ^ 24 := by
        rw [Nat.mul_div_cancel n (pow_pos (by norm_num) j)]
        exact hlt
      have h2 := excess_le (n * 2 ^ j) (n * 2 ^ j) j h1
      exact Dvd.dvd.mul_left (pow_dvd_pow 2 h2) n
    · have hn' : n = 2 ^ 24 := le_antisymm hn hge
      have hx : n * 2 ^ j = 2 ^ 23 * 2 ^ (j + 1) := by
        rw [hn', pow_succ]
        ring
      have h1 : n * 2 ^ j / 2 ^ (j + 1) < 2 ^ 24 := by
        rw [hx, Nat.mul_div_cancel _ (pow_pos (by norm_num) (j + 1))]
        norm_num
      have h2 := excess_le (n * 2 ^ j) (n * 2 ^ j) (j + 1) h1
      rw [hx] at h2 ⊢
      exact Dvd.dvd.mul_left (pow_dvd_pow 2 h2) _
  have hpos : 0 < 2 ^ F32.excess (n * 2 ^ j) (n * 2 ^ j) := pow_pos (by norm_num) _
  have hmod : n * 2 ^ j % 2 ^ F32.excess (n * 2 ^ j) (n * 2 ^ j) = 0 :=
    Nat.mod_eq_zero_of_dvd hdvd
  unfold F32.roundMag
  simp only
  rw [hmod, if_neg]
  · exact Nat.div_mul_cancel hdvd
  · rintro (h | ⟨h, _⟩)
    · simp at h
    · rw [Nat.mul_zero] at h
      omega

theorem grid_lt_huge (n j : Nat) (hn : n ≤ 2 ^ 24) (hj : j ≤ 252) : n * 2 ^ j < F32.huge := by
  have h0 : n < 2 ^ 25 := lt_of_le_of_lt hn (by norm_num)
  have h1 : n * 2 ^ j < 2 ^ 25 * 2 ^ 252 :=
    Nat.mul_lt_mul_of_lt_of_le h0 (Nat.pow_le_pow_right (by norm_num) hj)
      (pow_pos (by norm_num) _)
  have h2 : (2 : Nat) ^ 25 * 2 ^ 252 = F32.huge :=
    ((pow_add 2 25 252).symm.trans
      (congrArg (fun e => 2 ^ e) (by decide : 25 + 252 = 128 + 149))).trans (pow_add 2 128 149)
  rw [← h2]
  exact h1

theorem round_exact (s : Bool) (n j : Nat) (hn : n ≤ 2 ^ 24) (hj : j ≤ 252) :
    F32.round s (n * 2 ^ j) = F32.fin s (n * 2 ^ j) := by
  unfold F32.round
  rw [roundMag_exact n j hn, if_neg (Nat.not_le.2 (grid_lt_huge n j hn hj))]

theorem isFinite_grid (n j : Nat) (hn : n ≤ 2 ^ 24) (hj : j ≤ 252) :
    F32.isFinite (grid j n) = true := by
  show decide (n * 2 ^ j < F32.huge) = true
  rw [decide_eq_true_eq]
  exact grid_lt_huge n j hn hj

theorem key_grid (j n : Nat) : F32.key (grid j n) = some ((n * 2 ^ j : Nat) : Int) := rfl

theorem toRat_grid (j n : Nat) : F32.toRat (grid j n) = (n : ℚ) * 2 ^ j / 2 ^ 149 := by
  show ((F32.signed false (n * 2 ^ j) : Int) : ℚ) / 2 ^ 149 = _
  simp [F32.signed]

/-- Addition of grid values whose sum has at most 24 significant bits is exact. -/
theorem add_grid (j a b : Nat) (h : a + b ≤ 2 ^ 24) (hj : j ≤ 252) :
    F32.add (grid j a) (grid j b) = grid j (a + b) := by
  show (if F32.signed false (a * 2 ^ j) + F32.signed false (b * 2 ^ j) = 0
      then F32.fin (false && false) 0
      else F32.round (decide (F32.signed false (a * 2 ^ j) + F32.signed false (b * 2 ^ j) < 0))
        (F32.signed false (a * 2 ^ j) + F32.signed false (b * 2 ^ j)).natAbs) = _
  have hs : F32.signed false (a * 2 ^ j) + F32.signed false (b * 2 ^ j)
      = (((a + b) * 2 ^ j : Nat) : Int) := by
    simp only [F32.signed, Bool.false_eq_true, if_false]
    push_cast
    ring
  rw [hs]
  by_cases h0 : (((a + b) * 2 ^ j : Nat) : Int) = 0
  · rw [if_pos h0]
    have : (a + b) * 2 ^ j = 0 := by exact_mod_cast h0
    show F32.fin false 0 = F32.fin false ((a + b) * 2 ^ j)
    rw [this]
  · rw [if_neg h0]
    have hneg : decide ((((a + b) * 2 ^ j : Nat) : Int) < 0) = false := by
      rw [decide_eq_false_iff_not]
      exact not_lt.2 (Int.natCast_nonneg _)
    rw [hneg, Int.natAbs_ofNat]
    exact round_exact false (a + b) j h hj

/-- Subtraction of a smaller grid value from a grid value with at most 24 significant bits
is exact. -/
theorem sub_grid (j a b : Nat) (hba : b ≤ a) (h : a ≤ 2 ^ 24) (hj : j ≤ 252) :
    F32.sub (grid j a) (grid j b) = grid j (a - b) := by
  show (if F32.signed false (a * 2 ^ j) + F32.signed true (b * 2 ^ j) = 0
      then F32.fin (false && true) 0
      else F32.round (decide (F32.signed false (a * 2 ^ j) + F32.signed true (b * 2 ^ j) < 0))
        (F32.signed false (a * 2 ^ j) + F32.signed true (b * 2 ^ j)).natAbs) = _
  have hs : F32.signed false (a * 2 ^ j) + F32.signed true (b * 2 ^ j)
      = (((a - b) * 2 ^ j : Nat) : Int) := by
    simp only [F32.signed, Bool.false_eq_true, if_false, if_true]
    rw [Nat.sub_mul]
    have : b * 2 ^ j ≤ a * 2 ^ j := Nat.mul_le_mul_right _ hba
    omega
  rw [hs]
  by_cases h0 : (((a - b) * 2 ^ j : Nat) : Int) = 0
  · rw [if_pos h0]
    have : (a - b) * 2 ^ j = 0 := by exact_mod_cast h0
    show F32.fin false 0 = F32.fin false ((a - b) * 2 ^ j)
    rw [this]
  · rw [if_neg h0]
    have hneg : decide ((((a - b) * 2 ^ j : Nat) : Int) < 0) = false := by
      rw [decide_eq_false_iff_not]
      exact not_lt.2 (Int.natCast_nonneg _)
    rw [hneg, Int.natAbs_ofNat]
    exact round_exact false (a - b) j (le_trans (Nat.sub_le a b) h) hj

/-- Grid values are ordered as their multiples are. -/
theorem grid_le_of_key {j a b : Nat} {x y : Int} (hx : F32.key (grid j a) = some x)
    (hy : F32.key (grid j b) = some y) (h : x ≤ y) : a ≤ b := by
  rw [key_grid] at hx hy
  simp only [Option.some.injEq] at hx hy
  rw [← hx, ← hy] at h
  have : a * 2 ^ j ≤ b * 2 ^ j := by exact_mod_cast h
  exact Nat.le_of_mul_le_mul_right this (pow_pos (by norm_num) j)

theorem OnGrid.exists_grid {j : Nat} {x : F32} (h : OnGrid j x) :
    ∃ a, x = grid j a ∧ gridNat j x = a := ⟨gridNat j x, h, rfl⟩

end F32

namespace PERT

/-- The forward pass on durations that are whole multiples of `2^j` units with a total of
at most `2^24` multiples: `ES` and `EF` are such multiples, `EF` is the exact sum, and `ES`
is bounded by the total duration of the activities earlier in the order. -/
theorem Scheduled.forward_grid {m : List (String × Activity)} {ord : List String} {pd : F32}
    (t : TopoOrder m ord) (sc : Scheduled m ord pd) (j : Nat) (hj : j ≤ 252)
    (hd : ∀ k ∈ mapKeys m, F32.OnGrid j (mapGet m k).duration)
    (hsum : (ord.map fun k => F32.gridNat j (mapGet m k).duration).sum ≤ 2 ^ 24) :
    ∀ (n : Nat) (pre : List String) (x : String) (post : List String),
      pre.length < n → ord = pre ++ x :: post →
      F32.OnGrid j (mapGet m x).ES ∧ F32.OnGrid j (mapGet m x).EF ∧
      F32.gridNat j (mapGet m x).ES
        ≤ (pre.map fun k => F32.gridNat j (mapGet m k).duration).sum ∧
      F32.gridNat j (mapGet m x).EF
        = F32.gridNat j (mapGet m x).ES + F32.gridNat j (mapGet m x).duration := by
  intro n
  induction n with
  | zero => intro pre x post h _; omega
  | succ n ih =>
    intro pre x post hlen hsplit
    have hx : x ∈ mapKeys m := t.perm.mem_iff.1 (by rw [hsplit]; simp)
    have hES : F32.OnGrid j (mapGet m x).ES ∧ F32.gridNat j (mapGet m x).ES
        ≤ (pre.map fun k => F32.gridNat j (mapGet m k).duration).sum := by
      rw [sc.es x hx]
      rcases esOf_attained m (preds m x) 0 with h0 | ⟨p, hp, hpe, _⟩
      · rw [h0]
        exact ⟨(F32.onGrid_zero j).1, by rw [(F32.onGrid_zero j).2]; exact Nat.zero_le _⟩
      · rw [hpe]
        have hpp := t.before pre x post hsplit p hp
        obtain ⟨a1, b1, hab⟩ := List.append_of_mem hpp
        have hsplit2 : ord = a1 ++ p :: (b1 ++ x :: post) := by
          rw [hsplit, hab]; simp
        have hlen2 : a1.length < n := by
          rw [hab] at hlen
          simp only [List.length_append, List.length_cons] at hlen
          omega
        obtain ⟨_, i2, i3, i4⟩ := ih a1 p _ hlen2 hsplit2
        refine ⟨i2, ?_⟩
        rw [i4, hab]
        simp only [List.map_append, List.map_cons, List.sum_append, List.sum_cons]
        omega
    obtain ⟨a, ha, hna⟩ := hES.1.exists_grid
    obtain ⟨b, hb, hnb⟩ := (hd x hx).exists_grid
    have hab : a + b ≤ 2 ^ 24 := by
      have h1 := hES.2
      rw [hna] at h1
      rw [hsplit] at hsum
      simp only [List.map_append, List.map_cons, List.sum_append, List.sum_cons] at hsum
      rw [hnb] at hsum
      omega
    have hEF : (mapGet m x).EF = F32.grid j (a + b) := by
      rw [sc.ef x hx, ha, hb]
      exact F32.add_grid j a b hab hj
    refine ⟨hES.1, ?_, hES.2, ?_⟩
    · rw [hEF]
      exact F32.onGrid_grid j _
    · rw [hEF, F32.gridNat_grid, hna, hnb]

/-- Summary of the forward pass on grid durations. -/
theorem Scheduled.forward_grid_all {m : List (String × Activity)} {ord : List String}
    {pd : F32} (t : TopoOrder m ord) (sc : Scheduled m ord pd) (j : Nat)
    (hj : j ≤ 252) (hd : ∀ k ∈ mapKeys m, F32.OnGrid j (mapGet m k).duration)
    (hsum : (ord.map fun k => F32.gridNat j (mapGet m k).duration).sum ≤ 2 ^ 24) :
    ∀ x ∈ mapKeys m,
      F32.OnGrid j (mapGet m x).ES ∧ F32.OnGrid j (mapGet m x).EF ∧
      F32.gridNat j (mapGet m x).EF
        = F32.gridNat j (mapGet m x).ES + F32.gridNat j (mapGet m x).duration ∧
      F32.gridNat j (mapGet m x).EF ≤ 2 ^ 24 := by
  intro x hx
  obtain ⟨pre, post, hsplit⟩ := List.append_of_mem (t.perm.mem_iff.2 hx)
  obtain ⟨h1, h2, h3, h4⟩ := sc.forward_grid t j hj hd hsum (pre.length + 1) pre x post
    (Nat.lt_succ_self _) hsplit
  refine ⟨h1, h2, h4, ?_⟩
  rw [h4]
  rw [hsplit] at hsum
  simp only [List.map_append, List.map_cons, List.sum_append, List.sum_cons] at hsum
  omega

/-- On grid durations the project duration is a grid value that bounds every `EF`. -/
theorem Scheduled.pd_grid {m : List (String × Activity)} {ord : List String}
    {pd : F32} (t : TopoOrder m ord) (sc : Scheduled m ord pd) (j : Nat)
    (hj : j ≤ 252) (hd : ∀ k ∈ mapKeys m, F32.OnGrid j (mapGet m k).duration)
    (hsum : (ord.map fun k => F32.gridNat j (mapGet m k).duration).sum ≤ 2 ^ 24) :
    F32.OnGrid j pd ∧ F32.gridNat j pd ≤ 2 ^ 24 ∧
      ∀ x ∈ mapKeys m, F32.gridNat j (mapGet m x).EF ≤ F32.gridNat j pd := by
  have fw := sc.forward_grid_all t j hj hd hsum
  have h1 : F32.OnGrid j pd ∧ F32.gridNat j pd ≤ 2 ^ 24 := by
    rw [sc.pd]
    rcases esOf_attained m ord 0 with h0 | ⟨p, hp, hpe, _⟩
    · rw [h0]
      exact ⟨(F32.onGrid_zero j).1, by rw [(F32.onGrid_zero j).2]; exact Nat.zero_le _⟩
    · rw [hpe]
      obtain ⟨_, f2, _, f4⟩ := fw p (t.perm.mem_iff.1 hp)
      exact ⟨f2, f4⟩
  refine ⟨h1.1, h1.2, ?_⟩
  intro x hx
  obtain ⟨_, f2, _, _⟩ := fw x hx
  obtain ⟨a, ha, hna⟩ := f2.exists_grid
  obtain ⟨P, hP, hnP⟩ := h1.1.exists_grid
  obtain ⟨b, hb, hcb⟩ := esOf_ge_mem m ord 0 0 F32.key_zero x (t.perm.mem_iff.2 hx)
    _ (by rw [ha]; exact F32.key_grid j a)
  rw [← sc.pd, hP] at hb
  rw [hna, hnP]
  exact F32.grid_le_of_key (F32.key_grid j a) hb hcb

/-- The backward pass on grid durations: `LF` and `LS` are grid values, `LS` is the exact
difference, and `EF <= LF <= project duration`. -/
theorem Scheduled.backward_grid {m : List (String × Activity)} {ord : List String}
    {pd : F32} (g : GraphOK m) (t : TopoOrder m ord) (sc : Scheduled m ord pd) (j : Nat)
    (hj : j ≤ 252) (hd : ∀ k ∈ mapKeys m, F32.OnGrid j (mapGet m k).duration)
    (hsum : (ord.map fun k => F32.gridNat j (mapGet m k).duration).sum ≤ 2 ^ 24) :
    ∀ k ∈ mapKeys m,
      F32.OnGrid j (mapGet m k).LF ∧ F32.OnGrid j (mapGet m k).LS ∧
      F32.gridNat j (mapGet m k).LF ≤ F32.gridNat j pd ∧
      F32.gridNat j (mapGet m k).EF ≤ F32.gridNat j (mapGet m k).LF ∧
      F32.gridNat j (mapGet m k).LS + F32.gridNat j (mapGet m k).duration
        = F32.gridNat j (mapGet m k).LF := by
  have fw := sc.forward_grid_all t j hj hd hsum
  obtain ⟨hpd1, hpd2, hpd3⟩ := sc.pd_grid t j hj hd hsum
  apply t.succ_induction g
  intro k hk ih
  obtain ⟨_, _, fk3, _⟩ := fw k hk
  have hLF : F32.OnGrid j (mapGet m k).LF ∧
      F32.gridNat j (mapGet m k).LF ≤ F32.gridNat j pd ∧
      F32.gridNat j (mapGet m k).EF ≤ F32.gridNat j (mapGet m k).LF := by
    rw [sc.lf k hk]
    by_cases hs : succs m k = []
    · rw [hs, lfOf_nil]
      exact ⟨hpd1, le_refl _, hpd3 k hk⟩
    · rw [lfOf_of_ne_nil m _ pd hs]
      have hfin : ∀ s ∈ succs m k, ∃ l, (mapGet m s).LS = F32.grid j l ∧
          F32.gridNat j (mapGet m s).LS = l ∧ l ≤ F32.gridNat j pd ∧
          F32.gridNat j (mapGet m k).EF ≤ l := by
        intro s hs1
        have hsk : s ∈ mapKeys m := succs_mem_keys g k s hk hs1
        obtain ⟨_, i2, i3, i4, i5⟩ := ih s hs1
        obtain ⟨l, hl, hnl⟩ := i2.exists_grid
        obtain ⟨fs1, _, fs3, _⟩ := fw s hsk
        obtain ⟨_, fk2, _, _⟩ := fw k hk
        obtain ⟨a, ha, hna⟩ := fs1.exists_grid
        obtain ⟨c, hc, hnc⟩ := fk2.exists_grid
        have hkp : k ∈ preds m s := ((mem_succs_iff g k s hk).1 hs1).2
        obtain ⟨b, hb, hcb⟩ := esOf_ge_mem m (preds m s) 0 0 F32.key_zero k hkp
          _ (by rw [hc]; exact F32.key_grid j c)
        rw [← sc.es s hsk, ha] at hb
        have hca : c ≤ a := F32.grid_le_of_key (F32.key_grid j c) hb hcb
        refine ⟨l, hl, hnl, ?_, ?_⟩
        · omega
        · rw [hnc]
          omega
      have hne : lfFold m (succs m k) F32.infinity ≠ F32.infinity := by
        obtain ⟨s0, rest, hs0⟩ := List.exists_cons_of_ne_nil hs
        have hs1 : s0 ∈ succs m k := by rw [hs0]; exact List.mem_cons_self _ _
        obtain ⟨l, hl, _, hl2, _⟩ := hfin s0 hs1
        obtain ⟨b, hb, hbl⟩ := lfFold_le_mem m (succs m k) F32.infinity (F32.huge : Int) rfl
          s0 hs1 _ (by rw [hl]; exact F32.key_grid j l)
        intro e
        rw [e] at hb
        have hb' : F32.key F32.infinity = some (F32.huge : Int) := rfl
        rw [hb'] at hb
        simp only [Option.some.injEq] at hb
        have := F32.grid_lt_huge l j (le_trans hl2 hpd2) hj
        omega
      rcases lfFold_attained m (succs m k) F32.infinity with h0 | ⟨s, hs1, hse, _⟩
      · exact absurd h0 hne
      · rw [hse]
        obtain ⟨l, hl, hnl, hl2, hl3⟩ := hfin s hs1
        refine ⟨?_, ?_, ?_⟩
        · rw [hl]; exact F32.onGrid_grid j l
        · rw [hnl]; exact hl2
        · rw [hnl]; exact hl3
  obtain ⟨l, hl, hnl⟩ := hLF.1.exists_grid
  obtain ⟨b, hb, hnb⟩ := (hd k hk).exists_grid
  have hbl : b ≤ l := by
    have := hLF.2.2
    rw [hnl, fk3, hnb] at this
    omega
  have hl24 : l ≤ 2 ^ 24 := by
    have := hLF.2.1
    rw [hnl] at this
    omega
  have hLS : (mapGet m k).LS = F32.grid j (l - b) := by
    rw [sc.ls k hk, hl, hb]
    exact F32.sub_grid j l b hbl hl24 hj
  refine ⟨hLF.1, ?_, hLF.2.1, hLF.2.2, ?_⟩
  · rw [hLS]
    exact F32.onGrid_grid j _
  · rw [hLS, F32.gridNat_grid, hnb, hnl]
    omega

/-- Durations that are whole multiples of one power of two, `2^j` units with `j <= 252`,
and whose total is at most `2^24` multiples are scheduled without any rounding. -/
theorem Scheduled.exact_of_grid {m : List (String × Activity)} {ord : List String}
    {pd : F32} (g : GraphOK m) (t : TopoOrder m ord) (sc : Scheduled m ord pd) (j : Nat)
    (hj : j ≤ 252) (hd : ∀ k ∈ mapKeys m, F32.OnGrid j (mapGet m k).duration)
    (hsum : (ord.map fun k => F32.gridNat j (mapGet m k).duration).sum ≤ 2 ^ 24) :
    Exact m := by
  have fw := sc.forward_grid_all t j hj hd hsum
  have bw := sc.backward_grid g t j hj hd hsum
  obtain ⟨_, hpd2, _⟩ := sc.pd_grid t j hj hd hsum
  have key : ∀ k ∈ mapKeys m, ExactAct (mapGet m k) := by
    intro k hk
    obtain ⟨f1, f2, f3, f4⟩ := fw k hk
    obtain ⟨b1, b2, b3, b4, b5⟩ := bw k hk
    obtain ⟨d, hd1, hd2⟩ := (hd k hk).exists_grid
    obtain ⟨a, ha1, ha2⟩ := f1.exists_grid
    obtain ⟨c, hc1, hc2⟩ := f2.exists_grid
    obtain ⟨l, hl1, hl2⟩ := b1.exists_grid
    obtain ⟨r, hr1, hr2⟩ := b2.exists_grid
    rw [hc2, ha2, hd2] at f3
    rw [hc2] at f4
    rw [hl2] at b3
    rw [hc2, hl2] at b4
    rw [hr2, hd2, hl2] at b5
    have hra : a ≤ r := by omega
    have hsl : (mapGet m k).slack = F32.grid j (r - a) := by
      rw [(sc.slack_eq g t k hk).1, hr1, ha1]
      exact F32.sub_grid j r a hra (by omega) hj
    unfold ExactAct
    rw [hsl, hd1, ha1, hc1, hl1, hr1]
    refine ⟨F32.isFinite_grid d j (by omega) hj, F32.isFinite_grid a j (by omega) hj,
      F32.isFinite_grid c j f4 hj, F32.isFinite_grid r j (by omega) hj,
      F32.isFinite_grid l j (by omega) hj, F32.isFinite_grid (r - a) j (by omega) hj,
      ?_, ?_, ?_⟩
    · rw [F32.toRat_grid, F32.toRat_grid, F32.toRat_grid, f3]
      push_cast
      ring
    · rw [F32.toRat_grid, F32.toRat_grid, F32.toRat_grid, ← b5]
      push_cast
      ring
    · rw [F32.toRat_grid, F32.toRat_grid, F32.toRat_grid, Nat.cast_sub hra]
      ring
  intro kv hkv
  have hf : mapFind m kv.1 = some kv.2 := mapFind_of_mem m kv.1 kv.2 g.sorted.nodup hkv
  have hk : kv.1 ∈ mapKeys m := (mem_mapKeys_iff m kv.1).2 ⟨kv.2, hf⟩
  rw [← mapGet_of_find m kv.1 kv.2 hf]
  exact key kv.1 hk

/-- Input condition for exact scheduling: when every duration given to `addActivity` is a
whole multiple of `2^j` units (`2^(j-149)`, with `j <= 252`) and the durations total at most
`2^24` multiples, a successful `calculate` rounds nothing. For `j = 149` these are whole
numbers with a total of at most 16777216. -/
theorem exact_of_grid_durations (s s' : PERT) (e : String) (hr : Reachable s)
    (hc : calculate s = some (true, s', e)) (j : Nat) (hj : j ≤ 252)
    (hd : ∀ kv ∈ s.activities, F32.OnGrid j kv.2.duration)
    (hsum : (s.activities.map fun kv => F32.gridNat j kv.2.duration).sum ≤ 2 ^ 24) :
    Exact s'.activities := by
  obtain ⟨_, _, _, cal⟩ := calculated_of_true hr.inv hc
  have hdur := cal.duration_of (fun d => F32.OnGrid j d) hd
  apply cal.sched.exact_of_grid cal.graph cal.order j hj hdur
  have e1 : (s'.topo_order.map fun k => F32.gridNat j (mapGet s'.activities k).duration).sum
      = ((mapKeys s'.activities).map
          fun k => F32.gridNat j (mapGet s'.activities k).duration).sum :=
    (cal.order.perm.map _).sum_eq
  have e2 : (mapKeys s'.activities).map
        (fun k => F32.gridNat j (mapGet s'.activities k).duration)
      = s'.activities.map fun kv => F32.gridNat j kv.2.duration := by
    unfold mapKeys
    rw [List.map_map]
    apply List.map_congr_left
    intro kv hkv
    have hf := mapFind_of_mem s'.activities kv.1 kv.2 cal.graph.sorted.nodup hkv
    simp only [Function.comp_apply]
    rw [mapGet_of_find _ _ _ hf]
  have e3 : (s'.activities.map fun kv => F32.gridNat j kv.2.duration)
      = s.activities.map fun kv => F32.gridNat j kv.2.duration := by
    have := congrArg (List.map fun kv : String × (String × F32 × List String) =>
      F32.gridNat j kv.2.2.1) cal.core
    simpa [mapProj, PERT.core, List.map_map, Function.comp_def] using this
  rw [e1, e2, e3]
  exact hsum

end PERT

/-! ## Properties of the scheduling engine -/

namespace PERT

theorem exampleABC_addReachable : AddReachable exampleABC :=
  AddReachable.add _ "C" 3 ["A"]
    (AddReachable.add _ "B" 4 ["A"] (AddReachable.add _ "A" 2 [] AddReachable.fresh))

theorem exampleABC_reachable : Reachable exampleABC :=
  exampleABC_addReachable.to_reachable

theorem exampleABC_calculate : calculate exampleABC = some (true, scheduledABC, "") := by
  decide!

/-- C1: for every registry state reachable by `addActivity` calls, `calculate` returns, and
it returns `true` exactly when the activity set is non-empty, every listed predecessor is
registered, and the predecessor relation has no cycle. -/
theorem calculate_true_iff (s : PERT) (h : AddReachable s) :
    ∃ b s' e, calculate s = some (b, s', e) ∧
      (b = true ↔
        s.activities ≠ [] ∧ PredsResolved s.activities ∧ Acyclic s.activities) := by
  rcases calculate_spec s h.to_reachable.inv with ⟨h1, hc⟩ | ⟨_, h2, s1, k, _, p, hc, _⟩ |
    ⟨_, _, h3, s1, hc, _⟩ | ⟨h1, h2, h3, s1, hc, _⟩
  · exact ⟨false, s, emptyMsg, hc, by simp [h1]⟩
  · exact ⟨false, s1, _, hc, by simp [h2]⟩
  · exact ⟨false, s1, _, hc, by simp [h3]⟩
  · exact ⟨true, s1, "", hc, by simp [h1, h2, h3]⟩

theorem calculate_true_iff_witness :
    AddReachable exampleABC ∧
    ∃ b s' e, calculate exampleABC = some (b, s', e) ∧
      (b = true ↔ exampleABC.activities ≠ [] ∧ PredsResolved exampleABC.activities ∧
        Acyclic exampleABC.activities) :=
  ⟨exampleABC_addReachable, calculate_true_iff exampleABC exampleABC_addReachable⟩

/-- C2: `addActivity` with an empty id, a negative duration (`duration < 0.0f`) or an id
that is already registered returns `false` and leaves the whole state unchanged; every other
call returns `true`. -/
theorem addActivity_rejects (s : PERT) (id : String) (d : F32) (ps : List String) :
    (id = "" ∨ F32.lt d 0 = true ∨ find s id ≠ none → addActivity s id d ps = (false, s)) ∧
    (¬ (id = "" ∨ F32.lt d 0 = true ∨ find s id ≠ none) → (addActivity s id d ps).1 = true) := by
  rw [addActivity_eq]
  unfold find
  constructor
  · intro h
    rw [if_pos h]
  · intro h
    rw [if_neg h]

theorem addActivity_rejects_witness :
    addActivity exampleABC "B" 1 [] = (false, exampleABC) ∧
    (addActivity exampleABC "D" 1 []).1 = true :=
  ⟨(addActivity_rejects exampleABC "B" 1 []).1 (Or.inr (Or.inr (by decide!))),
   (addActivity_rejects exampleABC "D" 1 []).2 (by decide!)⟩

/-- C3: an accepted `addActivity(id, duration, predecessors)` (non-empty id, a duration that
is not below zero, id not registered) stores under `id` an activity with that id, duration
and predecessor list, no successors and all times zero; leaves `find` of every other
identifier as it was; and resets the topological order, the critical path and the project
duration. The hypothesis on the duration is the negation of the guard `duration < 0.0f`: it
holds for every `duration >= 0`. -/
theorem addActivity_accepts (s : PERT) (id : String) (d : F32) (ps : List String)
    (h1 : id ≠ "") (h2 : F32.lt d 0 = false) (h3 : find s id = none) :
    find (addActivity s id d ps).2 id =
      some { activity_id := id, duration := d, predecessors := ps, successors := [],
             ES := 0, EF := 0, LS := 0, LF := 0, slack := 0 } ∧
    (∀ j, j ≠ id → find (addActivity s id d ps).2 j = find s j) ∧
    (addActivity s id d ps).2.topo_order = [] ∧
    (addActivity s id d ps).2.critical_path = [] ∧
    (addActivity s id d ps).2.project_duration = 0 := by
  have hn : ¬ (id = "" ∨ F32.lt d 0 = true ∨ mapFind s.activities id ≠ none) := by
    unfold find at h3
    rintro (h | h | h)
    · exact h1 h
    · rw [h2] at h; cases h
    · exact h h3
  rw [addActivity_eq, if_neg hn]
  unfold find
  refine ⟨?_, ?_, rfl, rfl, rfl⟩
  · rw [mapFind_mapInsert, if_pos rfl]
  · intro j hj
    rw [mapFind_mapInsert, if_neg hj]

theorem addActivity_accepts_witness :
    "D" ≠ "" ∧ F32.lt 5 0 = false ∧ find exampleABC "D" = none ∧
    find (addActivity exampleABC "D" 5 ["B"]).2 "D" =
      some { activity_id := "D", duration := 5, predecessors := ["B"], successors := [],
             ES := 0, EF := 0, LS := 0, LF := 0, slack := 0 } ∧
    (∀ j, j ≠ "D" → find (addActivity exampleABC "D" 5 ["B"]).2 j = find exampleABC j) ∧
    (addActivity exampleABC "D" 5 ["B"]).2.topo_order = [] ∧
    (addActivity exampleABC "D" 5 ["B"]).2.critical_path = [] ∧
    (addActivity exampleABC "D" 5 ["B"]).2.project_duration = 0 :=
  ⟨by decide, by decide!, by decide!,
   addActivity_accepts exampleABC "D" 5 ["B"] (by decide) (by decide!) (by decide!)⟩

theorem Trace.stale {s : PERT} {b : Bool} (h : Trace s b) :
    b = false → s.project_duration = 0 ∧ s.critical_path = [] := by
  induction h with
  | fresh => intro _; exact ⟨rfl, rfl⟩
  | add_ok s b id d ps _ hok _ =>
    intro _
    rw [addActivity_eq] at hok ⊢
    by_cases hc : id = "" ∨ F32.lt d 0 = true ∨ mapFind s.activities id ≠ none
    · rw [if_pos hc] at hok; simp at hok
    · rw [if_neg hc]; exact ⟨rfl, rfl⟩
  | add_rejected s b id d ps _ hrej ih =>
    intro hb
    rw [addActivity_eq] at hrej ⊢
    by_cases hc : id = "" ∨ F32.lt d 0 = true ∨ mapFind s.activities id ≠ none
    · rw [if_pos hc]; exact ih hb
    · rw [if_neg hc] at hrej; simp at hrej
  | clear s b _ _ => intro _; exact ⟨rfl, rfl⟩
  | calc_true s s' b e _ _ _ => intro hb; simp at hb
  | calc_false s s' b e ht hc ih =>
    intro hb
    obtain ⟨h1, h2⟩ := frame_of_false ht.trace_reachable.inv hc
    obtain ⟨h3, h4⟩ := ih hb
    exact ⟨h1.trans h3, h2.trans h4⟩

/-- C4: in every state reachable by `addActivity`, `clear` and `calculate` calls in which no
`calculate` has returned `true` since the last successful `addActivity` or `clear`,
`getProjectDuration` returns 0 and `getCriticalPath` returns no value. -/
theorem no_schedule_before_success (s : PERT) (h : Trace s false) :
    getProjectDuration s = 0 ∧ getCriticalPath s = none := by
  obtain ⟨h1, h2⟩ := h.stale rfl
  unfold getProjectDuration getCriticalPath
  exact ⟨h1, by rw [if_pos h2]⟩

theorem no_schedule_before_success_witness :
    Trace (addActivity scheduledABC "D" 5 ["B"]).2 false ∧
    getProjectDuration (addActivity scheduledABC "D" 5 ["B"]).2 = 0 ∧
    getCriticalPath (addActivity scheduledABC "D" 5 ["B"]).2 = none :=
  have ht : Trace (addActivity scheduledABC "D" 5 ["B"]).2 false :=
    Trace.add_ok scheduledABC true "D" 5 ["B"]
      (Trace.calc_true exampleABC scheduledABC false ""
        (Trace.add_ok _ false "C" 3 ["A"]
          (Trace.add_ok _ false "B" 4 ["A"]
            (Trace.add_ok _ false "A" 2 [] Trace.fresh (by decide!)) (by decide!)) (by decide!))
        exampleABC_calculate)
      (by decide!)
  ⟨ht, no_schedule_before_success _ ht⟩

theorem nanA_reachable : Reachable nanA := Reachable.add _ "A" F32.nan [] Reachable.fresh

theorem bigAB_reachable : Reachable bigAB :=
  Reachable.add _ "B" 1 ["A"] (Reachable.add _ "A" 16777216 [] Reachable.fresh)

theorem nanA_calculate : calculate nanA = some (true, scheduledNanA, "") := by decide!

theorem bigAB_calculate : calculate bigAB = some (true, scheduledBigAB, "") := by decide!

/-- Refutation of C5 as stated: with the accepted duration NaN, `calculate` returns `true`,
`EF` of the only activity is NaN and the project duration is 0, so the project duration is
neither an upper bound of `EF` nor equal to any `EF`. -/
theorem project_duration_is_max_EF_refuted :
    (addActivity {} "A" F32.nan []).1 = true ∧
    calculate nanA = some (true, scheduledNanA, "") ∧
    find scheduledNanA "A" = some
      { activity_id := "A", duration := F32.nan, predecessors := [], successors := [],
        ES := 0, EF := F32.nan, LS := F32.nan, LF := 0, slack := F32.nan } ∧
    getProjectDuration scheduledNanA = 0 ∧
    ¬ (∀ kv ∈ scheduledNanA.activities,
        F32.le kv.2.EF (getProjectDuration scheduledNanA) = true) ∧
    ¬ (∃ kv ∈ scheduledNanA.activities,
        F32.eq kv.2.EF (getProjectDuration scheduledNanA) = true) :=
  ⟨by decide!, nanA_calculate, by decide!, by decide!, by decide!, by decide!⟩

/-- C5 (amended): after a `calculate` that returns `true`, every activity without successors
has `LF` equal to the project duration; and when no registered duration is NaN, the project
duration is the maximum of `EF` over the registered activities: no `EF` exceeds it and some
activity attains it. -/
theorem project_duration_is_max_EF (s s' : PERT) (e : String) (hr : Reachable s)
    (hc : calculate s = some (true, s', e)) :
    (∀ k a, find s' k = some a → a.successors = [] → a.LF = getProjectDuration s') ∧
    ((∀ kv ∈ s.activities, kv.2.duration ≠ F32.nan) →
      (∀ k a, find s' k = some a → F32.le a.EF (getProjectDuration s') = true) ∧
      (∃ k a, find s' k = some a ∧ a.EF = getProjectDuration s')) := by
  obtain ⟨hne, _, _, cal⟩ := calculated_of_true hr.inv hc
  have hreg := cal.regOK hr.inv
  unfold getProjectDuration
  constructor
  · intro k a hk hs
    obtain ⟨h1, h2⟩ := find_get hk
    have := cal.sched.lf k h1
    unfold succs at this
    rw [h2, hs] at this
    exact this
  intro hd
  have hdur := cal.duration_of (fun d => d ≠ F32.nan) hd
  have hle : ∀ k ∈ mapKeys s'.activities,
      F32.le (mapGet s'.activities k).EF s'.project_duration = true := by
    intro k hk
    obtain ⟨c, hc1, _⟩ := cal.sched.ef_key hreg k hk (hdur k hk)
    obtain ⟨b, hb, hcb⟩ := esOf_ge_mem s'.activities s'.topo_order 0 0 F32.key_zero k
      (cal.order.perm.mem_iff.2 hk) c hc1
    rw [← cal.sched.pd] at hb
    rw [F32.le_of_keys hc1 hb]
    simpa using hcb
  refine ⟨?_, ?_⟩
  · intro k a hk
    obtain ⟨h1, h2⟩ := find_get hk
    rw [← h2]
    exact hle k h1
  · rcases esOf_attained s'.activities s'.topo_order 0 with h0 | ⟨k, hk, hk2, _⟩
    · rw [← cal.sched.pd] at h0
      obtain ⟨kv, rest, hkv⟩ := List.exists_cons_of_ne_nil (cal.nonempty hne)
      have hk : kv.1 ∈ mapKeys s'.activities := by
        rw [hkv]; simp [mapKeys]
      refine ⟨kv.1, _, mapFind_eq_get s'.activities kv.1 hk, ?_⟩
      obtain ⟨c, hc1, hc0⟩ := cal.sched.ef_key hreg kv.1 hk (hdur kv.1 hk)
      have h1 := hle kv.1 hk
      rw [h0, F32.le_of_keys hc1 F32.key_zero] at h1
      have hc2 : c = 0 := by
        have : c ≤ 0 := by simpa using h1
        omega
      rw [hc2] at hc1
      rw [h0]
      rcases F32.zero_of_key hc1 with h | h
      · exact h
      · exact absurd h (cal.sched.ef_ne_negzero kv.1 hk)
    · rw [← cal.sched.pd] at hk2
      have hkk : k ∈ mapKeys s'.activities := cal.order.perm.mem_iff.1 hk
      exact ⟨k, _, mapFind_eq_get s'.activities k hkk, hk2.symm⟩

theorem project_duration_is_max_EF_witness :
    Reachable exampleABC ∧ calculate exampleABC = some (true, scheduledABC, "") ∧
    (∀ kv ∈ exampleABC.activities, kv.2.duration ≠ F32.nan) ∧
    (∀ k a, find scheduledABC k = some a → a.successors = [] →
      a.LF = getProjectDuration scheduledABC) ∧
    (∀ k a, find scheduledABC k = some a →
      F32.le a.EF (getProjectDuration scheduledABC) = true) ∧
    (∃ k a, find scheduledABC k = some a ∧ a.EF = getProjectDuration scheduledABC) :=
  have h := project_duration_is_max_EF exampleABC scheduledABC "" exampleABC_reachable
    exampleABC_calculate
  ⟨exampleABC_reachable, exampleABC_calculate, by decide!, h.1, h.2 (by decide!)⟩

/-- C7: after a `calculate` that returns `true`, every identifier on the critical path is a
registered activity with slack 0, and for consecutive identifiers `p`, `n` on the path,
`n` is a successor of `p` and `EF(p) = ES(n)`: the two are the same value, and they compare
equal under `==` (so neither is NaN). -/
theorem critical_path_sound (s s' : PERT) (e : String) (hr : Reachable s)
    (hc : calculate s = some (true, s', e)) :
    (∀ k ∈ s'.critical_path, ∃ a, find s' k = some a ∧ a.slack = 0) ∧
    (∀ l1 p n l2, s'.critical_path = l1 ++ p :: n :: l2 →
      ∃ a b, find s' p = some a ∧ find s' n = some b ∧ n ∈ a.successors ∧ a.EF = b.ES ∧
        F32.eq a.EF b.ES = true) := by
  obtain ⟨_, _, _, cal⟩ := calculated_of_true hr.inv hc
  constructor
  · intro k hk
    have hkk := cal.crit.mem k hk
    refine ⟨_, mapFind_eq_get s'.activities k hkk, ?_⟩
    apply (cal.sched.slack_zero_iff cal.graph cal.order k hkk).1
    cases hp : s'.critical_path with
    | nil => rw [hp] at hk; simp at hk
    | cons k0 l =>
      rw [hp] at hk
      rcases List.mem_cons.1 hk with hk | hk
      · rw [hk]
        exact (cal.crit.head k0 l hp).2.1
      · have hch := cal.crit.chain
        rw [hp] at hch
        exact chain_slack l k0 hch k hk
  · intro l1 p n l2 hs
    have ht := chain_pair l1 cal.crit.chain hs
    have hp : p ∈ mapKeys s'.activities := cal.crit.mem p (by rw [hs]; simp)
    have hn : n ∈ mapKeys s'.activities := cal.crit.mem n (by rw [hs]; simp)
    exact ⟨_, _, mapFind_eq_get _ p hp, mapFind_eq_get _ n hn, ht.1,
      cal.sched.ef_eq_es cal.graph p n hp hn ht.2.2, ht.2.2⟩

theorem critical_path_sound_witness :
    Reachable exampleABC ∧ calculate exampleABC = some (true, scheduledABC, "") ∧
    (∀ k ∈ scheduledABC.critical_path, ∃ a, find scheduledABC k = some a ∧ a.slack = 0) ∧
    (∀ l1 p n l2, scheduledABC.critical_path = l1 ++ p :: n :: l2 →
      ∃ a b, find scheduledABC p = some a ∧ find scheduledABC n = some b ∧
        n ∈ a.successors ∧ a.EF = b.ES ∧ F32.eq a.EF b.ES = true) :=
  ⟨exampleABC_reachable, exampleABC_calculate,
   critical_path_sound exampleABC scheduledABC "" exampleABC_reachable exampleABC_calculate⟩

/-- C9: after a `calculate` that returns `true`, the topological order lists every
registered identifier exactly once and nothing else, and every activity comes after each
activity named in its predecessor list. -/
theorem topo_order_valid (s s' : PERT) (e : String) (hr : Reachable s)
    (hc : calculate s = some (true, s', e)) :
    (∀ k, find s' k ≠ none → s'.topo_order.count k = 1) ∧
    (∀ k ∈ s'.topo_order, find s' k ≠ none) ∧
    (∀ k a, find s' k = some a → ∀ p ∈ a.predecessors,
      ∃ pre post, s'.topo_order = pre ++ k :: post ∧ p ∈ pre) := by
  obtain ⟨_, _, _, cal⟩ := calculated_of_true hr.inv hc
  have hmem : ∀ k, k ∈ s'.topo_order ↔ find s' k ≠ none := by
    intro k
    rw [cal.order.perm.mem_iff]
    unfold find
    rw [Ne, mapFind_eq_none_iff, not_not]
  refine ⟨?_, fun k hk => (hmem k).1 hk, ?_⟩
  · intro k hk
    exact List.count_eq_one_of_mem cal.order.nodup ((hmem k).2 hk)
  · intro k a hk p hp
    obtain ⟨h1, h2⟩ := find_get hk
    have hko : k ∈ s'.topo_order := cal.order.perm.mem_iff.2 h1
    obtain ⟨pre, post, hsplit⟩ := List.append_of_mem hko
    refine ⟨pre, post, hsplit, cal.order.before pre k post hsplit p ?_⟩
    unfold preds
    rw [h2]
    exact hp

theorem topo_order_valid_witness :
    Reachable exampleABC ∧ calculate exampleABC = some (true, scheduledABC, "") ∧
    (∀ k, find scheduledABC k ≠ none → scheduledABC.topo_order.count k = 1) ∧
    (∀ k ∈ scheduledABC.topo_order, find scheduledABC k ≠ none) ∧
    (∀ k a, find scheduledABC k = some a → ∀ p ∈ a.predecessors,
      ∃ pre post, scheduledABC.topo_order = pre ++ k :: post ∧ p ∈ pre) :=
  ⟨exampleABC_reachable, exampleABC_calculate,
   topo_order_valid exampleABC scheduledABC "" exampleABC_reachable exampleABC_calculate⟩

/-- Refutation of C10 as stated: for the exact durations 16777216 and 1, `calculate` returns
`true` and leaves B with `ES = EF = 16777216` and duration 1, so `EF = ES + duration` does
not hold for the stored numbers. -/
theorem schedule_equations_refuted :
    Reachable bigAB ∧ calculate bigAB = some (true, scheduledBigAB, "") ∧
    (find scheduledBigAB "B").map (fun b => (b.ES, b.duration, b.EF))
      = some (16777216, 1, 16777216) ∧
    F32.toRat 16777216 = 16777216 ∧ F32.toRat 1 = 1 ∧
    ¬ (∀ kv ∈ scheduledBigAB.activities,
        F32.toRat kv.2.EF = F32.toRat kv.2.ES + F32.toRat kv.2.duration) :=
  ⟨bigAB_reachable, bigAB_calculate, by decide!, by decide!, by decide!, by decide!⟩

/-- C10 (amended): after a `calculate` that returns `true`, every registered activity
satisfies the three equations in binary32 arithmetic: `EF` is the rounded sum
`ES + duration`, `LS` the rounded difference `LF - duration` and `slack` the rounded
difference `LS - ES` (round to nearest, ties to even; an infinite or NaN operand gives the
IEEE 754 result). -/
theorem schedule_equations (s s' : PERT) (e : String) (hr : Reachable s)
    (hc : calculate s = some (true, s', e)) :
    ∀ k a, find s' k = some a →
      a.EF = F32.add a.ES a.duration ∧ a.LS = F32.sub a.LF a.duration ∧
        a.slack = F32.sub a.LS a.ES := by
  obtain ⟨_, _, _, cal⟩ := calculated_of_true hr.inv hc
  intro k a hk
  obtain ⟨h1, h2⟩ := find_get hk
  have e1 := cal.sched.ef k h1
  have e2 := cal.sched.ls k h1
  have e3 := (cal.sched.slack_eq cal.graph cal.order k h1).1
  rw [h2] at e1 e2 e3
  exact ⟨e1, e2, e3⟩

theorem schedule_equations_witness :
    Reachable exampleABC ∧ calculate exampleABC = some (true, scheduledABC, "") ∧
    ∀ k a, find scheduledABC k = some a →
      a.EF = F32.add a.ES a.duration ∧ a.LS = F32.sub a.LF a.duration ∧
        a.slack = F32.sub a.LS a.ES :=
  ⟨exampleABC_reachable, exampleABC_calculate,
   schedule_equations exampleABC scheduledABC "" exampleABC_reachable exampleABC_calculate⟩

theorem transGen_head {α : Type} {r : α → α → Prop} {a b : α}
    (h : Relation.TransGen r a b) : ∃ c, r a c := by
  induction h with
  | single h => exact ⟨_, h⟩
  | tail _ _ ih => exact ih

theorem cycleAB_reachable : Reachable cycleAB :=
  Reachable.add _ "B" 1 ["A"] (Reachable.add _ "A" 1 ["B"] Reachable.fresh)

theorem danglingA_reachable : Reachable danglingA :=
  Reachable.add _ "A" 1 ["X"] Reachable.fresh

/-- C11: when every predecessor reference resolves and the predecessor relation has a cycle,
`calculate` returns `false`, writes the circular-dependency error of `topoSort`, and leaves
the topological order empty. -/
theorem cycle_rejected (s : PERT) (hr : Reachable s) (hres : PredsResolved s.activities)
    (hcyc : ∃ a, Relation.TransGen (Dep s.activities) a a) :
    ∃ s', calculate s = some (false, s', topoFailMsg cycleMsg) ∧ s'.topo_order = [] := by
  obtain ⟨a, ha⟩ := hcyc
  rcases calculate_spec s hr.inv with ⟨h1, _⟩ | ⟨_, h2, _⟩ | ⟨_, _, _, s1, hc, _, ht⟩ |
    ⟨_, _, h3, _⟩
  · exfalso
    obtain ⟨c, act, hact, _⟩ := transGen_head ha
    rw [h1] at hact
    simp [mapFind] at hact
  · exact absurd hres h2
  · exact ⟨s1, hc, ht⟩
  · exact absurd ha (h3 a)

theorem cycle_rejected_witness :
    Reachable cycleAB ∧ PredsResolved cycleAB.activities ∧
    (∃ a, Relation.TransGen (Dep cycleAB.activities) a a) ∧
    ∃ s', calculate cycleAB = some (false, s', topoFailMsg cycleMsg) ∧ s'.topo_order = [] :=
  have hres : PredsResolved cycleAB.activities :=
    (buildGraph_true_iff cycleAB "" cycleAB_reachable.inv.sorted).1 (by decide!)
  have hcyc : ∃ a, Relation.TransGen (Dep cycleAB.activities) a a :=
    ⟨"A", Relation.TransGen.tail
      (Relation.TransGen.single ⟨_, (by decide! : mapFind cycleAB.activities "A" =
        some { activity_id := "A", duration := 1, predecessors := ["B"] }), by simp⟩)
      ⟨_, (by decide! : mapFind cycleAB.activities "B" =
        some { activity_id := "B", duration := 1, predecessors := ["A"] }), by simp⟩⟩
  ⟨cycleAB_reachable, hres, hcyc, cycle_rejected cycleAB cycleAB_reachable hres hcyc⟩

/-- C12: when some registered activity names a predecessor that is not registered,
`buildGraph` fails, `calculate` returns `false`, and the error text names a missing
predecessor `p` and an activity `k` that lists it. -/
theorem missing_predecessor_reported (s : PERT) (hr : Reachable s)
    (h : ∃ k a p, find s k = some a ∧ p ∈ a.predecessors ∧ find s p = none) :
    ∃ k a p s', find s k = some a ∧ p ∈ a.predecessors ∧ find s p = none ∧
      buildGraph s "" = (false, missingMsg p k, s') ∧
      calculate s = some (false, s', buildFailMsg (missingMsg p k)) ∧
      Contains (missingMsg p k) p ∧ Contains (missingMsg p k) k := by
  obtain ⟨k0, a0, p0, h1, h2, h3⟩ := h
  unfold find at h1 h3
  have hnr : ¬ PredsResolved s.activities := by
    intro hres
    exact (mapFind_eq_none_iff _ p0).1 h3 (hres k0 a0 h1 p0 h2)
  have hb : (buildGraph s "").1 = false := by
    cases hbb : (buildGraph s "").1
    · rfl
    · exact absurd ((buildGraph_true_iff s "" hr.inv.sorted).1 hbb) hnr
  have hne : s.activities ≠ [] := by
    intro hnil
    rw [hnil] at h1
    simp [mapFind] at h1
  obtain ⟨k, a, p, f1, f2, f3, f4⟩ := buildGraph_false s "" hr.inv.sorted hb
  refine ⟨k, a, p, (buildGraph s "").2.2, f1, f2, (mapFind_eq_none_iff _ p).2 f3, ?_, ?_, ?_, ?_⟩
  · rw [← f4, ← hb]
  · rw [calculate_eq, if_neg hne, if_pos hb, f4]
  · exact ⟨"Processor not exist: ", " (Activity: " ++ k ++ ")", by
      simp [missingMsg, String.append_assoc]⟩
  · exact ⟨"Processor not exist: " ++ p ++ " (Activity: ", ")", rfl⟩

theorem missing_predecessor_reported_witness :
    Reachable danglingA ∧
    (∃ k a p, find danglingA k = some a ∧ p ∈ a.predecessors ∧ find danglingA p = none) ∧
    ∃ k a p s', find danglingA k = some a ∧ p ∈ a.predecessors ∧ find danglingA p = none ∧
      buildGraph danglingA "" = (false, missingMsg p k, s') ∧
      calculate danglingA = some (false, s', buildFailMsg (missingMsg p k)) ∧
      Contains (missingMsg p k) p ∧ Contains (missingMsg p k) k :=
  have h : ∃ k a p, find danglingA k = some a ∧ p ∈ a.predecessors ∧ find danglingA p = none :=
    ⟨"A", { activity_id := "A", duration := 1, predecessors := ["X"] }, "X",
      by decide!, by simp, by decide!⟩
  ⟨danglingA_reachable, h, missing_predecessor_reported danglingA danglingA_reachable h⟩

/-- C13: from an empty `PERT`, after `addActivity(A, 2, [])`, `addActivity(B, 4, [A])`,
`addActivity(C, 3, [A])` the call `calculate()` returns `true`, the project duration is 6,
the slacks of A, B, C are 0, 0, 1, and `getCriticalPath()` returns `[A, B]`. -/
theorem scenario_ABC :
    (addActivity {} "A" 2 []).1 = true ∧
    (addActivity (addActivity {} "A" 2 []).2 "B" 4 ["A"]).1 = true ∧
    (addActivity (addActivity (addActivity {} "A" 2 []).2 "B" 4 ["A"]).2 "C" 3 ["A"]).1 = true ∧
    ∃ s', calculate
        (addActivity (addActivity (addActivity {} "A" 2 []).2 "B" 4 ["A"]).2 "C" 3 ["A"]).2
          = some (true, s', "") ∧
      getProjectDuration s' = 6 ∧
      (find s' "A").map Activity.slack = some 0 ∧
      (find s' "B").map Activity.slack = some 0 ∧
      (find s' "C").map Activity.slack = some 1 ∧
      getCriticalPath s' = some ["A", "B"] :=
  ⟨by decide!, by decide!, by decide!, scheduledABC, exampleABC_calculate,
   by decide!, by decide!, by decide!, by decide!, by decide!⟩

theorem nanAB_reachable : Reachable nanAB :=
  Reachable.add _ "B" 1 ["A"] (Reachable.add _ "A" F32.nan [] Reachable.fresh)

theorem infPA_reachable : Reachable infPA :=
  Reachable.add _ "A" F32.infinity ["P"] (Reachable.add _ "P" 1 [] Reachable.fresh)

/-- Refutation of C17 as stated: with the accepted duration NaN for A and B depending on A,
`calculate` returns `true` with `EF(A) = NaN` and `ES(B) = 0`: `ES(B)` is not the maximum of
the `EF` of B's predecessors, and `ES(B) >= EF(A)` is false. -/
theorem earliest_start_is_max_refuted :
    Reachable nanAB ∧
    (calculate nanAB).map (fun r => r.1) = some true ∧
    (calculate nanAB).map (fun r => (find r.2.1 "A").map Activity.EF) = some (some F32.nan) ∧
    (calculate nanAB).map (fun r => (find r.2.1 "B").map fun b => (b.predecessors, b.ES))
      = some (some (["A"], 0)) ∧
    F32.le F32.nan 0 = false ∧ F32.eq 0 F32.nan = false :=
  ⟨nanAB_reachable, by decide!, by decide!, by decide!, by decide!, by decide!⟩

/-- C17 (amended): after a `calculate` that returns `true`, the `ES` of every registered
activity without predecessors is 0; and when no registered duration is NaN, the `ES` of every
registered activity is the maximum of the `EF` of its predecessors: no predecessor finishes
later than `ES`, and some predecessor finishes exactly at `ES`. -/
theorem earliest_start_is_max (s s' : PERT) (e : String) (hr : Reachable s)
    (hc : calculate s = some (true, s', e)) :
    ∀ k a, find s' k = some a →
      (a.predecessors = [] → a.ES = 0) ∧
      ((∀ kv ∈ s.activities, kv.2.duration ≠ F32.nan) →
        (∀ p ∈ a.predecessors, ∃ b, find s' p = some b ∧ F32.le b.EF a.ES = true) ∧
        (a.predecessors ≠ [] →
          ∃ p ∈ a.predecessors, ∃ b, find s' p = some b ∧ a.ES = b.EF)) := by
  obtain ⟨_, _, _, cal⟩ := calculated_of_true hr.inv hc
  have hreg := cal.regOK hr.inv
  intro k a hk
  obtain ⟨h1, h2⟩ := find_get hk
  have hes := cal.sched.es k h1
  unfold preds at hes
  rw [h2] at hes
  have hpk : ∀ p ∈ a.predecessors, p ∈ mapKeys s'.activities :=
    fun p hp => cal.graph.resolved k a hk p hp
  constructor
  · intro hnil
    rw [hes, hnil]
    rfl
  intro hd
  have hdur := cal.duration_of (fun d => d ≠ F32.nan) hd
  have hle : ∀ p ∈ a.predecessors, ∃ b c, F32.key (mapGet s'.activities p).EF = some c ∧
      F32.key a.ES = some b ∧ 0 ≤ c ∧ c ≤ b := by
    intro p hp
    obtain ⟨c, hc1, hc0⟩ := cal.sched.ef_key hreg p (hpk p hp) (hdur p (hpk p hp))
    obtain ⟨b, hb, hcb⟩ := esOf_ge_mem s'.activities a.predecessors 0 0 F32.key_zero p hp c hc1
    rw [← hes] at hb
    exact ⟨b, c, hc1, hb, hc0, hcb⟩
  refine ⟨?_, ?_⟩
  · intro p hp
    refine ⟨_, mapFind_eq_get _ p (hpk p hp), ?_⟩
    obtain ⟨b, c, hc1, hb, _, hcb⟩ := hle p hp
    rw [F32.le_of_keys hc1 hb]
    simpa using hcb
  · intro hne
    rcases esOf_attained s'.activities a.predecessors 0 with h0 | ⟨p, hp, hpe, _⟩
    · obtain ⟨p, rest, hpr⟩ := List.exists_cons_of_ne_nil hne
      have hp : p ∈ a.predecessors := by rw [hpr]; exact List.mem_cons_self _ _
      refine ⟨p, hp, _, mapFind_eq_get _ p (hpk p hp), ?_⟩
      obtain ⟨b, c, hc1, hb, hc0, hcb⟩ := hle p hp
      rw [hes, h0, F32.key_zero] at hb
      simp only [Option.some.injEq] at hb
      have hc2 : c = 0 := by omega
      rw [hc2] at hc1
      rw [hes, h0]
      rcases F32.zero_of_key hc1 with h | h
      · exact h.symm
      · exact absurd h (cal.sched.ef_ne_negzero p (hpk p hp))
    · exact ⟨p, hp, _, mapFind_eq_get _ p (hpk p hp), by rw [hes]; exact hpe⟩

theorem earliest_start_is_max_witness :
    Reachable exampleABC ∧ calculate exampleABC = some (true, scheduledABC, "") ∧
    (∀ kv ∈ exampleABC.activities, kv.2.duration ≠ F32.nan) ∧
    ∀ k a, find scheduledABC k = some a →
      (a.predecessors = [] → a.ES = 0) ∧
      (∀ p ∈ a.predecessors, ∃ b, find scheduledABC p = some b ∧ F32.le b.EF a.ES = true) ∧
      (a.predecessors ≠ [] →
        ∃ p ∈ a.predecessors, ∃ b, find scheduledABC p = some b ∧ a.ES = b.EF) :=
  have h := earliest_start_is_max exampleABC scheduledABC "" exampleABC_reachable
    exampleABC_calculate
  ⟨exampleABC_reachable, exampleABC_calculate, by decide!,
   fun k a hk => ⟨(h k a hk).1, (h k a hk).2 (by decide!)⟩⟩

/-- Refutation of C18 as stated: with the accepted duration `+∞` for A, which depends on P,
`calculate` returns `true` with `LS(A) = NaN` and `LF(P) = +∞`: `LF(P)` is not the minimum
of the `LS` of P's successors, and `LF(P) <= LS(A)` is false. -/
theorem latest_finish_is_min_refuted :
    Reachable infPA ∧
    (calculate infPA).map (fun r => r.1) = some true ∧
    (calculate infPA).map (fun r => (find r.2.1 "A").map Activity.LS) = some (some F32.nan) ∧
    (calculate infPA).map (fun r => (find r.2.1 "P").map fun p => (p.successors, p.LF))
      = some (some (["A"], F32.infinity)) ∧
    F32.le F32.infinity F32.nan = false ∧ F32.eq F32.infinity F32.nan = false :=
  ⟨infPA_reachable, by decide!, by decide!, by decide!, by decide!, by decide!⟩

/-- C18 (amended): after a `calculate` that returns `true`, the `LF` of every registered
activity without successors is the project duration; and when every registered duration is
finite, the `LF` of every registered activity with successors is the minimum of the `LS` of
its successors: no successor starts before `LF`, and some successor starts exactly at
`LF`. -/
theorem latest_finish_is_min (s s' : PERT) (e : String) (hr : Reachable s)
    (hc : calculate s = some (true, s', e)) :
    ∀ k a, find s' k = some a →
      (a.successors = [] → a.LF = getProjectDuration s') ∧
      ((∀ kv ∈ s.activities, F32.isFinite kv.2.duration = true) →
        (∀ x ∈ a.successors, ∃ b, find s' x = some b ∧ F32.le a.LF b.LS = true) ∧
        (a.successors ≠ [] →
          ∃ x ∈ a.successors, ∃ b, find s' x = some b ∧ a.LF = b.LS)) := by
  obtain ⟨_, _, _, cal⟩ := calculated_of_true hr.inv hc
  intro k a hk
  obtain ⟨h1, h2⟩ := find_get hk
  have hlf := cal.sched.lf k h1
  unfold succs at hlf
  rw [h2] at hlf
  have hsk : ∀ x ∈ a.successors, x ∈ mapKeys s'.activities :=
    fun x hx => cal.graph.succ_mem_keys k x a hk hx
  unfold getProjectDuration
  constructor
  · intro hnil
    rw [hlf, hnil]
    rfl
  intro hd
  have hdur := cal.duration_of (fun d => F32.isFinite d = true) hd
  have hLS : ∀ x ∈ mapKeys s'.activities, ∃ c, F32.key (mapGet s'.activities x).LS = some c := by
    intro x hx
    apply F32.key_of_ne_nan
    rw [cal.sched.ls x hx]
    obtain ⟨t, n, hdx, _⟩ := (F32.isFinite_iff _).1 (hdur x hx)
    rw [hdx]
    apply F32.sub_fin_ne_nan
    rw [cal.sched.lf x hx]
    by_cases hs : succs s'.activities x = []
    · rw [hs, lfOf_nil]
      obtain ⟨⟨b, hb, _⟩, _⟩ := cal.sched.pd_facts
      exact F32.ne_nan_of_key hb
    · rw [lfOf_of_ne_nil _ _ _ hs]
      obtain ⟨b, hb, _⟩ := lfFold_key s'.activities (succs s'.activities x) F32.infinity
        (F32.huge : Int) rfl
      exact F32.ne_nan_of_key hb
  refine ⟨?_, ?_⟩
  · intro x hx
    refine ⟨_, mapFind_eq_get _ x (hsk x hx), ?_⟩
    obtain ⟨c, hc1⟩ := hLS x (hsk x hx)
    have hne : a.successors ≠ [] := List.ne_nil_of_mem hx
    obtain ⟨b, hb, hbc⟩ := lfFold_le_mem s'.activities a.successors F32.infinity
      (F32.huge : Int) rfl x hx c hc1
    rw [← lfOf_of_ne_nil _ _ s'.project_duration hne, ← hlf] at hb
    rw [F32.le_of_keys hb hc1]
    simpa using hbc
  · intro hne
    rw [lfOf_of_ne_nil _ _ _ hne] at hlf
    rcases lfFold_attained s'.activities a.successors F32.infinity with h0 | ⟨x, hx, hxe, _⟩
    · obtain ⟨x, rest, hxr⟩ := List.exists_cons_of_ne_nil hne
      have hx : x ∈ a.successors := by rw [hxr]; exact List.mem_cons_self _ _
      refine ⟨x, hx, _, mapFind_eq_get _ x (hsk x hx), ?_⟩
      obtain ⟨c, hc1⟩ := hLS x (hsk x hx)
      obtain ⟨b, hb, hbc⟩ := lfFold_le_mem s'.activities a.successors F32.infinity
        (F32.huge : Int) rfl x hx c hc1
      rw [h0] at hb
      have hb' : F32.key F32.infinity = some (F32.huge : Int) := rfl
      rw [hb'] at hb
      simp only [Option.some.injEq] at hb
      have hr : F32.InRange (mapGet s'.activities x).LS := by
        rw [cal.sched.ls x (hsk x hx)]
        exact F32.inRange_sub _ _
      rw [hlf, h0]
      exact (F32.inf_of_key_ge hr hc1 (by omega)).symm
    · exact ⟨x, hx, _, mapFind_eq_get _ x (hsk x hx), by rw [hlf]; exact hxe⟩

theorem latest_finish_is_min_witness :
    Reachable exampleABC ∧ calculate exampleABC = some (true, scheduledABC, "") ∧
    (∀ kv ∈ exampleABC.activities, F32.isFinite kv.2.duration = true) ∧
    ∀ k a, find scheduledABC k = some a →
      (a.successors = [] → a.LF = getProjectDuration scheduledABC) ∧
      (∀ x ∈ a.successors, ∃ b, find scheduledABC x = some b ∧ F32.le a.LF b.LS = true) ∧
      (a.successors ≠ [] →
        ∃ x ∈ a.successors, ∃ b, find scheduledABC x = some b ∧ a.LF = b.LS) :=
  have h := latest_finish_is_min exampleABC scheduledABC "" exampleABC_reachable
    exampleABC_calculate
  ⟨exampleABC_reachable, exampleABC_calculate, by decide!,
   fun k a hk => ⟨(h k a hk).1, (h k a hk).2 (by decide!)⟩⟩

theorem Computable.of_core {m m' : List (String × Activity)}
    (h : mapProj core m' = mapProj core m) (c : Computable m) : Computable m' := by
  refine ⟨?_, c.2.1.resolved_of_proj core (fun x => x.2.2) (fun _ => rfl) h,
    c.2.2.acyclic_of_proj core (fun x => x.2.2) (fun _ => rfl) h⟩
  intro hnil
  have := length_eq_of_proj core h
  rw [hnil] at this
  exact c.1 (List.length_eq_zero.1 this.symm)

/-- In a reachable state, cached results are only present when `calculate` would succeed. -/
theorem Reachable.cache_sound {s : PERT} (h : Reachable s) :
    (s.topo_order ≠ [] ∨ s.project_duration ≠ 0 ∨ s.critical_path ≠ []) →
      Computable s.activities := by
  induction h with
  | fresh => intro h; simp at h
  | add s id d ps _ ih =>
    rw [addActivity_eq]
    by_cases hc : id = "" ∨ F32.lt d 0 = true ∨ mapFind s.activities id ≠ none
    · rw [if_pos hc]; exact ih
    · rw [if_neg hc]; intro h; simp at h
  | clear s _ _ => intro h; simp [PERT.clear] at h
  | calculate s s' b e hr hc ih =>
    intro hcache
    cases b with
    | true =>
      obtain ⟨h1, h2, h3, cal⟩ := calculated_of_true hr.inv hc
      exact Computable.of_core cal.core ⟨h1, h2, h3⟩
    | false =>
      rcases calculate_spec s hr.inv with ⟨_, hs⟩ | ⟨_, hnr, s1, k, _, p, hs, _, _, _, fr, ht⟩ |
        ⟨_, _, hna, s1, hs, fr, ht⟩ | ⟨_, _, _, s1, hs, _⟩
      · rw [hs] at hc
        simp only [Option.some.injEq, Prod.mk.injEq] at hc
        rw [← hc.2.1] at hcache ⊢
        exact ih hcache
      · rw [hs] at hc
        simp only [Option.some.injEq, Prod.mk.injEq] at hc
        rw [← hc.2.1] at hcache
        rw [ht, fr.pd, fr.cp] at hcache
        exact absurd (ih hcache).2.1 hnr
      · rw [hs] at hc
        simp only [Option.some.injEq, Prod.mk.injEq] at hc
        rw [← hc.2.1] at hcache
        rw [ht, fr.pd, fr.cp] at hcache
        have : s.topo_order ≠ [] ∨ s.project_duration ≠ 0 ∨ s.critical_path ≠ [] := by
          rcases hcache with h | h | h
          · exact absurd rfl h
          · exact Or.inr (Or.inl h)
          · exact Or.inr (Or.inr h)
        exact absurd (ih this).2.2 hna
      · rw [hs] at hc; simp at hc

/-- C20: in every state reachable by `addActivity`, `clear` and `calculate` calls, a
`calculate` that returns `false` leaves the topological order empty, the project duration 0
and the critical path absent. -/
theorem failed_calculate_shows_nothing (s s' : PERT) (e : String) (hr : Reachable s)
    (hc : calculate s = some (false, s', e)) :
    s'.topo_order = [] ∧ getProjectDuration s' = 0 ∧ getCriticalPath s' = none := by
  have hs' : Reachable s' := Reachable.calculate s s' false e hr hc
  have hnc : ¬ Computable s'.activities := by
    intro hcomp
    rcases calculate_spec s' hs'.inv with ⟨h1, _⟩ | ⟨_, h2, _⟩ | ⟨_, _, h3, _⟩ |
      ⟨_, _, _, s2, hs2, cal2⟩
    · exact hcomp.1 h1
    · exact h2 hcomp.2.1
    · exact h3 hcomp.2.2
    · rcases calculate_spec s hr.inv with ⟨_, hs⟩ | ⟨_, hnr, s1, k, _, p, hs, _, _, _, fr, _⟩ |
        ⟨_, _, hna, s1, hs, fr, _⟩ | ⟨_, _, _, s1, hs, _⟩
      · rw [hs] at hc
        simp only [Option.some.injEq, Prod.mk.injEq] at hc
        rw [← hc.2.1] at hcomp
        exact hcomp.1 (by assumption)
      · rw [hs] at hc
        simp only [Option.some.injEq, Prod.mk.injEq] at hc
        rw [← hc.2.1] at hcomp
        have hcore : mapProj core s.activities = mapProj core s1.activities :=
          (proj_of_proj_comp noSucc core core (fun _ => rfl) fr.acts).symm
        exact hnr (Computable.of_core hcore hcomp).2.1
      · rw [hs] at hc
        simp only [Option.some.injEq, Prod.mk.injEq] at hc
        rw [← hc.2.1] at hcomp
        have hcore : mapProj core s.activities = mapProj core s1.activities :=
          (proj_of_proj_comp noSucc core core (fun _ => rfl) fr.acts).symm
        exact hna (Computable.of_core hcore hcomp).2.2
      · rw [hs] at hc; simp at hc
  have h1 : s'.topo_order = [] := by
    by_contra h
    exact hnc (hs'.cache_sound (Or.inl h))
  have h2 : s'.project_duration = 0 := by
    by_contra h
    exact hnc (hs'.cache_sound (Or.inr (Or.inl h)))
  have h3 : s'.critical_path = [] := by
    by_contra h
    exact hnc (hs'.cache_sound (Or.inr (Or.inr h)))
  unfold getProjectDuration getCriticalPath
  exact ⟨h1, h2, by rw [if_pos h3]⟩

theorem failed_calculate_shows_nothing_witness :
    Reachable cycleAB ∧ calculate cycleAB = some (false, cycleABFailed, topoFailMsg cycleMsg) ∧
    cycleABFailed.topo_order = [] ∧ getProjectDuration cycleABFailed = 0 ∧
    getCriticalPath cycleABFailed = none :=
  ⟨cycleAB_reachable, by decide!,
   failed_calculate_shows_nothing cycleAB cycleABFailed (topoFailMsg cycleMsg) cycleAB_reachable
     (by decide!)⟩

/-- Refutation of the reading that a successful `addActivity` resets every activity: after
adding D to the scheduled A/B/C project, A still has its successors and `EF = 2` and C
still has slack 1. -/
theorem addActivity_clears_all_refuted :
    (addActivity scheduledABC "D" 5 ["B"]).1 = true ∧
    (find (addActivity scheduledABC "D" 5 ["B"]).2 "A").map Activity.successors
      = some ["B", "C"] ∧
    (find (addActivity scheduledABC "D" 5 ["B"]).2 "A").map Activity.EF = some 2 ∧
    (find (addActivity scheduledABC "D" 5 ["B"]).2 "C").map Activity.slack = some 1 := by
  decide!

/-- C15 (amended): a successful `addActivity` empties the topological order and the critical
path and sets the project duration to 0, and leaves every previously registered activity,
with its successors and its ES/EF/LS/LF/slack, exactly as it was. -/
theorem addActivity_keeps_old_entries (s : PERT) (id : String) (d : F32) (ps : List String)
    (h : (addActivity s id d ps).1 = true) :
    (addActivity s id d ps).2.topo_order = [] ∧
    (addActivity s id d ps).2.critical_path = [] ∧
    (addActivity s id d ps).2.project_duration = 0 ∧
    ∀ j a, find s j = some a → find (addActivity s id d ps).2 j = some a := by
  rw [addActivity_eq] at h ⊢
  by_cases hc : id = "" ∨ F32.lt d 0 = true ∨ mapFind s.activities id ≠ none
  · rw [if_pos hc] at h; simp at h
  · rw [if_neg hc]
    refine ⟨rfl, rfl, rfl, ?_⟩
    intro j a hj
    unfold find at hj ⊢
    have hne : j ≠ id := by
      intro e
      apply hc
      right; right
      rw [← e, hj]
      simp
    rw [mapFind_mapInsert, if_neg hne]
    exact hj

theorem addActivity_keeps_old_entries_witness :
    (addActivity scheduledABC "D" 5 ["B"]).1 = true ∧
    (addActivity scheduledABC "D" 5 ["B"]).2.topo_order = [] ∧
    (addActivity scheduledABC "D" 5 ["B"]).2.critical_path = [] ∧
    (addActivity scheduledABC "D" 5 ["B"]).2.project_duration = 0 ∧
    ∀ j a, find scheduledABC j = some a →
      find (addActivity scheduledABC "D" 5 ["B"]).2 j = some a :=
  ⟨by decide!, addActivity_keeps_old_entries scheduledABC "D" 5 ["B"] (by decide!)⟩

theorem succOf_sorted (es : List (String × List String)) (p : String)
    (h : (es.map Prod.fst).Pairwise (· < ·)) : (succOf es p).Pairwise (· ≤ ·) := by
  induction es with
  | nil => simp [succOf]
  | cons e es ih =>
    obtain ⟨k, ps⟩ := e
    simp only [List.map_cons, List.pairwise_cons] at h
    rw [succOf_cons, List.pairwise_append]
    refine ⟨?_, ih h.2, ?_⟩
    · rw [List.pairwise_map]
      exact List.pairwise_of_forall (fun _ _ => le_refl k)
    · intro a ha b hb
      simp only [List.mem_map] at ha
      obtain ⟨_, _, rfl⟩ := ha
      obtain ⟨e', he', hk', _⟩ := (mem_succOf es p b).1 hb
      rw [← hk']
      exact le_of_lt (h.1 e'.1 (List.mem_map_of_mem Prod.fst he'))

theorem count_succOf (es : List (String × List String)) (p k : String) (ps : List String)
    (hn : (es.map Prod.fst).Nodup) (hmem : (k, ps) ∈ es) :
    (succOf es p).count k = ps.count p := by
  induction es with
  | nil => simp at hmem
  | cons e es ih =>
    obtain ⟨k', ps'⟩ := e
    simp only [List.map_cons, List.nodup_cons] at hn
    rw [succOf_cons, List.count_append]
    rcases List.mem_cons.1 hmem with heq | hrest
    · simp only [Prod.mk.injEq] at heq
      obtain ⟨rfl, rfl⟩ := heq
      have h0 : (succOf es p).count k = 0 := by
        rw [List.count_eq_zero]
        intro hin
        obtain ⟨e', he', hk', _⟩ := (mem_succOf es p k).1 hin
        exact hn.1 (by rw [← hk']; exact List.mem_map_of_mem Prod.fst he')
      rw [h0, Nat.add_zero]
      clear hmem ih hn h0
      induction ps with
      | nil => simp
      | cons x xs ihx =>
        by_cases hx : x = p
        · subst hx
          simp only [List.filter_cons, decide_True, if_true, List.map_cons, List.count_cons_self]
          rw [ihx]
        · have hx' : (x == p) = false := by simpa using hx
          simp only [List.filter_cons, hx, decide_False, Bool.false_eq_true, if_false,
            List.count_cons, hx']
          rw [ihx]
          simp
    · have hne : k' ≠ k := by
        intro e
        apply hn.1
        rw [e]
        exact List.mem_map_of_mem Prod.fst hrest
      have h0 : (List.map (fun _ => k') (List.filter (fun x => decide (x = p)) ps')).count k
          = 0 := by
        rw [List.count_eq_zero]
        intro hin
        simp only [List.mem_map] at hin
        obtain ⟨_, _, h⟩ := hin
        exact hne h
      rw [h0, Nat.zero_add]
      exact ih hn.2 hrest

/-- Refutation of insertion order in successor lists: B is added before A, both name Z as
predecessor, and `buildGraph` gives Z the successor list `[A, B]`. -/
theorem successors_insertion_order_refuted :
    (buildGraph exampleZBA "").1 = true ∧
    (find (buildGraph exampleZBA "").2.2 "Z").map Activity.successors = some ["A", "B"] ∧
    (find (buildGraph exampleZBA "").2.2 "Z").map Activity.successors ≠ some ["B", "A"] := by
  decide!

/-- C16 (amended): after a successful `buildGraph`, the successor list of every activity `p`
lists the activities that name `p` as a predecessor in ascending order of their identifiers
(the iteration order of the activity map), each once per occurrence of `p` in its
predecessor list. -/
theorem successors_in_key_order (s : PERT) (err : String) (hr : Reachable s)
    (hb : (buildGraph s err).1 = true) :
    ∀ p a, find (buildGraph s err).2.2 p = some a →
      a.successors.Pairwise (· ≤ ·) ∧
      (∀ k, k ∈ a.successors ↔
        ∃ b, find (buildGraph s err).2.2 k = some b ∧ p ∈ b.predecessors) ∧
      (∀ k b, find (buildGraph s err).2.2 k = some b →
        a.successors.count k = b.predecessors.count p) := by
  obtain ⟨_, hsucc⟩ := buildGraph_true s err hb
  have hfr := (buildGraph_frame s err).2.2.2
  have hsorted : KeysSorted (buildGraph s err).2.2.activities :=
    keysSorted_of_proj noSucc hfr hr.inv.sorted
  intro p a hp
  unfold find at hp ⊢
  have hsa := hsucc p a hp
  have hkeys : (predEntries (buildGraph s err).2.2.activities).map Prod.fst
      = mapKeys (buildGraph s err).2.2.activities := by
    simp [predEntries, mapKeys, List.map_map, Function.comp_def]
  refine ⟨?_, ?_, ?_⟩
  · rw [hsa]
    apply succOf_sorted
    rw [hkeys]
    exact hsorted
  · intro k
    rw [hsa]
    exact mem_succOf_predEntries _ hsorted.nodup p k
  · intro k b hk
    rw [hsa]
    apply count_succOf
    · rw [hkeys]; exact hsorted.nodup
    · exact mem_predEntries_of_find _ k b hk

theorem exampleZBA_reachable : Reachable exampleZBA :=
  Reachable.add _ "A" 1 ["Z"]
    (Reachable.add _ "B" 1 ["Z"] (Reachable.add _ "Z" 1 [] Reachable.fresh))

theorem successors_in_key_order_witness :
    Reachable exampleZBA ∧ (buildGraph exampleZBA "").1 = true ∧
    ∀ p a, find (buildGraph exampleZBA "").2.2 p = some a →
      a.successors.Pairwise (· ≤ ·) ∧
      (∀ k, k ∈ a.successors ↔
        ∃ b, find (buildGraph exampleZBA "").2.2 k = some b ∧ p ∈ b.predecessors) ∧
      (∀ k b, find (buildGraph exampleZBA "").2.2 k = some b →
        a.successors.count k = b.predecessors.count p) :=
  ⟨exampleZBA_reachable, by decide!,
   successors_in_key_order exampleZBA "" exampleZBA_reachable (by decide!)⟩

/-- The A/B/C scenario has whole-number durations with total 9, so by the input condition it
is scheduled without rounding. -/
theorem exampleABC_exact : Exact scheduledABC.activities :=
  exact_of_grid_durations exampleABC scheduledABC "" exampleABC_reachable exampleABC_calculate
    149 (by decide) (by decide!) (by decide!)

end PERT

theorem mapGet_cons_ne {β : Type} [Inhabited β] (k' : String) (v : β)
    (rest : List (String × β)) (k : String) (h : k' ≠ k) :
    mapGet ((k', v) :: rest) k = mapGet rest k := by
  simp [mapGet, mapFind, h]

theorem mapGet_cons_self {β : Type} [Inhabited β] (k : String) (v : β)
    (rest : List (String × β)) : mapGet ((k, v) :: rest) k = v := by
  simp [mapGet, mapFind]

/-- Two maps with the same keys whose values agree under a projection have the same
projection. -/
theorem mapProj_ext {γ : Type} (π : Activity → γ) :
    ∀ (m1 m2 : List (String × Activity)), mapKeys m1 = mapKeys m2 → (mapKeys m1).Nodup →
      (∀ k ∈ mapKeys m1, π (mapGet m1 k) = π (mapGet m2 k)) → mapProj π m1 = mapProj π m2 := by
  intro m1
  induction m1 with
  | nil =>
    intro m2 hk _ _
    cases m2 with
    | nil => rfl
    | cons b m2 => simp [mapKeys] at hk
  | cons a m1 ih =>
    intro m2 hk hn h
    cases m2 with
    | nil => simp [mapKeys] at hk
    | cons b m2 =>
      obtain ⟨ka, va⟩ := a
      obtain ⟨kb, vb⟩ := b
      simp only [mapKeys, List.map_cons, List.cons.injEq] at hk
      obtain ⟨hkab, hkrest⟩ := hk
      subst hkab
      simp only [mapKeys, List.map_cons, List.nodup_cons] at hn
      have hhead := h ka (by simp [mapKeys])
      rw [mapGet_cons_self, mapGet_cons_self] at hhead
      have htail : mapProj π m1 = mapProj π m2 := by
        apply ih m2 hkrest hn.2
        intro k hk1
        have hne : ka ≠ k := fun e => hn.1 (e ▸ hk1)
        have := h k (by simp only [mapKeys, List.map_cons]; exact List.mem_cons_of_mem _ hk1)
        rw [mapGet_cons_ne ka va m1 k hne, mapGet_cons_ne ka vb m2 k hne] at this
        exact this
      simp only [mapProj, List.map_cons, List.cons.injEq, Prod.mk.injEq, true_and]
      exact ⟨hhead, htail⟩

theorem mapProj_id (m : List (String × Activity)) : mapProj (fun a => a) m = m := by
  simp [mapProj]

theorem mapProj_mapInsert {γ : Type} (π : Activity → γ) (m : List (String × Activity))
    (k : String) (v : Activity) :
    mapProj π (mapInsert m k v) = mapInsert (mapProj π m) k (π v) := by
  induction m with
  | nil => rfl
  | cons kv rest ih =>
    obtain ⟨k', v'⟩ := kv
    unfold mapProj at ih ⊢
    by_cases h1 : k < k'
    · simp [mapInsert, h1]
    · by_cases h2 : k = k'
      · simp [mapInsert, h2]
      · simp only [mapInsert, h1, h2, if_false, List.map_cons, List.cons.injEq, true_and]
        exact ih

theorem mapCount_mapProj {γ : Type} (π : Activity → γ) (m : List (String × Activity))
    (k : String) : mapCount (mapProj π m) k = mapCount m k := by
  unfold mapCount
  rw [mapFind_mapProj]
  cases mapFind m k <;> rfl

theorem mapIndex_congr {γ : Type} (π : Activity → γ) {m1 m2 : List (String × Activity)}
    (h : mapProj π m1 = mapProj π m2) (k : String) :
    mapProj π (mapIndex m1 k) = mapProj π (mapIndex m2 k) := by
  have hc : mapCount m1 k = mapCount m2 k := by
    rw [← mapCount_mapProj π m1, ← mapCount_mapProj π m2, h]
  unfold mapIndex
  rw [hc]
  by_cases h0 : mapCount m2 k = 0
  · rw [if_pos h0, if_pos h0, mapProj_mapInsert, mapProj_mapInsert, h]
  · rw [if_neg h0, if_neg h0, h]

namespace PERT

theorem topoLoop_congr :
    ∀ (fuel : Nat) (m1 m2 : List (String × Activity)) (d : List (String × Int))
      (q o : List String), mapProj static m1 = mapProj static m2 →
      (topoLoop fuel m1 d q o).map (fun r => (mapProj static r.1, r.2)) =
        (topoLoop fuel m2 d q o).map (fun r => (mapProj static r.1, r.2)) := by
  intro fuel
  induction fuel with
  | zero =>
    intro m1 m2 d q o h
    cases q with
    | nil => simp [topoLoop_nil, h]
    | cons u q => rfl
  | succ fuel ih =>
    intro m1 m2 d q o h
    cases q with
    | nil => simp [topoLoop_nil, h]
    | cons u q =>
      have hi := mapIndex_congr static h u
      have hs : (mapGet (mapIndex m1 u) u).successors = (mapGet (mapIndex m2 u) u).successors :=
        congrArg (fun x => x.2.2.2) (get_proj_of_proj static hi u)
      simp only [topoLoop]
      rw [hs]
      exact ih _ _ _ _ _ hi

theorem indeg0_congr {m1 m2 : List (String × Activity)}
    (h : mapProj static m1 = mapProj static m2) : indeg0 m1 = indeg0 m2 := by
  have e1 : ∀ m : List (String × Activity),
      indegInit m = (mapProj static m).foldl (fun d kv => mapInsert d kv.1 0) [] := by
    intro m
    unfold indegInit mapProj
    rw [List.foldl_map]
  have e2 : ∀ m : List (String × Activity),
      allSucc m = (mapProj static m).flatMap fun kv => kv.2.2.2.2 := by
    intro m
    unfold allSucc mapProj
    rw [List.flatMap_map]
    rfl
  unfold indeg0
  rw [indegCount_eq, indegCount_eq, e1, e1, e2, e2, h]

/-- The order that `topoSort` produces depends only on the keys and the successor lists. -/
theorem topoSort_order_congr (fuel : Nat) (g1 g2 : PERT) (err1 err2 e1 e2 : String)
    (r1 r2 : PERT) (h : mapProj static g1.activities = mapProj static g2.activities)
    (h1 : topoSort fuel g1 err1 = some (true, e1, r1))
    (h2 : topoSort fuel g2 err2 = some (true, e2, r2)) : r1.topo_order = r2.topo_order := by
  have hc := topoLoop_congr fuel g1.activities g2.activities (indeg0 g1.activities)
    (zeroQueue (indeg0 g1.activities)) [] h
  rw [indeg0_congr h] at hc
  unfold topoSort at h1 h2
  simp only at h1 h2
  change (match topoLoop fuel g1.activities (indeg0 g1.activities)
      (zeroQueue (indeg0 g1.activities)) [] with
    | none => none
    | some (acts, order) => _) = _ at h1
  change (match topoLoop fuel g2.activities (indeg0 g2.activities)
      (zeroQueue (indeg0 g2.activities)) [] with
    | none => none
    | some (acts, order) => _) = _ at h2
  rw [indeg0_congr h] at h1
  cases ht1 : topoLoop fuel g1.activities (indeg0 g2.activities)
      (zeroQueue (indeg0 g2.activities)) [] with
  | none => rw [ht1] at h1; simp at h1
  | some p1 =>
    cases ht2 : topoLoop fuel g2.activities (indeg0 g2.activities)
        (zeroQueue (indeg0 g2.activities)) [] with
    | none => rw [ht2] at h2; simp at h2
    | some p2 =>
      obtain ⟨a1, o1⟩ := p1
      obtain ⟨a2, o2⟩ := p2
      rw [ht1, ht2] at hc
      simp only [Option.map_some', Option.some.injEq, Prod.mk.injEq] at hc
      rw [ht1] at h1
      rw [ht2] at h2
      simp only at h1 h2
      by_cases hl1 : o1.length = a1.length
      · by_cases hl2 : o2.length = a2.length
        · simp only [hl1, hl2, ne_eq, not_true_eq_false, if_false, Option.some.injEq,
            Prod.mk.injEq] at h1 h2
          rw [← h1.2.2, ← h2.2.2]
          exact hc.2
        · simp [hl2] at h2
      · simp [hl1] at h1

theorem activity_ext (a b : Activity) (h0 : static a = static b) (h1 : a.ES = b.ES)
    (h2 : a.EF = b.EF) (h3 : a.LS = b.LS) (h4 : a.LF = b.LF) (h5 : a.slack = b.slack) :
    a = b := by
  cases a
  cases b
  simp only [static, Prod.mk.injEq] at h0
  simp only at h1 h2 h3 h4 h5
  simp only [Activity.mk.injEq]
  exact ⟨h0.1, h0.2.1, h0.2.2.1, h0.2.2.2, h1, h2, h3, h4, h5⟩

theorem static_eq_of_core {m1 m2 : List (String × Activity)}
    (hcore : mapProj core m1 = mapProj core m2) (hn : (mapKeys m1).Nodup)
    (h1 : SuccSpec m1) (h2 : SuccSpec m2) : mapProj static m1 = mapProj static m2 := by
  have hk : mapKeys m1 = mapKeys m2 := mapKeys_eq_of_proj core hcore
  have hpe : predEntries m1 = predEntries m2 :=
    predEntries_eq_of_proj core (fun x => x.2.2) (fun _ => rfl) hcore
  apply mapProj_ext static m1 m2 hk hn
  intro k hk1
  have hk2 : k ∈ mapKeys m2 := hk ▸ hk1
  have hc := get_proj_of_proj core hcore k
  have s1 := h1 k _ (mapFind_eq_get m1 k hk1)
  have s2 := h2 k _ (mapFind_eq_get m2 k hk2)
  simp only [core, Prod.mk.injEq] at hc
  simp only [static, Prod.mk.injEq]
  exact ⟨hc.1, hc.2.1, hc.2.2, by rw [s1, s2, hpe]⟩

/-- The schedule equations have one solution: two scheduled maps that agree on ids,
durations, predecessors and successors are equal, with the same project duration. -/
theorem Scheduled.unique {m1 m2 : List (String × Activity)} {pd1 pd2 : F32}
    {ord : List String} (g1 : GraphOK m1) (t1 : TopoOrder m1 ord) (sc1 : Scheduled m1 ord pd1)
    (sc2 : Scheduled m2 ord pd2) (hst : mapProj static m1 = mapProj static m2) :
    m1 = m2 ∧ pd1 = pd2 := by
  have hk : mapKeys m1 = mapKeys m2 := mapKeys_eq_of_proj static hst
  have hstat : ∀ k, static (mapGet m1 k) = static (mapGet m2 k) :=
    fun k => get_proj_of_proj static hst k
  have hpreds : ∀ k, preds m1 k = preds m2 k := fun k => congrArg (fun x => x.2.2.1) (hstat k)
  have hsuccs : ∀ k, succs m1 k = succs m2 k := fun k => congrArg (fun x => x.2.2.2) (hstat k)
  have hdur : ∀ k, (mapGet m1 k).duration = (mapGet m2 k).duration :=
    fun k => congrArg (fun x => x.2.1) (hstat k)
  have hES_of : ∀ x ∈ mapKeys m1,
      (∀ p ∈ preds m1 x, (mapGet m1 p).EF = (mapGet m2 p).EF) →
      (mapGet m1 x).ES = (mapGet m2 x).ES := by
    intro x hx hp
    rw [sc1.es x hx, sc2.es x (hk ▸ hx), ← hpreds x]
    exact esOf_congr m1 m2 _ 0 hp
  have hEFn : ∀ (n : Nat) (pre : List String) (x : String) (post : List String),
      pre.length ≤ n → ord = pre ++ x :: post → (mapGet m1 x).EF = (mapGet m2 x).EF := by
    intro n
    induction n with
    | zero =>
      intro pre x post hlen hsplit
      have hpre : pre = [] := List.length_eq_zero.1 (Nat.le_zero.1 hlen)
      have hx : x ∈ mapKeys m1 := t1.perm.mem_iff.1 (by rw [hsplit]; simp)
      have hes := hES_of x hx (by
        intro p hp
        have := t1.before pre x post hsplit p hp
        rw [hpre] at this
        simp at this)
      rw [sc1.ef x hx, sc2.ef x (hk ▸ hx), hes, hdur x]
    | succ n ih =>
      intro pre x post hlen hsplit
      have hx : x ∈ mapKeys m1 := t1.perm.mem_iff.1 (by rw [hsplit]; simp)
      have hes := hES_of x hx (by
        intro p hp
        have hpp := t1.before pre x post hsplit p hp
        obtain ⟨a, b, hab⟩ := List.append_of_mem hpp
        have hsplit2 : ord = a ++ p :: (b ++ x :: post) := by
          rw [hsplit, hab]; simp
        have hlen2 : a.length ≤ n := by
          rw [hab] at hlen
          simp only [List.length_append, List.length_cons] at hlen
          omega
        exact ih a p _ hlen2 hsplit2)
      rw [sc1.ef x hx, sc2.ef x (hk ▸ hx), hes, hdur x]
  have hEF : ∀ k ∈ mapKeys m1, (mapGet m1 k).EF = (mapGet m2 k).EF := by
    intro k hk1
    obtain ⟨pre, post, hsplit⟩ := List.append_of_mem (t1.perm.mem_iff.2 hk1)
    exact hEFn pre.length pre k post (le_refl _) hsplit
  have hES : ∀ k ∈ mapKeys m1, (mapGet m1 k).ES = (mapGet m2 k).ES :=
    fun k hk1 => hES_of k hk1 (fun p hp => hEF p (preds_mem_keys g1 k p hk1 hp))
  have hpd : pd1 = pd2 := by
    rw [sc1.pd, sc2.pd]
    exact esOf_congr m1 m2 ord 0 (fun k hk => hEF k (t1.perm.mem_iff.1 hk))
  have hLF_of : ∀ x ∈ mapKeys m1,
      (∀ s ∈ succs m1 x, (mapGet m1 s).LS = (mapGet m2 s).LS) →
      (mapGet m1 x).LF = (mapGet m2 x).LF := by
    intro x hx hs
    rw [sc1.lf x hx, sc2.lf x (hk ▸ hx), ← hsuccs x, ← hpd]
    exact lfOf_congr m1 m2 _ pd1 hs
  have hLSn : ∀ (n : Nat) (pre : List String) (x : String) (post : List String),
      post.length ≤ n → ord = pre ++ x :: post → (mapGet m1 x).LS = (mapGet m2 x).LS := by
    intro n
    induction n with
    | zero =>
      intro pre x post hlen hsplit
      have hpost : post = [] := List.length_eq_zero.1 (Nat.le_zero.1 hlen)
      have hx : x ∈ mapKeys m1 := t1.perm.mem_iff.1 (by rw [hsplit]; simp)
      have hlf := hLF_of x hx (by
        intro s hs
        have := t1.succ_after g1 pre post x s hsplit hs
        rw [hpost] at this
        simp at this)
      rw [sc1.ls x hx, sc2.ls x (hk ▸ hx), hlf, hdur x]
    | succ n ih =>
      intro pre x post hlen hsplit
      have hx : x ∈ mapKeys m1 := t1.perm.mem_iff.1 (by rw [hsplit]; simp)
      have hlf := hLF_of x hx (by
        intro s hs
        have hsp := t1.succ_after g1 pre post x s hsplit hs
        obtain ⟨a, b, hab⟩ := List.append_of_mem hsp
        have hsplit2 : ord = (pre ++ x :: a) ++ s :: b := by
          rw [hsplit, hab]; simp
        have hlen2 : b.length ≤ n := by
          rw [hab] at hlen
          simp only [List.length_append, List.length_cons] at hlen
          omega
        exact ih _ s b hlen2 hsplit2)
      rw [sc1.ls x hx, sc2.ls x (hk ▸ hx), hlf, hdur x]
  have hLS : ∀ k ∈ mapKeys m1, (mapGet m1 k).LS = (mapGet m2 k).LS := by
    intro k hk1
    obtain ⟨pre, post, hsplit⟩ := List.append_of_mem (t1.perm.mem_iff.2 hk1)
    exact hLSn post.length pre k post (le_refl _) hsplit
  have hLF : ∀ k ∈ mapKeys m1, (mapGet m1 k).LF = (mapGet m2 k).LF :=
    fun k hk1 => hLF_of k hk1 (fun s hs => hLS s (succs_mem_keys g1 k s hk1 hs))
  refine ⟨?_, hpd⟩
  have := mapProj_ext (fun a => a) m1 m2 hk g1.sorted.nodup (by
    intro k hk1
    apply activity_ext _ _ (hstat k) (hES k hk1) (hEF k hk1) (hLS k hk1) (hLF k hk1)
    rw [sc1.slack k hk1, sc2.slack k (hk ▸ hk1), hLS k hk1, hES k hk1])
  rw [mapProj_id, mapProj_id] at this
  exact this

theorem calculate_true_shape {s t : PERT} {e : String}
    (h : calculate s = some (true, t, e)) :
    ∃ e2 s2, (buildGraph s "").1 = true ∧
      topoSort ((buildGraph s "").2.2.activities.length + 1) (buildGraph s "").2.2
        (buildGraph s "").2.1 = some (true, e2, s2) ∧
      t.topo_order = s2.topo_order ∧
      scanStart (t.activities.length + 1) t.activities t.topo_order = some t.critical_path := by
  rw [calculate_eq] at h
  by_cases h1 : s.activities = []
  · rw [if_pos h1] at h; simp at h
  rw [if_neg h1] at h
  by_cases h2 : (buildGraph s "").1 = false
  · rw [if_pos h2] at h; simp at h
  rw [if_neg h2] at h
  cases hts : topoSort ((buildGraph s "").2.2.activities.length + 1) (buildGraph s "").2.2
      (buildGraph s "").2.1 with
  | none => rw [hts] at h; simp at h
  | some r =>
    obtain ⟨b, e2, s2⟩ := r
    rw [hts] at h
    cases b with
    | false => simp at h
    | true =>
      simp only [deriveCriticalPath, Option.map_map] at h
      cases hsc : scanStart
          ((calculateSlack (backwardPass (forwardPass s2).2).2).activities.length + 1)
          (calculateSlack (backwardPass (forwardPass s2).2).2).activities
          (calculateSlack (backwardPass (forwardPass s2).2).2).topo_order with
      | none => rw [hsc] at h; simp at h
      | some p =>
        rw [hsc] at h
        simp only [Option.map_some', Function.comp_apply, Option.some.injEq, Prod.mk.injEq,
          true_and] at h
        have hbt : (buildGraph s "").1 = true := by
          cases hb : (buildGraph s "").1
          · exact absurd hb h2
          · rfl
        refine ⟨e2, s2, hbt, rfl, ?_, ?_⟩
        · rw [← h.1]; rfl
        · rw [← h.1]; exact hsc

theorem Inv.inv_of_core {s1 s2 : PERT} (inv : Inv s1)
    (h : mapProj core s2.activities = mapProj core s1.activities) : Inv s2 :=
  ⟨keysSorted_of_proj core h inv.sorted,
   inv.reg.reg_of_proj core (fun x => (x.1, x.2.1)) (fun _ => rfl) h⟩

theorem calculate_returns (s : PERT) (inv : Inv s) :
    ∃ b t e, calculate s = some (b, t, e) ∧ (b = true ↔ Computable s.activities) := by
  unfold Computable
  rcases calculate_spec s inv with ⟨h1, hc⟩ | ⟨_, h2, s1, k, _, p, hc, _⟩ |
    ⟨_, _, h3, s1, hc, _⟩ | ⟨h1, h2, h3, s1, hc, _⟩
  · exact ⟨false, s, emptyMsg, hc, by simp [h1]⟩
  · exact ⟨false, s1, _, hc, by simp [h2]⟩
  · exact ⟨false, s1, _, hc, by simp [h3]⟩
  · exact ⟨true, s1, "", hc, by simp [h1, h2, h3]⟩

theorem buildGraph_core (s : PERT) (err : String) :
    mapProj core (buildGraph s err).2.2.activities = mapProj core s.activities :=
  proj_of_proj_comp noSucc core core (fun _ => rfl) (buildGraph_frame s err).2.2.2

/-- Two successful calculations on the same activities leave the same state. -/
theorem calculate_true_unique {s1 s2 t1 t2 : PERT} {e1 e2 : String} (inv1 : Inv s1)
    (hcore : mapProj core s2.activities = mapProj core s1.activities)
    (h1 : calculate s1 = some (true, t1, e1)) (h2 : calculate s2 = some (true, t2, e2)) :
    t1 = t2 := by
  have inv2 : Inv s2 := inv1.inv_of_core hcore
  obtain ⟨_, _, _, cal1⟩ := calculated_of_true inv1 h1
  obtain ⟨_, _, _, cal2⟩ := calculated_of_true inv2 h2
  obtain ⟨a1, r1, hb1, hts1, ho1, hcp1⟩ := calculate_true_shape h1
  obtain ⟨a2, r2, hb2, hts2, ho2, hcp2⟩ := calculate_true_shape h2
  have hgcore : mapProj core (buildGraph s1 "").2.2.activities
      = mapProj core (buildGraph s2 "").2.2.activities :=
    (buildGraph_core s1 "").trans (hcore.symm.trans (buildGraph_core s2 "").symm)
  have hgs : mapProj static (buildGraph s1 "").2.2.activities
      = mapProj static (buildGraph s2 "").2.2.activities :=
    static_eq_of_core hgcore
      (keysSorted_of_proj noSucc (buildGraph_frame s1 "").2.2.2 inv1.sorted).nodup
      (buildGraph_true s1 "" hb1).2 (buildGraph_true s2 "" hb2).2
  have hlen : (buildGraph s1 "").2.2.activities.length = (buildGraph s2 "").2.2.activities.length :=
    length_eq_of_proj static hgs
  rw [hlen] at hts1
  have hord : t1.topo_order = t2.topo_order := by
    rw [ho1, ho2]
    exact topoSort_order_congr _ _ _ _ _ _ _ _ _ hgs hts1 hts2
  have htcore : mapProj core t1.activities = mapProj core t2.activities :=
    cal1.core.trans (hcore.symm.trans cal2.core.symm)
  have hst : mapProj static t1.activities = mapProj static t2.activities :=
    static_eq_of_core htcore cal1.graph.sorted.nodup cal1.graph.succSpec cal2.graph.succSpec
  obtain ⟨hacts, hpd⟩ := cal1.sched.unique cal1.graph cal1.order (hord ▸ cal2.sched) hst
  have hcp : t1.critical_path = t2.critical_path := by
    rw [hacts, hord, hcp2] at hcp1
    exact (Option.some.inj hcp1).symm
  cases t1
  cases t2
  simp only at hacts hpd hord hcp
  simp only [PERT.mk.injEq]
  exact ⟨hacts, hpd, hord, hcp⟩

theorem buildGraph_idem (s : PERT) (e e' : String) :
    buildGraph (buildGraph s e).2.2 e' = buildGraph s e' := by
  obtain ⟨f1, f2, f3, f4⟩ := buildGraph_frame s e
  have hcs : clearSuccessors (buildGraph s e).2.2.activities = clearSuccessors s.activities := by
    rw [clearSuccessors_eq, clearSuccessors_eq]
    exact f4
  rw [buildGraph_eq (buildGraph s e).2.2 e', hcs, buildGraph_eq s e', f1, f2, f3]

theorem buildGraph_topo (g : PERT) (l : List String) (e : String) :
    buildGraph { g with topo_order := l } e =
      ((buildGraph g e).1, (buildGraph g e).2.1, { (buildGraph g e).2.2 with topo_order := l }) := by
  rw [buildGraph_eq, buildGraph_eq]

theorem topoSort_topo (g : PERT) (l : List String) (fuel : Nat) (err : String) :
    topoSort fuel { g with topo_order := l } err = topoSort fuel g err := rfl

/-- Calling `calculate` on the state that `calculate` left gives the same result and state. -/
theorem calculate_idem {s t : PERT} {b : Bool} {e : String} (inv : Inv s)
    (h : calculate s = some (b, t, e)) : calculate t = some (b, t, e) := by
  cases b with
  | true =>
    have inv' : Inv t := inv.calculate h
    obtain ⟨h1, h2, h3, cal⟩ := calculated_of_true inv h
    have hcomp : Computable t.activities := Computable.of_core cal.core ⟨h1, h2, h3⟩
    have he : e = "" := by
      rcases calculate_spec s inv with ⟨_, hc⟩ | ⟨_, _, s1, k, _, p, hc, _⟩ |
        ⟨_, _, _, s1, hc, _⟩ | ⟨_, _, _, s1, hc, _⟩
      · rw [hc] at h; simp at h
      · rw [hc] at h; simp at h
      · rw [hc] at h; simp at h
      · rw [hc] at h
        simp only [Option.some.injEq, Prod.mk.injEq, true_and] at h
        exact h.2.symm
    rcases calculate_spec t inv' with ⟨g1, _⟩ | ⟨_, g2, _⟩ | ⟨_, _, g3, _⟩ |
      ⟨_, _, _, t', hc', _⟩
    · exact absurd g1 hcomp.1
    · exact absurd hcomp.2.1 g2
    · exact absurd hcomp.2.2 g3
    · have := calculate_true_unique inv cal.core h hc'
      rw [hc', ← this, he]
  | false =>
    rw [calculate_eq] at h
    by_cases h1 : s.activities = []
    · rw [if_pos h1] at h
      simp only [Option.some.injEq, Prod.mk.injEq, true_and] at h
      rw [← h.1, ← h.2, calculate_eq, if_pos h1]
    rw [if_neg h1] at h
    have hgne : (buildGraph s "").2.2.activities ≠ [] := by
      intro hnil
      have := length_eq_of_proj core (buildGraph_core s "")
      rw [hnil] at this
      exact h1 (List.length_eq_zero.1 this.symm)
    by_cases h2 : (buildGraph s "").1 = false
    · rw [if_pos h2] at h
      simp only [Option.some.injEq, Prod.mk.injEq, true_and] at h
      rw [← h.1, ← h.2, calculate_eq, if_neg hgne, buildGraph_idem, if_pos h2]
    rw [if_neg h2] at h
    have hbt : (buildGraph s "").1 = true := by
      cases hb : (buildGraph s "").1
      · exact absurd hb h2
      · rfl
    obtain ⟨herr, hsucc⟩ := buildGraph_true s "" hbt
    have hres : PredsResolved s.activities := (buildGraph_true_iff s "" inv.sorted).1 hbt
    obtain ⟨_, _, _, f4⟩ := buildGraph_frame s ""
    have g1 : GraphOK (buildGraph s "").2.2.activities :=
      ⟨keysSorted_of_proj noSucc f4 inv.sorted,
       hres.resolved_of_proj noSucc (fun a => a.predecessors) (fun _ => rfl) f4, hsucc⟩
    obtain ⟨d, ord, _, hts⟩ := topoSort_spec (buildGraph s "").2.2 ""
      ((buildGraph s "").2.2.activities.length + 1) g1 (Nat.le_succ _)
    rw [herr, hts] at h
    by_cases hlen : ord.length = (buildGraph s "").2.2.activities.length
    · rw [if_neg (by simpa using hlen)] at h
      simp only at h
      cases hd : deriveCriticalPath
          ((calculateSlack (backwardPass (forwardPass
            { (buildGraph s "").2.2 with topo_order := ord }).2).2).activities.length + 1)
          (calculateSlack (backwardPass (forwardPass
            { (buildGraph s "").2.2 with topo_order := ord }).2).2) with
      | none => rw [hd] at h; simp at h
      | some x => rw [hd] at h; simp at h
    · rw [if_pos (by simpa using hlen)] at hts h
      simp only [Option.some.injEq, Prod.mk.injEq, true_and] at h
      have hbt' : buildGraph t "" = (true, "", t) := by
        rw [← h.1, buildGraph_topo, buildGraph_idem, hbt, herr]
      rw [calculate_eq]
      have htne : t.activities ≠ [] := by
        rw [← h.1]; exact hgne
      rw [if_neg htne, hbt']
      have hts' : topoSort (t.activities.length + 1) t "" = some (false, cycleMsg, t) := by
        rw [← h.1]
        exact hts
      simp only [hts', Bool.true_eq_false, if_false]
      rw [← h.2]

theorem staleAB_reachable : Reachable staleAB :=
  Reachable.add scheduledA "B" 1 ["missing"]
    (Reachable.calculate (addActivity {} "A" 2 []).2 scheduledA true ""
      (Reachable.add _ "A" 2 [] Reachable.fresh) (by decide!))

theorem freshAB_reachable : Reachable freshAB :=
  Reachable.add _ "B" 1 ["missing"] (Reachable.add _ "A" 2 [] Reachable.fresh)

/-- Refutation of state equality after a failed `calculate`: two reachable states with the
same activities, one of them carrying the times of an earlier calculation, both fail on the
missing predecessor and are left different (`EF` of A is 2 in one and 0 in the other). -/
theorem calculate_from_scratch_refuted :
    Reachable staleAB ∧ Reachable freshAB ∧
    mapProj core staleAB.activities = mapProj core freshAB.activities ∧
    (calculate staleAB).map (fun r => r.1) = some false ∧
    (calculate freshAB).map (fun r => r.1) = some false ∧
    (calculate staleAB).map (fun r => r.2.1) ≠ (calculate freshAB).map (fun r => r.2.1) ∧
    ((calculate staleAB).map fun r => (find r.2.1 "A").map Activity.EF) = some (some 2) ∧
    ((calculate freshAB).map fun r => (find r.2.1 "A").map Activity.EF) = some (some 0) :=
  ⟨staleAB_reachable, freshAB_reachable, by decide!, by decide!, by decide!, by decide!,
   by decide!, by decide!⟩

/-- C14 (amended): for two well-formed states holding the same activities (same keys, ids,
durations and predecessor lists) and any values in the derived fields, `calculate` returns
the same boolean, and when that boolean is `true` it leaves the same state; and calling
`calculate` on the state that a `calculate` call left returns the same boolean and leaves
that state unchanged. -/
theorem calculate_from_scratch (s1 s2 : PERT) (inv : Inv s1)
    (hcore : mapProj core s2.activities = mapProj core s1.activities) :
    (∃ b t1 t2 e1 e2, calculate s1 = some (b, t1, e1) ∧ calculate s2 = some (b, t2, e2) ∧
      (b = true → t1 = t2)) ∧
    (∀ b t e, calculate s1 = some (b, t, e) → calculate t = some (b, t, e)) := by
  have inv2 : Inv s2 := inv.inv_of_core hcore
  refine ⟨?_, fun b t e h => calculate_idem inv h⟩
  obtain ⟨b1, t1, e1, h1, hb1⟩ := calculate_returns s1 inv
  obtain ⟨b2, t2, e2, h2, hb2⟩ := calculate_returns s2 inv2
  have hiff : Computable s1.activities ↔ Computable s2.activities :=
    ⟨fun c => Computable.of_core hcore c, fun c => Computable.of_core hcore.symm c⟩
  have hb : b2 = b1 := by
    cases b1 <;> cases b2
    · rfl
    · exact absurd (hiff.2 (hb2.1 rfl)) (fun c => by simpa using hb1.2 c)
    · exact absurd (hiff.1 (hb1.1 rfl)) (fun c => by simpa using hb2.2 c)
    · rfl
  subst hb
  refine ⟨b2, t1, t2, e1, e2, h1, h2, ?_⟩
  intro hbt
  subst hbt
  exact calculate_true_unique inv hcore h1 h2

theorem calculate_from_scratch_witness :
    Inv exampleABC ∧ mapProj core scheduledABC.activities = mapProj core exampleABC.activities ∧
    (∃ b t1 t2 e1 e2, calculate exampleABC = some (b, t1, e1) ∧
      calculate scheduledABC = some (b, t2, e2) ∧ (b = true → t1 = t2)) ∧
    (∀ b t e, calculate exampleABC = some (b, t, e) → calculate t = some (b, t, e)) :=
  ⟨exampleABC_reachable.inv, by decide!,
   calculate_from_scratch exampleABC scheduledABC exampleABC_reachable.inv (by decide!)⟩

end PERT
